import Mathlib

/-!
# soypat/geometry, package md3: the 3x3 singular value decomposition

A shallow embedding of `md3/linalg.go` (SVD, QRDecomposition, sortSingularValues,
qrGivensQuat, jacobiEigenanalysis, jacobiConj, approximateGivensQuaternion) and of
`Quat.RotationMat3` (`ms3/rotation.go`; md3 is the float64 copy generated from ms3).

The embedding is generic in the scalar type: every definition takes an ordered field
`α` and the square root function it should use, so the same definitions run on
rationals and are reasoned about on the reals with `Real.sqrt`.

The definitions of the packages come first (namespaces `md3`, `ms2` and `i3`), the
theorems about them follow in the same order.
-/

namespace md3

/-- Mat3 is a 3x3 matrix; field `xRC` is the entry at row `R`, column `C`. -/
@[ext]
structure Mat3 (α : Type) where
  x00 : α
  x01 : α
  x02 : α
  x10 : α
  x11 : α
  x12 : α
  x20 : α
  x21 : α
  x22 : α

/-- Vec is a 3D vector. -/
@[ext]
structure Vec (α : Type) where
  X : α
  Y : α
  Z : α

/-- Quat is a quaternion. The field order I, J, K, W is the declaration order of the
struct in `quat.go`; `jacobiConj` indexes the struct as a flat array of four scalars. -/
@[ext]
structure Quat (α : Type) where
  I : α
  J : α
  K : α
  W : α

section Code

variable {α : Type} [LinearOrderedField α]

/-- Constant `gamma` of linalg.go: sqrt(8)+3 rounded to ten digits. -/
def gamma : α := 5.828427124

/-- Constant `cstar` of linalg.go: cos(pi/8) rounded. -/
def cstar : α := 0.923879532

/-- Constant `sstar` of linalg.go: sin(pi/8) rounded. -/
def sstar : α := 0.3826834323

/-- Constant `epsilon` of linalg.go. -/
def epsilon : α := 1e-6

/-- Modelled from the spec: the constructor `mat3` of package md3 is not in the source
tree; it fills a matrix from nine scalars in row-major order. -/
def mat3 (a00 a01 a02 a10 a11 a12 a20 a21 a22 : α) : Mat3 α :=
  { x00 := a00, x01 := a01, x02 := a02
    x10 := a10, x11 := a11, x12 := a12
    x20 := a20, x21 := a21, x22 := a22 }

/-- Modelled from the spec: `MulMat3` of package md3 is not in the source tree; the spec
lists it as the exact matrix product of two 3x3 matrices. -/
def MulMat3 (a b : Mat3 α) : Mat3 α :=
  { x00 := a.x00 * b.x00 + a.x01 * b.x10 + a.x02 * b.x20
    x01 := a.x00 * b.x01 + a.x01 * b.x11 + a.x02 * b.x21
    x02 := a.x00 * b.x02 + a.x01 * b.x12 + a.x02 * b.x22
    x10 := a.x10 * b.x00 + a.x11 * b.x10 + a.x12 * b.x20
    x11 := a.x10 * b.x01 + a.x11 * b.x11 + a.x12 * b.x21
    x12 := a.x10 * b.x02 + a.x11 * b.x12 + a.x12 * b.x22
    x20 := a.x20 * b.x00 + a.x21 * b.x10 + a.x22 * b.x20
    x21 := a.x20 * b.x01 + a.x21 * b.x11 + a.x22 * b.x21
    x22 := a.x20 * b.x02 + a.x21 * b.x12 + a.x22 * b.x22 }

/-- Modelled from the spec: `Mat3.Transpose` of package md3 is not in the source tree; the
spec lists it as the exact transpose. -/
def Mat3.Transpose (a : Mat3 α) : Mat3 α :=
  { x00 := a.x00, x01 := a.x10, x02 := a.x20
    x10 := a.x01, x11 := a.x11, x12 := a.x21
    x20 := a.x02, x21 := a.x12, x22 := a.x22 }

/-- Modelled from the spec: `Mat3.VecCol` of package md3 is not in the source tree; the
spec lists it as column extraction. Columns outside 0..2 do not occur in the callers. -/
def Mat3.VecCol (a : Mat3 α) (j : Fin 3) : Vec α :=
  match j with
  | 0 => { X := a.x00, Y := a.x10, Z := a.x20 }
  | 1 => { X := a.x01, Y := a.x11, Z := a.x21 }
  | 2 => { X := a.x02, Y := a.x12, Z := a.x22 }

/-- Modelled from the spec: `Norm2` of package md3 is not in the source tree; the spec
calls its results the squared column norms. -/
def Norm2 (p : Vec α) : α := p.X * p.X + p.Y * p.Y + p.Z * p.Z

/-- The four scalars of a quaternion read as the flat array `(*[4]float64)(unsafe.Pointer(qV))`. -/
def Quat.get (q : Quat α) (i : Fin 4) : α :=
  match i with
  | 0 => q.I
  | 1 => q.J
  | 2 => q.K
  | 3 => q.W

/-- Store into one slot of the flat array view of a quaternion. -/
def Quat.set (q : Quat α) (i : Fin 4) (v : α) : Quat α :=
  match i with
  | 0 => { q with I := v }
  | 1 => { q with J := v }
  | 2 => { q with K := v }
  | 3 => { q with W := v }

/-- RotationMat3 (rotation.go): the 3x3 matrix of the rotation a quaternion encodes. -/
def Quat.RotationMat3 (q : Quat α) : Mat3 α :=
  let w := q.W
  let i := q.I
  let j := q.J
  let k := q.K
  let ii := 2 * i * i
  let jj := 2 * j * j
  let kk := 2 * k * k
  let wi := 2 * w * i
  let wj := 2 * w * j
  let wk := 2 * w * k
  let ij := 2 * i * j
  let jk := 2 * j * k
  let ki := 2 * k * i
  mat3
    (1 - (jj + kk)) (ij - wk) (ki + wj)
    (ij + wk) (1 - (ii + kk)) (jk - wi)
    (ki - wj) (jk + wi) (1 - (ii + jj))

/-- approximateGivensQuaternion (linalg.go): the approximate Givens pair for the
symmetric 2x2 block (a11, a12; a12, a22), or the fixed pair (cstar, sstar). -/
def approximateGivensQuaternion (sqrt : α → α) (a11 a12 a22 : α) : α × α :=
  let ch := 2 * (a11 - a22)
  let sh := a12
  let w := 1 / sqrt (ch * ch + sh * sh)
  if gamma * sh * sh < ch * ch then (w * ch, w * sh) else (cstar, sstar)

/-- jacobiConj (linalg.go): one elimination step. The source mutates `m` and `qV` through
pointers; here the new values are returned. -/
def jacobiConj (sqrt : α → α) (m : Mat3 α) (x y z : Fin 3) (qV : Quat α) : Mat3 α × Quat α :=
  let g := approximateGivensQuaternion sqrt m.x00 m.x10 m.x11
  let ch := g.1
  let sh := g.2
  let scale := ch * ch + sh * sh
  let a := (ch * ch - sh * sh) / scale
  let b := (2 * sh * ch) / scale
  -- Update cumulative rotation qV
  let tmp : Fin 3 → α := fun i =>
    match i with
    | 0 => qV.I * sh
    | 1 => qV.J * sh
    | 2 => qV.K * sh
  let sh := sh * qV.W
  let q0 : Quat α := { I := qV.I * ch, J := qV.J * ch, K := qV.K * ch, W := qV.W * ch }
  let q1 := q0.set z.castSucc (q0.get z.castSucc + sh)
  let q2 := q1.set 3 (q1.get 3 - tmp z)
  let q3 := q2.set x.castSucc (q2.get x.castSucc + tmp y)
  let q4 := q3.set y.castSucc (q3.get y.castSucc - tmp x)
  -- Make temp copy of S
  let s11 := m.x00
  let s21 := m.x10
  let s22 := m.x11
  let s31 := m.x20
  let s32 := m.x21
  let s33 := m.x22
  -- Perform conjugation S = Q'*S*Q
  let n00 := a * (a * s11 + b * s21) + b * (a * s21 + b * s22)
  let n10 := a * (-b * s11 + a * s21) + b * (-b * s21 + a * s22)
  let n11 := -b * (-b * s11 + a * s21) + a * (-b * s21 + a * s22)
  let n20 := a * s31 + b * s32
  let n21 := -b * s31 + a * s32
  let n22 := s33
  -- Rearrange matrix for next iteration
  ({ m with x00 := n11, x10 := n21, x11 := n22, x20 := n10, x21 := n20, x22 := n00 }, q4)

/-- Body of the loop of jacobiEigenanalysis: the three elimination steps of one sweep. -/
def jacobiSweep (sqrt : α → α) (s : Mat3 α × Quat α) : Mat3 α × Quat α :=
  let s1 := jacobiConj sqrt s.1 0 1 2 s.2
  let s2 := jacobiConj sqrt s1.1 1 2 0 s1.2
  jacobiConj sqrt s2.1 2 0 1 s2.2

/-- jacobiEigenanalysis (linalg.go): four sweeps starting from the quaternion with W = 1. -/
def jacobiEigenanalysis (sqrt : α → α) (m : Mat3 α) : Mat3 α × Quat α :=
  (jacobiSweep sqrt)^[4] (m, { I := 0, J := 0, K := 0, W := 1 })

/-- qrGivensQuat (linalg.go): the half-angle Givens pair for the scalars (a1, a2). -/
def qrGivensQuat (sqrt : α → α) (a1 a2 : α) : α × α :=
  let eps : α := epsilon
  let rho := sqrt (a1 * a1 + a2 * a2)
  let sh := if rho > eps then a2 else 0
  let ch := |a1| + max rho eps
  let w := 1 / sqrt (ch * ch + sh * sh)
  let ch := ch * w
  let sh := sh * w
  if a1 < 0 then (sh, ch) else (ch, sh)

/-- QRDecomposition (linalg.go): returns (q, r). -/
def Mat3.QRDecomposition (sqrt : α → α) (b : Mat3 α) : Mat3 α × Mat3 α :=
  let b11 := b.x00
  let b12 := b.x01
  let b13 := b.x02
  let b21 := b.x10
  let b22 := b.x11
  let b23 := b.x12
  let b31 := b.x20
  let b32 := b.x21
  let b33 := b.x22
  -- First Givens rotation
  let g1 := qrGivensQuat sqrt b11 b21
  let ch1 := g1.1
  let sh1 := g1.2
  let as := 1 - 2 * sh1 * sh1
  let bs := 2 * ch1 * sh1
  -- Compute R after first rotation
  let r : Mat3 α :=
    { x00 := as * b11 + bs * b21
      x01 := as * b12 + bs * b22
      x02 := as * b13 + bs * b23
      x10 := -bs * b11 + as * b21
      x11 := -bs * b12 + as * b22
      x12 := -bs * b13 + as * b23
      x20 := b31
      x21 := b32
      x22 := b33 }
  -- Second Givens rotation
  let g2 := qrGivensQuat sqrt r.x00 r.x20
  let ch2 := g2.1
  let sh2 := g2.2
  let as := 1 - 2 * sh2 * sh2
  let bs := 2 * ch2 * sh2
  let b11 := as * r.x00 + bs * r.x20
  let b12 := as * r.x01 + bs * r.x21
  let b13 := as * r.x02 + bs * r.x22
  let b21 := r.x10
  let b22 := r.x11
  let b23 := r.x12
  let b31 := -bs * r.x00 + as * r.x20
  let b32 := -bs * r.x01 + as * r.x21
  let b33 := -bs * r.x02 + as * r.x22
  -- Third Givens rotation
  let g3 := qrGivensQuat sqrt b22 b32
  let ch3 := g3.1
  let sh3 := g3.2
  let as := 1 - 2 * sh3 * sh3
  let bs := 2 * ch3 * sh3
  -- Compute R after third rotation
  let r : Mat3 α :=
    { x00 := b11
      x01 := b12
      x02 := b13
      x10 := as * b21 + bs * b31
      x11 := as * b22 + bs * b32
      x12 := as * b23 + bs * b33
      x20 := -bs * b21 + as * b31
      x21 := -bs * b22 + as * b32
      x22 := -bs * b23 + as * b33 }
  -- Construct cumulative rotation Q = Q1 * Q2 * Q3
  let sh12 := sh1 * sh1
  let sh22 := sh2 * sh2
  let sh32 := sh3 * sh3
  let q : Mat3 α :=
    { x00 := (-1 + 2 * sh12) * (-1 + 2 * sh22)
      x01 := 4 * ch2 * ch3 * (-1 + 2 * sh12) * sh2 * sh3 + 2 * ch1 * sh1 * (-1 + 2 * sh32)
      x02 := 4 * ch1 * ch3 * sh1 * sh3 - 2 * ch2 * (-1 + 2 * sh12) * sh2 * (-1 + 2 * sh32)
      x10 := 2 * ch1 * sh1 * (1 - 2 * sh22)
      x11 := -8 * ch1 * ch2 * ch3 * sh1 * sh2 * sh3 + (-1 + 2 * sh12) * (-1 + 2 * sh32)
      x12 := -2 * ch3 * sh3 + 4 * sh1 * (ch3 * sh1 * sh3 + ch1 * ch2 * sh2 * (-1 + 2 * sh32))
      x20 := 2 * ch2 * sh2
      x21 := 2 * ch3 * (1 - 2 * sh22) * sh3
      x22 := (-1 + 2 * sh22) * (-1 + 2 * sh32) }
  (q, r)

/-- The signed column exchange of sortSingularValues: columns (i, j) become (j, -i).
Written once for the pair (0, 1) of the source. -/
def swapCols01 (m : Mat3 α) : Mat3 α :=
  { m with x00 := m.x01, x01 := -m.x00, x10 := m.x11, x11 := -m.x10,
           x20 := m.x21, x21 := -m.x20 }

/-- The signed column exchange for the pair (0, 2). -/
def swapCols02 (m : Mat3 α) : Mat3 α :=
  { m with x00 := m.x02, x02 := -m.x00, x10 := m.x12, x12 := -m.x10,
           x20 := m.x22, x22 := -m.x20 }

/-- The signed column exchange for the pair (1, 2). -/
def swapCols12 (m : Mat3 α) : Mat3 α :=
  { m with x01 := m.x02, x02 := -m.x01, x11 := m.x12, x12 := -m.x11,
           x21 := m.x22, x22 := -m.x21 }

/-- sortSingularValues (linalg.go): three compare-and-exchange steps on the columns of
`b`, mirrored on `v`. The tuple threaded through is (b, v, rho1, rho2, rho3). -/
def sortSingularValues (b v : Mat3 α) : Mat3 α × Mat3 α :=
  let rho1 := Norm2 (b.VecCol 0)
  let rho2 := Norm2 (b.VecCol 1)
  let rho3 := Norm2 (b.VecCol 2)
  let s1 : Mat3 α × Mat3 α × α × α × α :=
    if rho1 < rho2 then (swapCols01 b, swapCols01 v, rho2, rho1, rho3)
    else (b, v, rho1, rho2, rho3)
  let s2 : Mat3 α × Mat3 α × α × α × α :=
    if s1.2.2.1 < s1.2.2.2.2 then
      (swapCols02 s1.1, swapCols02 s1.2.1, s1.2.2.1, s1.2.2.2.1, s1.2.2.1)
    else s1
  let s3 : Mat3 α × Mat3 α :=
    if s2.2.2.2.1 < s2.2.2.2.2 then (swapCols12 s2.1, swapCols12 s2.2.1)
    else (s2.1, s2.2.1)
  s3

/-- SVD (linalg.go): returns (U, S, V). -/
def Mat3.SVD (sqrt : α → α) (a : Mat3 α) : Mat3 α × Mat3 α × Mat3 α :=
  let ATA := MulMat3 a.Transpose a
  let qVr := (jacobiEigenanalysis sqrt ATA).2
  let V := qVr.RotationMat3
  let b := MulMat3 a V
  let bv := sortSingularValues b V
  let us := bv.1.QRDecomposition sqrt
  (us.1, us.2, bv.2)

/-! ### Names for intermediate values of the code and for the objects the claims speak of -/

/-- The identity matrix. -/
def ident : Mat3 α := mat3 1 0 0 0 1 0 0 0 1

/-- The zero matrix. -/
def zero3 : Mat3 α := mat3 0 0 0 0 0 0 0 0 0

/-- The diagonal matrix diag(a, b, c). -/
def diag3 (a b c : α) : Mat3 α := mat3 a 0 0 0 b 0 0 0 c

/-- Planar rotation acting on rows 0 and 1 with cosine `c` and sine `s`. -/
def planar01 (c s : α) : Mat3 α := mat3 c s 0 (-s) c 0 0 0 1

/-- Planar rotation acting on rows 0 and 2. -/
def planar02 (c s : α) : Mat3 α := mat3 c 0 s 0 1 0 (-s) 0 c

/-- Planar rotation acting on rows 1 and 2. -/
def planar12 (c s : α) : Mat3 α := mat3 1 0 0 0 c s 0 (-s) c

/-- The value `as = 1 - 2*sh*sh` QRDecomposition derives from a Givens pair. -/
def givensCos (g : α × α) : α := 1 - 2 * g.2 * g.2

/-- The value `bs = 2*ch*sh` QRDecomposition derives from a Givens pair. -/
def givensSin (g : α × α) : α := 2 * g.1 * g.2

/-- The first Givens pair (ch1, sh1) of QRDecomposition (linalg.go line 50). -/
def qrPair1 (sqrt : α → α) (b : Mat3 α) : α × α := qrGivensQuat sqrt b.x00 b.x10

/-- The matrix `r` of QRDecomposition after the first rotation (lines 55-65). -/
def qrR1 (sqrt : α → α) (b : Mat3 α) : Mat3 α :=
  let as := givensCos (qrPair1 sqrt b)
  let bs := givensSin (qrPair1 sqrt b)
  { x00 := as * b.x00 + bs * b.x10
    x01 := as * b.x01 + bs * b.x11
    x02 := as * b.x02 + bs * b.x12
    x10 := -bs * b.x00 + as * b.x10
    x11 := -bs * b.x01 + as * b.x11
    x12 := -bs * b.x02 + as * b.x12
    x20 := b.x20
    x21 := b.x21
    x22 := b.x22 }

/-- The second Givens pair (ch2, sh2) of QRDecomposition (line 68). -/
def qrPair2 (sqrt : α → α) (b : Mat3 α) : α × α :=
  qrGivensQuat sqrt (qrR1 sqrt b).x00 (qrR1 sqrt b).x20

/-- The values b11..b33 of QRDecomposition after the second rotation (lines 72-80). -/
def qrR2 (sqrt : α → α) (b : Mat3 α) : Mat3 α :=
  let r := qrR1 sqrt b
  let as := givensCos (qrPair2 sqrt b)
  let bs := givensSin (qrPair2 sqrt b)
  { x00 := as * r.x00 + bs * r.x20
    x01 := as * r.x01 + bs * r.x21
    x02 := as * r.x02 + bs * r.x22
    x10 := r.x10
    x11 := r.x11
    x12 := r.x12
    x20 := -bs * r.x00 + as * r.x20
    x21 := -bs * r.x01 + as * r.x21
    x22 := -bs * r.x02 + as * r.x22 }

/-- The third Givens pair (ch3, sh3) of QRDecomposition (line 83). -/
def qrPair3 (sqrt : α → α) (b : Mat3 α) : α × α :=
  qrGivensQuat sqrt (qrR2 sqrt b).x11 (qrR2 sqrt b).x21

/-- Squared Frobenius norm of a matrix: the sum of the squares of its nine entries. -/
def frobSq (m : Mat3 α) : α :=
  m.x00 * m.x00 + m.x01 * m.x01 + m.x02 * m.x02 +
  m.x10 * m.x10 + m.x11 * m.x11 + m.x12 * m.x12 +
  m.x20 * m.x20 + m.x21 * m.x21 + m.x22 * m.x22

/-- Entrywise difference of two matrices. -/
def subMat3 (a b : Mat3 α) : Mat3 α :=
  { x00 := a.x00 - b.x00, x01 := a.x01 - b.x01, x02 := a.x02 - b.x02
    x10 := a.x10 - b.x10, x11 := a.x11 - b.x11, x12 := a.x12 - b.x12
    x20 := a.x20 - b.x20, x21 := a.x21 - b.x21, x22 := a.x22 - b.x22 }

/-- Every entry of the matrix has absolute value at most `t`. -/
def entriesLe (m : Mat3 α) (t : α) : Prop :=
  |m.x00| ≤ t ∧ |m.x01| ≤ t ∧ |m.x02| ≤ t ∧
  |m.x10| ≤ t ∧ |m.x11| ≤ t ∧ |m.x12| ≤ t ∧
  |m.x20| ≤ t ∧ |m.x21| ≤ t ∧ |m.x22| ≤ t

/-- Determinant of a 3x3 matrix, by expansion along the first row. -/
def det3 (m : Mat3 α) : α :=
  m.x00 * (m.x11 * m.x22 - m.x12 * m.x21)
  - m.x01 * (m.x10 * m.x22 - m.x12 * m.x20)
  + m.x02 * (m.x10 * m.x21 - m.x11 * m.x20)

/-- Squared norm of a quaternion. -/
def Quat.normSq (q : Quat α) : α := q.I * q.I + q.J * q.J + q.K * q.K + q.W * q.W

/-- A matrix whose only non-zero entry is 1e-7 at row 1, column 0: shorter than epsilon. -/
def tinyLower : Mat3 α := mat3 0 0 0 1e-7 0 0 0 0 0
/-- A sample matrix whose first column (3, 4, 0) needs a proper rotation. -/
def sampleB : Mat3 α := mat3 3 1 0 4 2 0 0 0 1

/-- The update of the cumulative rotation in jacobiConj (linalg.go lines 200-217), for a
Givens pair (ch, sh). -/
def quatUpdate (ch sh : α) (x y z : Fin 3) (qV : Quat α) : Quat α :=
  let tmp : Fin 3 → α := fun i =>
    match i with
    | 0 => qV.I * sh
    | 1 => qV.J * sh
    | 2 => qV.K * sh
  let sh := sh * qV.W
  let q0 : Quat α := { I := qV.I * ch, J := qV.J * ch, K := qV.K * ch, W := qV.W * ch }
  let q1 := q0.set z.castSucc (q0.get z.castSucc + sh)
  let q2 := q1.set 3 (q1.get 3 - tmp z)
  let q3 := q2.set x.castSucc (q2.get x.castSucc + tmp y)
  let q4 := q3.set y.castSucc (q3.get y.castSucc - tmp x)
  q4

/-- Squared norm of the fixed pair (cstar, sstar). -/
def fallbackNormSq : α := cstar * cstar + sstar * sstar

/-- The matrix 4·(v·vᵀ - |v|²·I) for the vector part v = (I, J, K) of a quaternion: the
shape of the deviation of a RotationMat3 from orthogonality. -/
def rotDefect (q : Quat α) : Mat3 α :=
  mat3 (-4 * (q.J * q.J + q.K * q.K)) (4 * q.I * q.J) (4 * q.I * q.K)
    (4 * q.I * q.J) (-4 * (q.I * q.I + q.K * q.K)) (4 * q.J * q.K)
    (4 * q.I * q.K) (4 * q.J * q.K) (-4 * (q.I * q.I + q.J * q.J))

/-- Every entry of a matrix multiplied by the scalar `c`. -/
def scaleMat3 (c : α) (m : Mat3 α) : Mat3 α :=
  { x00 := c * m.x00, x01 := c * m.x01, x02 := c * m.x02
    x10 := c * m.x10, x11 := c * m.x11, x12 := c * m.x12
    x20 := c * m.x20, x21 := c * m.x21, x22 := c * m.x22 }

/-- The matrix `V` of SVD before sorting (linalg.go lines 25-31). -/
def svdV0 (sqrt : α → α) (a : Mat3 α) : Mat3 α :=
  (jacobiEigenanalysis sqrt (MulMat3 a.Transpose a)).2.RotationMat3

/-- The matrix `b` of SVD after sorting (line 35), the input of QRDecomposition. -/
def svdB (sqrt : α → α) (a : Mat3 α) : Mat3 α :=
  (sortSingularValues (MulMat3 a (svdV0 sqrt a)) (svdV0 sqrt a)).1

/-- Squared norm of column `j` of a matrix, as sortSingularValues computes it. -/
def colNorm2 (m : Mat3 α) (j : Fin 3) : α := Norm2 (m.VecCol j)

/-- The reflection diag(1, 1, -1), an input with determinant -1. -/
def reflectZ : Mat3 α := diag3 1 1 (-1)

/-- The rotation by a quarter turn about the first axis, a signed permutation matrix. -/
def quarterX : Mat3 α := mat3 1 0 0 0 0 (-1) 0 1 0

/-- A signed permutation matrix: orthogonal with every entry in {0, 1, -1}. -/
def isSignedPerm (m : Mat3 α) : Prop :=
  MulMat3 m.Transpose m = ident ∧
  (m.x00 = 0 ∨ m.x00 = 1 ∨ m.x00 = -1) ∧ (m.x01 = 0 ∨ m.x01 = 1 ∨ m.x01 = -1) ∧
  (m.x02 = 0 ∨ m.x02 = 1 ∨ m.x02 = -1) ∧ (m.x10 = 0 ∨ m.x10 = 1 ∨ m.x10 = -1) ∧
  (m.x11 = 0 ∨ m.x11 = 1 ∨ m.x11 = -1) ∧ (m.x12 = 0 ∨ m.x12 = 1 ∨ m.x12 = -1) ∧
  (m.x20 = 0 ∨ m.x20 = 1 ∨ m.x20 = -1) ∧ (m.x21 = 0 ∨ m.x21 = 1 ∨ m.x21 = -1) ∧
  (m.x22 = 0 ∨ m.x22 = 1 ∨ m.x22 = -1)

/-- One sweep of jacobiEigenanalysis on the accumulator when all three elimination steps
take the fixed pair (cstar, sstar). -/
def fallbackSweep (q : Quat α) : Quat α :=
  quatUpdate cstar sstar 2 0 1 (quatUpdate cstar sstar 1 2 0 (quatUpdate cstar sstar 0 1 2 q))

/-- The accumulator after four sweeps that always take the fixed pair. -/
def qFallback : Quat α :=
  fallbackSweep (fallbackSweep (fallbackSweep (fallbackSweep { I := 0, J := 0, K := 0, W := 1 })))

/-- Every entry of the matrix is larger than `t` in absolute value. -/
def entriesGt (m : Mat3 α) (t : α) : Prop :=
  t < |m.x00| ∧ t < |m.x01| ∧ t < |m.x02| ∧
  t < |m.x10| ∧ t < |m.x11| ∧ t < |m.x12| ∧
  t < |m.x20| ∧ t < |m.x21| ∧ t < |m.x22|
/-- The accumulator after 1 sweep that always take the fixed pair, as exact fractions. -/
def qSweep1 : Quat α :=
  { I := (4783542897158864727502766373 / 25000000000000000000000000000)
    J := (11548494142941245491737837387 / 25000000000000000000000000000)
    K := (11548494142941245491737837387 / 25000000000000000000000000000)
    W := (732537815048106767337765911733 / 1000000000000000000000000000000) }

/-- The accumulator after 2 sweeps that always take the fixed pair, as exact fractions. -/
def qSweep2 : Quat α :=
  { I := (3504126062073645260569291080736169268789532575256038554409 / 12500000000000000000000000000000000000000000000000000000000)
    J := (8459708666566038366732262797192882183027704392633749361671 / 12500000000000000000000000000000000000000000000000000000000)
    K := (8459708666566038366732262797192882183027704392633749361671 / 12500000000000000000000000000000000000000000000000000000000)
    W := (73223303934565430096507366156471807440738892822617465996089 / 1000000000000000000000000000000000000000000000000000000000000) }

/-- The accumulator after 3 sweeps that always take the fixed pair, as exact fractions. -/
def qSweep3 : Quat α :=
  { I := (5484076513771804507052140549652136112127413115699652073887596854441656345691517922676791 / 25000000000000000000000000000000000000000000000000000000000000000000000000000000000000000)
    J := (13239731901714772595383774550165565970519632072173332187333243582765321500391838818751129 / 25000000000000000000000000000000000000000000000000000000000000000000000000000000000000000)
    K := (13239731901714772595383774550165565970519632072173332187333243582765321500391838818751129 / 25000000000000000000000000000000000000000000000000000000000000000000000000000000000000000)
    W := (-625260134712805279985868286006426015963604393558925086752115423610217222237421468385702963 / 1000000000000000000000000000000000000000000000000000000000000000000000000000000000000000000) }

/-- The accumulator after 4 sweeps that always take the fixed pair, as exact fractions. -/
def qSweep4 : Quat α :=
  { I := (256583687668250415543416104842320489640015160822039101773371090332141109574387366402256112213845249752408340807706401 / 6250000000000000000000000000000000000000000000000000000000000000000000000000000000000000000000000000000000000000000000)
    J := (619447818889842265297302070137483370770651635611897654597094130884190774761052234543666598013206422629324951932504719 / 6250000000000000000000000000000000000000000000000000000000000000000000000000000000000000000000000000000000000000000000)
    K := (619447818889842265297302070137483370770651635611897654597094130884190774761052234543666598013206422629324951932504719 / 6250000000000000000000000000000000000000000000000000000000000000000000000000000000000000000000000000000000000000000000)
    W := (-989276689554498768185061325627679106954360265981419995459687221085888060161197243044373714465777152287612720258484787279 / 1000000000000000000000000000000000000000000000000000000000000000000000000000000000000000000000000000000000000000000000000) }
/-- The columns of the matrix are mutually orthogonal. -/
def colsOrthogonal (m : Mat3 α) : Prop :=
  m.x00 * m.x01 + m.x10 * m.x11 + m.x20 * m.x21 = 0 ∧
  m.x00 * m.x02 + m.x10 * m.x12 + m.x20 * m.x22 = 0 ∧
  m.x01 * m.x02 + m.x11 * m.x12 + m.x21 * m.x22 = 0

/-- The three squared column norms of a matrix, in column order. -/
def colNorms (m : Mat3 α) : List α := [colNorm2 m 0, colNorm2 m 1, colNorm2 m 2]

/-- The divisor of `w := 1 / sqrt(ch*ch + sh*sh)` in approximateGivensQuaternion. -/
def approxGivensDivisor (sqrt : α → α) (a11 a12 a22 : α) : α :=
  let ch := 2 * (a11 - a22)
  let sh := a12
  sqrt (ch * ch + sh * sh)

/-- The divisor `scale := ch*ch + sh*sh` of the two divisions in jacobiConj. -/
def jacobiConjDivisor (sqrt : α → α) (m : Mat3 α) : α :=
  let g := approximateGivensQuaternion sqrt m.x00 m.x10 m.x11
  g.1 * g.1 + g.2 * g.2

/-- The divisor of `w := 1 / sqrt(ch*ch + sh*sh)` in qrGivensQuat. -/
def qrGivensDivisor (sqrt : α → α) (a1 a2 : α) : α :=
  let eps : α := epsilon
  let rho := sqrt (a1 * a1 + a2 * a2)
  let sh := if rho > eps then a2 else 0
  let ch := |a1| + max rho eps
  sqrt (ch * ch + sh * sh)

/-- A unit quaternion with components (3/5, 0, 0, 4/5). -/
def unitQuat : Quat α := { I := 3 / 5, J := 0, K := 0, W := 4 / 5 }

/-- A quaternion of squared norm 2 with a non-zero vector part. -/
def longQuat : Quat α := { I := 1, J := 0, K := 0, W := 1 }

/-- A quaternion of squared norm 4 with zero vector part. -/
def scalarQuat : Quat α := { I := 0, J := 0, K := 0, W := 2 }

/-- Modelled from the spec: the sum of two vectors. -/
def Add (a b : Vec α) : Vec α := { X := a.X + b.X, Y := a.Y + b.Y, Z := a.Z + b.Z }

/-- Modelled from the spec: the vector `v` multiplied by the scalar `f`. -/
def Scale (f : α) (v : Vec α) : Vec α := { X := f * v.X, Y := f * v.Y, Z := f * v.Z }

/-- Modelled from the spec: the dot product. -/
def Dot (a b : Vec α) : α := a.X * b.X + a.Y * b.Y + a.Z * b.Z

/-- Modelled from the spec: the (right-handed) cross product. -/
def Cross (a b : Vec α) : Vec α :=
  { X := a.Y * b.Z - a.Z * b.Y, Y := a.Z * b.X - a.X * b.Z, Z := a.X * b.Y - a.Y * b.X }

/-- IJK of quat.go: the fields I, J, K as a vector. -/
def Quat.IJK (q : Quat α) : Vec α := { X := q.I, Y := q.J, Z := q.K }

/-- Mul of quat.go: the quaternion product. -/
def Quat.Mul (q1 q2 : Quat α) : Quat α :=
  let v1 := q1.IJK
  let v2 := q2.IJK
  let m := Add (Cross v1 v2) (Scale q1.W v2)
  { W := q1.W * q2.W - Dot v1 v2
    I := m.X + q2.W * v1.X
    J := m.Y + q2.W * v1.Y
    K := m.Z + q2.W * v1.Z }

/-- The quaternion with scalar part `ch` and the single imaginary component `sh` on axis
`z` (0, 1, 2 for I, J, K). -/
def givensQuat (ch sh : α) (z : Fin 3) : Quat α :=
  match z with
  | 0 => { I := sh, J := 0, K := 0, W := ch }
  | 1 => { I := 0, J := sh, K := 0, W := ch }
  | 2 => { I := 0, J := 0, K := sh, W := ch }

/-- The radius `rho` computed by the first call of qrGivensQuat in QRDecomposition. -/
def qrPivotNorm1 (sqrt : α → α) (b : Mat3 α) : α := sqrt (b.x00 * b.x00 + b.x10 * b.x10)

/-- The radius `rho` computed by the third call of qrGivensQuat in QRDecomposition. -/
def qrPivotNorm3 (sqrt : α → α) (b : Mat3 α) : α :=
  sqrt ((qrR2 sqrt b).x11 * (qrR2 sqrt b).x11 + (qrR2 sqrt b).x21 * (qrR2 sqrt b).x21)

/-- Whether the elimination step on the state `m` takes the fallback branch of
approximateGivensQuaternion (1) or not (0): the test `gamma*sh*sh < ch*ch` with
ch = 2·(m.x00 - m.x11) and sh = m.x10. -/
def stepFallback (m : Mat3 α) : ℕ :=
  if gamma * m.x10 * m.x10 < 2 * (m.x00 - m.x11) * (2 * (m.x00 - m.x11)) then 0 else 1

/-- The number of fallback steps among the three steps of one sweep. -/
def sweepFallbacks (sqrt : α → α) (s : Mat3 α × Quat α) : ℕ :=
  let s1 := jacobiConj sqrt s.1 0 1 2 s.2
  let s2 := jacobiConj sqrt s1.1 1 2 0 s1.2
  stepFallback s.1 + stepFallback s1.1 + stepFallback s2.1

/-- The number of fallback steps among the 12 steps of jacobiEigenanalysis. -/
def jacobiFallbacks (sqrt : α → α) (m : Mat3 α) : ℕ :=
  let s0 : Mat3 α × Quat α := (m, { I := 0, J := 0, K := 0, W := 1 })
  let s1 := jacobiSweep sqrt s0
  let s2 := jacobiSweep sqrt s1
  let s3 := jacobiSweep sqrt s2
  sweepFallbacks sqrt s0 + sweepFallbacks sqrt s1 + sweepFallbacks sqrt s2
    + sweepFallbacks sqrt s3

/-- The value `m.x10` of jacobiConj after the conjugation S = Q'·S·Q (line 228), for the
Givens pair `g`; the rearrangement stores it at x20. -/
def conjOffDiag (g : α × α) (m : Mat3 α) : α :=
  let ch := g.1
  let sh := g.2
  let scale := ch * ch + sh * sh
  let a := (ch * ch - sh * sh) / scale
  let b := (2 * sh * ch) / scale
  a * (-b * m.x00 + a * m.x10) + b * (-b * m.x10 + a * m.x11)

/-- The trace x00 + x11 + x22. -/
def trace3 (m : Mat3 α) : α := m.x00 + m.x11 + m.x22

end Code

end md3

/-! # Package ms2: lines and triangles in the plane

A shallow embedding of `ms2/line.go` and `ms2/triangle.go`. -/

namespace ms2

/-- Vec is a 2D vector. -/
@[ext]
structure Vec (α : Type) where
  X : α
  Y : α

/-- Line is the array `[2]Vec` of line.go: `p0` is `ln[0]` and `p1` is `ln[1]`. -/
@[ext]
structure Line (α : Type) where
  p0 : Vec α
  p1 : Vec α

/-- Triangle is the array `[3]Vec` of triangle.go: `p0`, `p1`, `p2` are `t[0]`, `t[1]`,
`t[2]`. -/
@[ext]
structure Triangle (α : Type) where
  p0 : Vec α
  p1 : Vec α
  p2 : Vec α

section Code

variable {α : Type} [LinearOrderedField α]

/-- Modelled from the spec: vector addition, one of the basic vector operations the
package takes as given. -/
def Add (a b : Vec α) : Vec α := { X := a.X + b.X, Y := a.Y + b.Y }

/-- Modelled from the spec: vector subtraction `a - b`. -/
def Sub (a b : Vec α) : Vec α := { X := a.X - b.X, Y := a.Y - b.Y }

/-- Modelled from the spec: the vector `v` multiplied by the scalar `f`. -/
def Scale (f : α) (v : Vec α) : Vec α := { X := f * v.X, Y := f * v.Y }

/-- Modelled from the spec: the squared euclidean norm. -/
def Norm2 (v : Vec α) : α := v.X * v.X + v.Y * v.Y

/-- The function `math.Hypot` of the math32 library: the square root of x² + y². -/
def Hypot (sqrt : α → α) (x y : α) : α := sqrt (x * x + y * y)

/-- Modelled from the spec: the euclidean norm. -/
def Norm (sqrt : α → α) (v : Vec α) : α := Hypot sqrt v.X v.Y

/-- Modelled from the spec: the unit vector colinear to `v`. -/
def Unit (sqrt : α → α) (v : Vec α) : Vec α := Scale (1 / Norm sqrt v) v

/-- Element `t[j]` of the triangle's array. -/
def Triangle.get (t : Triangle α) (j : Fin 3) : Vec α :=
  match j with
  | 0 => t.p0
  | 1 => t.p1
  | 2 => t.p2

/-- Interpolate of line.go: the point `ln[0] + t·(ln[1] - ln[0])`. -/
def Line.Interpolate (ln : Line α) (t : α) : Vec α :=
  let lineDir := Sub ln.p1 ln.p0
  Add ln.p0 (Scale t lineDir)

/-- DistanceInfinite of line.go: the distance of `point` to the infinite line. -/
def Line.DistanceInfinite (sqrt : α → α) (ln : Line α) (point : Vec α) : α :=
  let p1 := ln.p0
  let p2 := ln.p1
  let num := |(p2.X - p1.X) * (p1.Y - point.Y) - (p1.X - point.X) * (p2.Y - p1.Y)|
  num / Hypot sqrt (p2.X - p1.X) (p2.Y - p1.Y)

/-- The function edgeEquation of line.go. -/
def Line.edgeEquation (ln : Line α) (p : Vec α) : α :=
  let dxy := Sub ln.p1 ln.p0
  (p.X - ln.p0.X) * dxy.Y - (p.Y - ln.p0.Y) * dxy.X

/-- Closest of line.go. The second component is the `int8` result `vertexOrSegment`; its
values are -1, 0 and 1, so an integer models it exactly. -/
def Line.Closest (sqrt : α → α) (ln : Line α) (point : Vec α) : Vec α × Int :=
  let lineDir := Sub ln.p1 ln.p0
  let perpendicular : Vec α := { X := -lineDir.Y, Y := lineDir.X }
  let perpend2 := Add ln.p1 perpendicular
  let e2 := Line.edgeEquation { p0 := ln.p1, p1 := perpend2 } point
  if e2 > 0 then (ln.p1, 0)
  else
    let perpend1 := Add ln.p0 perpendicular
    let e1 := Line.edgeEquation { p0 := ln.p0, p1 := perpend1 } point
    if e1 < 0 then (ln.p0, 1)
    else
      let e3 := ln.DistanceInfinite sqrt point
      let toPoint := Scale (-e3) (Unit sqrt perpendicular)
      (Sub point toPoint, -1)

/-- The function sort of triangle.go. The body reads and writes only the named results
`l1`, `l2`, `l3`, which Go initialises to zero; the parameters `a`, `b`, `c` are never
read. -/
def sort (a b c : α) : α × α × α :=
  let l1 : α := 0
  let l2 : α := 0
  let l3 : α := 0
  let s1 : α × α := if l2 < l1 then (l2, l1) else (l1, l2)
  if l3 < s1.2 then
    let s2 : α × α := (l3, s1.2)
    if s2.1 < s1.1 then (s2.1, s1.1, s2.2) else (s1.1, s2.1, s2.2)
  else (s1.1, s1.2, l3)

/-- The function edges of triangle.go. -/
def Triangle.edges (t : Triangle α) : Vec α × Vec α × Vec α :=
  (Sub t.p1 t.p0, Sub t.p2 t.p1, Sub t.p0 t.p2)

/-- The function orderedLengths of triangle.go. -/
def Triangle.orderedLengths (sqrt : α → α) (t : Triangle α) : α × α × α :=
  let s := t.edges
  let l1 := Norm sqrt s.1
  let l2 := Norm sqrt s.2.1
  let l3 := Norm sqrt s.2.2
  sort l1 l2 l3

/-- Area of triangle.go. -/
def Triangle.Area (sqrt : α → α) (t : Triangle α) : α :=
  let abc := t.orderedLengths sqrt
  let a := abc.1
  let b := abc.2.1
  let c := abc.2.2
  let A := (c + (b + a)) * (a - (c - b))
  let A := A * ((a + (c - b)) * (c + (b - a)))
  sqrt A / 4

/-- The function d2Sign of triangle.go. -/
def d2Sign (p1 p2 p3 : Vec α) : α :=
  (p1.X - p3.X) * (p2.Y - p3.Y) - (p2.X - p3.X) * (p1.Y - p3.Y)

/-- Contains of triangle.go. -/
def Triangle.Contains (t : Triangle α) (point : Vec α) : Bool :=
  let d1 := d2Sign point t.p0 t.p1
  let d2 := d2Sign point t.p1 t.p2
  let d3 := d2Sign point t.p2 t.p0
  let has_neg := decide (d1 < 0) || decide (d2 < 0) || decide (d3 < 0)
  let has_pos := decide (d1 > 0) || decide (d2 > 0) || decide (d3 > 0)
  !(has_neg && has_pos)

/-- One pass of the loop `for j := range t` of Triangle.Closest over the variables
(closest, side, vertex, minDist). The flags are `int8` in the source; `int8(j) +
maybeVertex` lies between -1 and 3, and Go's `%` truncates towards zero (`Int.tmod`). -/
def closestStep (sqrt : α → α) (t : Triangle α) (p : Vec α) (j : Fin 3)
    (st : Vec α × Int × Int × α) : Vec α × Int × Int × α :=
  let vertex := st.2.2.1
  let minDist := st.2.2.2
  let nxt : Fin 3 := j + 1
  let edge : Line α :=
    { p0 := { X := (t.get j).X, Y := (t.get j).Y },
      p1 := { X := (t.get nxt).X, Y := (t.get nxt).Y } }
  let r := edge.Closest sqrt p
  let pointOnTriangle := r.1
  let maybeVertex := r.2
  let d2 := Norm2 (Sub p pointOnTriangle)
  if d2 < minDist then
    if vertex < 0 then (pointOnTriangle, ((j : ℕ) : Int), -1, d2)
    else (pointOnTriangle, -1, Int.tmod (((j : ℕ) : Int) + maybeVertex) 3, d2)
  else st

/-- Closest of triangle.go, returning (closest, side, vertex). The argument `large` is the
constant `internal.Largefloat32` that initialises `minDist`; the named results start at
their zero values. -/
def Triangle.Closest (large : α) (sqrt : α → α) (t : Triangle α) (p : Vec α) :
    Vec α × Int × Int :=
  if t.Contains p then (p, -1, -1)
  else
    let st0 : Vec α × Int × Int × α := ({ X := 0, Y := 0 }, 0, 0, large)
    let st1 := closestStep sqrt t p 0 st0
    let st2 := closestStep sqrt t p 1 st1
    let st3 := closestStep sqrt t p 2 st2
    (st3.1, st3.2.1, st3.2.2.1)

/-- The area of a triangle as half the absolute cross product of two edge vectors. -/
def crossArea (t : Triangle α) : α :=
  1 / 2 * |(t.p1.X - t.p0.X) * (t.p2.Y - t.p0.Y) - (t.p1.Y - t.p0.Y) * (t.p2.X - t.p0.X)|

/-- The triangle with vertices (0,0), (1,0), (0,1). -/
def unitTriangle : Triangle α :=
  { p0 := { X := 0, Y := 0 }, p1 := { X := 1, Y := 0 }, p2 := { X := 0, Y := 1 } }

/-- The segment from (0,0) to (1,0). -/
def unitSegment : Line α := { p0 := { X := 0, Y := 0 }, p1 := { X := 1, Y := 0 } }

end Code

end ms2

/-! # Package i3: octree cubes and power tables

A shallow embedding of `i3/icube.go` and of `Vec.Add` of `i3/ivec.go`. The Go type `int`
is taken at 64 bits. -/

namespace i3

/-- Vec of ivec.go: three values of the Go type `int`. -/
@[ext]
structure Vec where
  X : Int
  Y : Int
  Z : Int
deriving DecidableEq, Repr

/-- Cube of icube.go: the embedded `Vec` and the level `Lvl`. -/
@[ext]
structure Cube where
  Vec : Vec
  Lvl : Int
deriving DecidableEq, Repr

section Code

/-- The value an exact integer takes as a Go `int` of 64 bits (two's complement): the
representative of `x` modulo 2^64 in the range -2^63 .. 2^63 - 1. Go arithmetic on `int`
wraps silently. -/
def wrapInt (x : Int) : Int :=
  (x + 9223372036854775808) % 18446744073709551616 - 9223372036854775808

/-- Add of ivec.go, with the wrapping addition of `int`. -/
def Vec.Add (a b : Vec) : Vec :=
  { X := wrapInt (a.X + b.X), Y := wrapInt (a.Y + b.Y), Z := wrapInt (a.Z + b.Z) }

/-- The Go expression `1 << n` on `int` for a shift count `n ≥ 0`: every bit is shifted out
once the count reaches 64. -/
def shiftLeftOne (n : Int) : Int :=
  if 64 ≤ n then 0 else wrapInt (2 ^ n.toNat)

/-- Octree of icube.go. A panic is the `error` of the result. -/
def Cube.Octree (c : Cube) : Except String (List Cube) :=
  let lvl := wrapInt (c.Lvl - 1)
  if lvl ≤ 0 then Except.error "invalid operation: octree for level<=1"
  else
    let s := shiftLeftOne lvl
    Except.ok [
      { Vec := c.Vec.Add { X := 0, Y := 0, Z := 0 }, Lvl := lvl },
      { Vec := c.Vec.Add { X := s, Y := 0, Z := 0 }, Lvl := lvl },
      { Vec := c.Vec.Add { X := s, Y := s, Z := 0 }, Lvl := lvl },
      { Vec := c.Vec.Add { X := 0, Y := s, Z := 0 }, Lvl := lvl },
      { Vec := c.Vec.Add { X := 0, Y := 0, Z := s }, Lvl := lvl },
      { Vec := c.Vec.Add { X := s, Y := 0, Z := s }, Lvl := lvl },
      { Vec := c.Vec.Add { X := s, Y := s, Z := s }, Lvl := lvl },
      { Vec := c.Vec.Add { X := 0, Y := s, Z := s }, Lvl := lvl } ]

/-- The table `_pow8` of icube.go, entry by entry as written in the source (indices 0 to
21); the Go constants are exact and typed uint64. -/
def _pow8 : List Nat :=
  [
    1,
    8,
    8 * 8,
    8 * 8 * 8,
    8 * 8 * 8 * 8,
    8 * 8 * 8 * 8 * 8,
    8 * 8 * 8 * 8 * 8 * 8,
    8 * 8 * 8 * 8 * 8 * 8 * 8,
    8 * 8 * 8 * 8 * 8 * 8 * 8 * 8,
    8 * 8 * 8 * 8 * 8 * 8 * 8 * 8 * 8,
    8 * 8 * 8 * 8 * 8 * 8 * 8 * 8 * 8 * 8,
    8 * 8 * 8 * 8 * 8 * 8 * 8 * 8 * 8 * 8 * 8,
    8 * 8 * 8 * 8 * 8 * 8 * 8 * 8 * 8 * 8 * 8 * 8,
    8 * 8 * 8 * 8 * 8 * 8 * 8 * 8 * 8 * 8 * 8 * 8 * 8,
    8 * 8 * 8 * 8 * 8 * 8 * 8 * 8 * 8 * 8 * 8 * 8 * 8 * 8,
    8 * 8 * 8 * 8 * 8 * 8 * 8 * 8 * 8 * 8 * 8 * 8 * 8 * 8 * 8,
    8 * 8 * 8 * 8 * 8 * 8 * 8 * 8 * 8 * 8 * 8 * 8 * 8 * 8 * 8 * 8,
    8 * 8 * 8 * 8 * 8 * 8 * 8 * 8 * 8 * 8 * 8 * 8 * 8 * 8 * 8 * 8 * 8,
    8 * 8 * 8 * 8 * 8 * 8 * 8 * 8 * 8 * 8 * 8 * 8 * 8 * 8 * 8 * 8 * 8 * 8,
    8 * 8 * 8 * 8 * 8 * 8 * 8 * 8 * 8 * 8 * 8 * 8 * 8 * 8 * 8 * 8 * 8 * 8 * 8,
    8 * 8 * 8 * 8 * 8 * 8 * 8 * 8 * 8 * 8 * 8 * 8 * 8 * 8 * 8 * 8 * 8 * 8 * 8 * 8,
    8 * 8 * 8 * 8 * 8 * 8 * 8 * 8 * 8 * 8 * 8 * 8 * 8 * 8 * 8 * 8 * 8 * 8 * 8 * 8 * 8
  ]

/-- The table `_pow4` of icube.go, entry by entry as written in the source (indices 0 to
30). -/
def _pow4 : List Nat :=
  [
    1,
    4,
    4 * 4,
    4 * 4 * 4,
    4 * 4 * 4 * 4,
    4 * 4 * 4 * 4 * 4,
    4 * 4 * 4 * 4 * 4 * 4,
    4 * 4 * 4 * 4 * 4 * 4 * 4,
    4 * 4 * 4 * 4 * 4 * 4 * 4 * 4,
    4 * 4 * 4 * 4 * 4 * 4 * 4 * 4 * 4,
    4 * 4 * 4 * 4 * 4 * 4 * 4 * 4 * 4 * 4,
    4 * 4 * 4 * 4 * 4 * 4 * 4 * 4 * 4 * 4 * 4,
    4 * 4 * 4 * 4 * 4 * 4 * 4 * 4 * 4 * 4 * 4 * 4,
    4 * 4 * 4 * 4 * 4 * 4 * 4 * 4 * 4 * 4 * 4 * 4 * 4,
    4 * 4 * 4 * 4 * 4 * 4 * 4 * 4 * 4 * 4 * 4 * 4 * 4 * 4,
    4 * 4 * 4 * 4 * 4 * 4 * 4 * 4 * 4 * 4 * 4 * 4 * 4 * 4 * 4,
    4 * 4 * 4 * 4 * 4 * 4 * 4 * 4 * 4 * 4 * 4 * 4 * 4 * 4 * 4 * 4,
    4 * 4 * 4 * 4 * 4 * 4 * 4 * 4 * 4 * 4 * 4 * 4 * 4 * 4 * 4 * 4 * 4,
    4 * 4 * 4 * 4 * 4 * 4 * 4 * 4 * 4 * 4 * 4 * 4 * 4 * 4 * 4 * 4 * 4 * 4,
    4 * 4 * 4 * 4 * 4 * 4 * 4 * 4 * 4 * 4 * 4 * 4 * 4 * 4 * 4 * 4 * 4 * 4 * 4,
    4 * 4 * 4 * 4 * 4 * 4 * 4 * 4 * 4 * 4 * 4 * 4 * 4 * 4 * 4 * 4 * 4 * 4 * 4 * 4,
    4 * 4 * 4 * 4 * 4 * 4 * 4 * 4 * 4 * 4 * 4 * 4 * 4 * 4 * 4 * 4 * 4 * 4 * 4 * 4 * 4,
    4 * 4 * 4 * 4 * 4 * 4 * 4 * 4 * 4 * 4 * 4 * 4 * 4 * 4 * 4 * 4 * 4 * 4 * 4 * 4 * 4 * 4,
    4 * 4 * 4 * 4 * 4 * 4 * 4 * 4 * 4 * 4 * 4 * 4 * 4 * 4 * 4 * 4 * 4 * 4 * 4 * 4 * 4 * 4 * 4,
    4 * 4 * 4 * 4 * 4 * 4 * 4 * 4 * 4 * 4 * 4 * 4 * 4 * 4 * 4 * 4 * 4 * 4 * 4 * 4 * 4 * 4 * 4 * 4,
    4 * 4 * 4 * 4 * 4 * 4 * 4 * 4 * 4 * 4 * 4 * 4 * 4 * 4 * 4 * 4 * 4 * 4 * 4 * 4 * 4 * 4 * 4 * 4 * 4,
    4 * 4 * 4 * 4 * 4 * 4 * 4 * 4 * 4 * 4 * 4 * 4 * 4 * 4 * 4 * 4 * 4 * 4 * 4 * 4 * 4 * 4 * 4 * 4 * 4 * 4,
    4 * 4 * 4 * 4 * 4 * 4 * 4 * 4 * 4 * 4 * 4 * 4 * 4 * 4 * 4 * 4 * 4 * 4 * 4 * 4 * 4 * 4 * 4 * 4 * 4 * 4 * 4,
    4 * 4 * 4 * 4 * 4 * 4 * 4 * 4 * 4 * 4 * 4 * 4 * 4 * 4 * 4 * 4 * 4 * 4 * 4 * 4 * 4 * 4 * 4 * 4 * 4 * 4 * 4 * 4,
    4 * 4 * 4 * 4 * 4 * 4 * 4 * 4 * 4 * 4 * 4 * 4 * 4 * 4 * 4 * 4 * 4 * 4 * 4 * 4 * 4 * 4 * 4 * 4 * 4 * 4 * 4 * 4 * 4,
    4 * 4 * 4 * 4 * 4 * 4 * 4 * 4 * 4 * 4 * 4 * 4 * 4 * 4 * 4 * 4 * 4 * 4 * 4 * 4 * 4 * 4 * 4 * 4 * 4 * 4 * 4 * 4 * 4 * 4 * 4
  ]

/-- The Go index expression `t[y]` on a table: a negative or too large index is a run-time
panic. -/
def indexTable (t : List Nat) (y : Int) : Except String Nat :=
  if y < 0 then Except.error "index out of range"
  else
    match t.get? y.toNat with
    | some v => Except.ok v
    | none => Except.error "index out of range"

/-- Pow8 of icube.go. -/
def Pow8 (y : Int) : Except String Nat :=
  if y < (_pow8.length : Int) then indexTable _pow8 y
  else Except.error "overflow Pow8"

/-- Pow4 of icube.go. -/
def Pow4 (y : Int) : Except String Nat :=
  if y < (_pow4.length : Int) then indexTable _pow4 y
  else Except.error "overflow Pow4"

/-- The eight corners (dx, dy, dz) of the unit cube in the order of the array returned by
Octree. -/
def octants : List Vec :=
  [ { X := 0, Y := 0, Z := 0 }, { X := 1, Y := 0, Z := 0 }, { X := 1, Y := 1, Z := 0 },
    { X := 0, Y := 1, Z := 0 }, { X := 0, Y := 0, Z := 1 }, { X := 1, Y := 0, Z := 1 },
    { X := 1, Y := 1, Z := 1 }, { X := 0, Y := 1, Z := 1 } ]

/-- The sub-cube of `c` at corner `d`: level `c.Lvl - 1` and origin `c.Vec + s·d`, the sum
taken by the wrapping `Vec.Add`. -/
def subCube (c : Cube) (s : Int) (d : Vec) : Cube :=
  { Vec := c.Vec.Add { X := s * d.X, Y := s * d.Y, Z := s * d.Z }, Lvl := c.Lvl - 1 }

/-- A cube at the origin whose level is the least `int`, -2^63. -/
def minLvlCube : Cube := { Vec := { X := 0, Y := 0, Z := 0 }, Lvl := -9223372036854775808 }

/-- The cube at the origin with level 2. -/
def cube2 : Cube := { Vec := { X := 0, Y := 0, Z := 0 }, Lvl := 2 }

end Code

end i3

namespace md3

/-! ## Lemmas on the matrix helpers -/

section Algebra

variable {α : Type} [LinearOrderedField α]

theorem MulMat3_assoc (a b c : Mat3 α) :
    MulMat3 (MulMat3 a b) c = MulMat3 a (MulMat3 b c) := by
  ext <;> simp only [MulMat3] <;> ring

theorem MulMat3_ident_left (a : Mat3 α) : MulMat3 ident a = a := by
  ext <;> simp [MulMat3, ident, mat3]

theorem MulMat3_ident_right (a : Mat3 α) : MulMat3 a ident = a := by
  ext <;> simp [MulMat3, ident, mat3]

theorem Transpose_MulMat3 (a b : Mat3 α) :
    (MulMat3 a b).Transpose = MulMat3 b.Transpose a.Transpose := by
  ext <;> simp only [MulMat3, Mat3.Transpose] <;> ring

theorem Transpose_Transpose (a : Mat3 α) : a.Transpose.Transpose = a := by
  ext <;> simp [Mat3.Transpose, MulMat3_ident_left]

end Algebra

/-! ## The exact Givens solver and the QR decomposition -/

section QR

/-- The pair returned by qrGivensQuat has unit norm. -/
theorem qrGivensQuat_norm (a1 a2 : ℝ) :
    (qrGivensQuat Real.sqrt a1 a2).1 ^ 2 + (qrGivensQuat Real.sqrt a1 a2).2 ^ 2 = 1 := by
  have heps : (0 : ℝ) < epsilon := by norm_num [epsilon]
  set rho := Real.sqrt (a1 * a1 + a2 * a2) with hrho
  set sh := (if rho > epsilon then a2 else 0) with hsh
  set ch := |a1| + max rho epsilon with hch
  have hchpos : 0 < ch := by
    have h1 : 0 ≤ |a1| := abs_nonneg a1
    have h2 : (epsilon : ℝ) ≤ max rho epsilon := le_max_right _ _
    linarith
  have hD : 0 < ch * ch + sh * sh := by nlinarith [mul_self_nonneg sh]
  have hs : Real.sqrt (ch * ch + sh * sh) * Real.sqrt (ch * ch + sh * sh)
      = ch * ch + sh * sh := Real.mul_self_sqrt hD.le
  have hsne : Real.sqrt (ch * ch + sh * sh) ≠ 0 := ne_of_gt (Real.sqrt_pos.mpr hD)
  have key : (ch * (1 / Real.sqrt (ch * ch + sh * sh))) ^ 2
      + (sh * (1 / Real.sqrt (ch * ch + sh * sh))) ^ 2 = 1 := by
    field_simp
    nlinarith [hs]
  unfold qrGivensQuat
  simp only [← hrho, ← hsh, ← hch]
  split_ifs <;> simp only [] <;> linarith [key]

/-- The double-angle pair derived from a unit Givens pair is a point of the unit circle. -/
theorem givens_circle (g : ℝ × ℝ) (h : g.1 ^ 2 + g.2 ^ 2 = 1) :
    givensCos g ^ 2 + givensSin g ^ 2 = 1 := by
  simp only [givensCos, givensSin]
  have h1 : g.1 ^ 2 = 1 - g.2 ^ 2 := by linarith
  ring_nf
  rw [h1]
  ring

theorem qrPair1_circle (b : Mat3 ℝ) :
    givensCos (qrPair1 Real.sqrt b) ^ 2 + givensSin (qrPair1 Real.sqrt b) ^ 2 = 1 :=
  givens_circle _ (qrGivensQuat_norm _ _)

theorem qrPair2_circle (b : Mat3 ℝ) :
    givensCos (qrPair2 Real.sqrt b) ^ 2 + givensSin (qrPair2 Real.sqrt b) ^ 2 = 1 :=
  givens_circle _ (qrGivensQuat_norm _ _)

theorem qrPair3_circle (b : Mat3 ℝ) :
    givensCos (qrPair3 Real.sqrt b) ^ 2 + givensSin (qrPair3 Real.sqrt b) ^ 2 = 1 :=
  givens_circle _ (qrGivensQuat_norm _ _)

/-- The factor `r` of QRDecomposition, written with the named intermediate values. -/
theorem QRDecomposition_snd (sqrt : ℝ → ℝ) (b : Mat3 ℝ) :
    (b.QRDecomposition sqrt).2 =
      { x00 := (qrR2 sqrt b).x00
        x01 := (qrR2 sqrt b).x01
        x02 := (qrR2 sqrt b).x02
        x10 := givensCos (qrPair3 sqrt b) * (qrR2 sqrt b).x10
                + givensSin (qrPair3 sqrt b) * (qrR2 sqrt b).x20
        x11 := givensCos (qrPair3 sqrt b) * (qrR2 sqrt b).x11
                + givensSin (qrPair3 sqrt b) * (qrR2 sqrt b).x21
        x12 := givensCos (qrPair3 sqrt b) * (qrR2 sqrt b).x12
                + givensSin (qrPair3 sqrt b) * (qrR2 sqrt b).x22
        x20 := -givensSin (qrPair3 sqrt b) * (qrR2 sqrt b).x10
                + givensCos (qrPair3 sqrt b) * (qrR2 sqrt b).x20
        x21 := -givensSin (qrPair3 sqrt b) * (qrR2 sqrt b).x11
                + givensCos (qrPair3 sqrt b) * (qrR2 sqrt b).x21
        x22 := -givensSin (qrPair3 sqrt b) * (qrR2 sqrt b).x12
                + givensCos (qrPair3 sqrt b) * (qrR2 sqrt b).x22 } := rfl

theorem qrR1_eq_mul (sqrt : ℝ → ℝ) (b : Mat3 ℝ) :
    qrR1 sqrt b
      = MulMat3 (planar01 (givensCos (qrPair1 sqrt b)) (givensSin (qrPair1 sqrt b))) b := by
  ext <;> simp only [qrR1, MulMat3, planar01, mat3] <;> ring

theorem qrR2_eq_mul (sqrt : ℝ → ℝ) (b : Mat3 ℝ) :
    qrR2 sqrt b
      = MulMat3 (planar02 (givensCos (qrPair2 sqrt b)) (givensSin (qrPair2 sqrt b)))
          (qrR1 sqrt b) := by
  ext <;> simp only [qrR2, MulMat3, planar02, mat3] <;> ring

theorem QRDecomposition_snd_eq_mul (sqrt : ℝ → ℝ) (b : Mat3 ℝ) :
    (b.QRDecomposition sqrt).2
      = MulMat3 (planar12 (givensCos (qrPair3 sqrt b)) (givensSin (qrPair3 sqrt b)))
          (qrR2 sqrt b) := by
  rw [QRDecomposition_snd]
  ext <;> simp only [MulMat3, planar12, mat3] <;> ring

/-- The factor `q` of QRDecomposition is the product of the three transposed planar
rotations. This is a polynomial identity in the three Givens pairs. -/
theorem QRDecomposition_fst_eq_mul (sqrt : ℝ → ℝ) (b : Mat3 ℝ) :
    (b.QRDecomposition sqrt).1
      = MulMat3 (planar01 (givensCos (qrPair1 sqrt b)) (givensSin (qrPair1 sqrt b))).Transpose
          (MulMat3
            (planar02 (givensCos (qrPair2 sqrt b)) (givensSin (qrPair2 sqrt b))).Transpose
            (planar12 (givensCos (qrPair3 sqrt b)) (givensSin (qrPair3 sqrt b))).Transpose) := by
  have h : (b.QRDecomposition sqrt).1 =
      { x00 := (-1 + 2 * ((qrPair1 sqrt b).2 * (qrPair1 sqrt b).2))
                * (-1 + 2 * ((qrPair2 sqrt b).2 * (qrPair2 sqrt b).2))
        x01 := 4 * (qrPair2 sqrt b).1 * (qrPair3 sqrt b).1
                  * (-1 + 2 * ((qrPair1 sqrt b).2 * (qrPair1 sqrt b).2))
                  * (qrPair2 sqrt b).2 * (qrPair3 sqrt b).2
                + 2 * (qrPair1 sqrt b).1 * (qrPair1 sqrt b).2
                  * (-1 + 2 * ((qrPair3 sqrt b).2 * (qrPair3 sqrt b).2))
        x02 := 4 * (qrPair1 sqrt b).1 * (qrPair3 sqrt b).1 * (qrPair1 sqrt b).2
                  * (qrPair3 sqrt b).2
                - 2 * (qrPair2 sqrt b).1
                  * (-1 + 2 * ((qrPair1 sqrt b).2 * (qrPair1 sqrt b).2))
                  * (qrPair2 sqrt b).2
                  * (-1 + 2 * ((qrPair3 sqrt b).2 * (qrPair3 sqrt b).2))
        x10 := 2 * (qrPair1 sqrt b).1 * (qrPair1 sqrt b).2
                * (1 - 2 * ((qrPair2 sqrt b).2 * (qrPair2 sqrt b).2))
        x11 := -8 * (qrPair1 sqrt b).1 * (qrPair2 sqrt b).1 * (qrPair3 sqrt b).1
                  * (qrPair1 sqrt b).2 * (qrPair2 sqrt b).2 * (qrPair3 sqrt b).2
                + (-1 + 2 * ((qrPair1 sqrt b).2 * (qrPair1 sqrt b).2))
                  * (-1 + 2 * ((qrPair3 sqrt b).2 * (qrPair3 sqrt b).2))
        x12 := -2 * (qrPair3 sqrt b).1 * (qrPair3 sqrt b).2
                + 4 * (qrPair1 sqrt b).2
                  * ((qrPair3 sqrt b).1 * (qrPair1 sqrt b).2 * (qrPair3 sqrt b).2
                    + (qrPair1 sqrt b).1 * (qrPair2 sqrt b).1 * (qrPair2 sqrt b).2
                      * (-1 + 2 * ((qrPair3 sqrt b).2 * (qrPair3 sqrt b).2)))
        x20 := 2 * (qrPair2 sqrt b).1 * (qrPair2 sqrt b).2
        x21 := 2 * (qrPair3 sqrt b).1
                * (1 - 2 * ((qrPair2 sqrt b).2 * (qrPair2 sqrt b).2)) * (qrPair3 sqrt b).2
        x22 := (-1 + 2 * ((qrPair2 sqrt b).2 * (qrPair2 sqrt b).2))
                * (-1 + 2 * ((qrPair3 sqrt b).2 * (qrPair3 sqrt b).2)) } := rfl
  rw [h]
  ext <;> simp only [MulMat3, planar01, planar02, planar12, mat3, Mat3.Transpose,
    givensCos, givensSin] <;> ring

theorem planar01_orth (c s : ℝ) (h : c ^ 2 + s ^ 2 = 1) :
    MulMat3 (planar01 c s).Transpose (planar01 c s) = ident := by
  ext <;> simp only [MulMat3, planar01, mat3, Mat3.Transpose, ident] <;>
    first | ring1 | linear_combination h

theorem planar02_orth (c s : ℝ) (h : c ^ 2 + s ^ 2 = 1) :
    MulMat3 (planar02 c s).Transpose (planar02 c s) = ident := by
  ext <;> simp only [MulMat3, planar02, mat3, Mat3.Transpose, ident] <;>
    first | ring1 | linear_combination h

theorem planar12_orth (c s : ℝ) (h : c ^ 2 + s ^ 2 = 1) :
    MulMat3 (planar12 c s).Transpose (planar12 c s) = ident := by
  ext <;> simp only [MulMat3, planar12, mat3, Mat3.Transpose, ident] <;>
    first | ring1 | linear_combination h

theorem planar01_orth_right (c s : ℝ) (h : c ^ 2 + s ^ 2 = 1) :
    MulMat3 (planar01 c s) (planar01 c s).Transpose = ident := by
  ext <;> simp only [MulMat3, planar01, mat3, Mat3.Transpose, ident] <;>
    first | ring1 | linear_combination h

theorem planar02_orth_right (c s : ℝ) (h : c ^ 2 + s ^ 2 = 1) :
    MulMat3 (planar02 c s) (planar02 c s).Transpose = ident := by
  ext <;> simp only [MulMat3, planar02, mat3, Mat3.Transpose, ident] <;>
    first | ring1 | linear_combination h

theorem planar12_orth_right (c s : ℝ) (h : c ^ 2 + s ^ 2 = 1) :
    MulMat3 (planar12 c s) (planar12 c s).Transpose = ident := by
  ext <;> simp only [MulMat3, planar12, mat3, Mat3.Transpose, ident] <;>
    first | ring1 | linear_combination h

/-- Product form of the QR round trip, shared by the statements below. -/
theorem QR_mul_eq (b : Mat3 ℝ) :
    MulMat3 (b.QRDecomposition Real.sqrt).1 (b.QRDecomposition Real.sqrt).2 = b := by
  rw [QRDecomposition_fst_eq_mul, QRDecomposition_snd_eq_mul, qrR2_eq_mul, qrR1_eq_mul]
  have h1 := planar01_orth _ _ (qrPair1_circle b)
  have h2 := planar02_orth _ _ (qrPair2_circle b)
  have h3 := planar12_orth _ _ (qrPair3_circle b)
  generalize planar01 (givensCos (qrPair1 Real.sqrt b)) (givensSin (qrPair1 Real.sqrt b))
    = G1 at h1 ⊢
  generalize planar02 (givensCos (qrPair2 Real.sqrt b)) (givensSin (qrPair2 Real.sqrt b))
    = G2 at h2 ⊢
  generalize planar12 (givensCos (qrPair3 Real.sqrt b)) (givensSin (qrPair3 Real.sqrt b))
    = G3 at h3 ⊢
  calc MulMat3 (MulMat3 G1.Transpose (MulMat3 G2.Transpose G3.Transpose))
          (MulMat3 G3 (MulMat3 G2 (MulMat3 G1 b)))
      = MulMat3 G1.Transpose (MulMat3 G2.Transpose
          (MulMat3 (MulMat3 G3.Transpose G3) (MulMat3 G2 (MulMat3 G1 b)))) := by
        simp only [MulMat3_assoc]
    _ = MulMat3 G1.Transpose (MulMat3 (MulMat3 G2.Transpose G2) (MulMat3 G1 b)) := by
        rw [h3, MulMat3_ident_left, MulMat3_assoc]
    _ = MulMat3 (MulMat3 G1.Transpose G1) b := by
        rw [h2, MulMat3_ident_left, MulMat3_assoc]
    _ = b := by rw [h1, MulMat3_ident_left]

/-- The factor `q` of QRDecomposition is orthonormal. -/
theorem QR_orth (b : Mat3 ℝ) :
    MulMat3 (b.QRDecomposition Real.sqrt).1.Transpose (b.QRDecomposition Real.sqrt).1
      = ident := by
  rw [QRDecomposition_fst_eq_mul]
  have h1 := planar01_orth_right _ _ (qrPair1_circle b)
  have h2 := planar02_orth_right _ _ (qrPair2_circle b)
  have h3 := planar12_orth_right _ _ (qrPair3_circle b)
  generalize planar01 (givensCos (qrPair1 Real.sqrt b)) (givensSin (qrPair1 Real.sqrt b))
    = G1 at h1 ⊢
  generalize planar02 (givensCos (qrPair2 Real.sqrt b)) (givensSin (qrPair2 Real.sqrt b))
    = G2 at h2 ⊢
  generalize planar12 (givensCos (qrPair3 Real.sqrt b)) (givensSin (qrPair3 Real.sqrt b))
    = G3 at h3 ⊢
  simp only [Transpose_MulMat3, Transpose_Transpose]
  calc MulMat3 (MulMat3 (MulMat3 G3 G2) G1) (MulMat3 G1.Transpose
          (MulMat3 G2.Transpose G3.Transpose))
      = MulMat3 G3 (MulMat3 G2 (MulMat3 (MulMat3 G1 G1.Transpose)
          (MulMat3 G2.Transpose G3.Transpose))) := by
        simp only [MulMat3_assoc]
    _ = MulMat3 G3 (MulMat3 (MulMat3 G2 G2.Transpose) G3.Transpose) := by
        rw [h1, MulMat3_ident_left, MulMat3_assoc]
    _ = ident := by rw [h2, MulMat3_ident_left, h3]

end QR

theorem eps_pos : (0 : ℝ) < epsilon := by norm_num [epsilon]

theorem givens_alg (c a2 r u : ℝ) (hr2 : r * r = c * c + a2 * a2)
    (hu2 : u * u * ((c + r) * (c + r) + a2 * a2) = 1) :
    (1 - 2 * (a2 * u) * (a2 * u)) * c + 2 * ((c + r) * u) * (a2 * u) * a2 = r ∧
    -(2 * ((c + r) * u) * (a2 * u)) * c + (1 - 2 * (a2 * u) * (a2 * u)) * a2 = 0 := by
  constructor
  · linear_combination (-(c - r)) * hu2 + (-(u * u * (c + r))) * hr2
  · linear_combination (-a2) * hu2 + (a2 * u * u) * hr2

/-- The normalised pair of qrGivensQuat, before the swap. -/
theorem qrGivensQuat_eq (a1 a2 : ℝ) :
    ∃ c s : ℝ, c ^ 2 + s ^ 2 = 1 ∧ 0 < c ∧
      (epsilon < Real.sqrt (a1 * a1 + a2 * a2) →
        ∃ u, u * u * ((|a1| + Real.sqrt (a1 * a1 + a2 * a2)) * (|a1| + Real.sqrt (a1 * a1 + a2 * a2)) + a2 * a2) = 1 ∧
          c = (|a1| + Real.sqrt (a1 * a1 + a2 * a2)) * u ∧ s = a2 * u) ∧
      (Real.sqrt (a1 * a1 + a2 * a2) ≤ epsilon → c = 1 ∧ s = 0) ∧
      qrGivensQuat Real.sqrt a1 a2 = if a1 < 0 then (s, c) else (c, s) := by
  set r := Real.sqrt (a1 * a1 + a2 * a2) with hr
  clear_value r
  set sh := (if r > epsilon then a2 else 0) with hsh
  set ch := |a1| + max r epsilon with hch
  have hchpos : 0 < ch := by
    have h1 : 0 ≤ |a1| := abs_nonneg a1
    have h2 : (epsilon : ℝ) ≤ max r epsilon := le_max_right _ _
    have := eps_pos
    linarith
  have hDpos : 0 < ch * ch + sh * sh := by nlinarith [mul_self_nonneg sh]
  have hs : Real.sqrt (ch * ch + sh * sh) * Real.sqrt (ch * ch + sh * sh)
      = ch * ch + sh * sh := Real.mul_self_sqrt hDpos.le
  have hspos : 0 < Real.sqrt (ch * ch + sh * sh) := Real.sqrt_pos.mpr hDpos
  set u := 1 / Real.sqrt (ch * ch + sh * sh) with hu
  have hupos : 0 < u := by rw [hu]; positivity
  have hu2 : u * u * (ch * ch + sh * sh) = 1 := by
    rw [hu, ← hs]
    field_simp
  clear_value u
  refine ⟨ch * u, sh * u, by linear_combination hu2, by positivity, ?_, ?_, ?_⟩
  · intro h
    have hmax : max r epsilon = r := max_eq_left h.le
    have hsh2 : sh = a2 := by rw [hsh]; simp [h]
    refine ⟨u, ?_, ?_, ?_⟩
    · rw [← hmax, ← hch]; rw [hsh2] at hu2; exact hu2
    · rw [← hmax]
    · rw [hsh2]
  · intro h
    have hmax : max r epsilon = epsilon := max_eq_right h
    have hsh2 : sh = 0 := by rw [hsh]; simp [not_lt.mpr h]
    rw [hsh2] at hu2 ⊢
    have : ch * u = 1 := by
      have h1 : (ch * u) * (ch * u) = 1 := by linear_combination hu2
      have h2 : 0 < ch * u := by positivity
      nlinarith
    exact ⟨this, by ring⟩
  · unfold qrGivensQuat
    simp only [← hr, ← hsh, ← hch, ← hu]


/-- What one Givens rotation of QRDecomposition does to the pair it was built from: either
the pair is longer than epsilon and is rotated onto (rho, 0), or it is left in place up to
sign. -/
theorem qrGivens_cases (a1 a2 : ℝ) :
    (epsilon < Real.sqrt (a1 * a1 + a2 * a2) ∧
      givensCos (qrGivensQuat Real.sqrt a1 a2) * a1
        + givensSin (qrGivensQuat Real.sqrt a1 a2) * a2 = Real.sqrt (a1 * a1 + a2 * a2) ∧
      -givensSin (qrGivensQuat Real.sqrt a1 a2) * a1
        + givensCos (qrGivensQuat Real.sqrt a1 a2) * a2 = 0) ∨
    (Real.sqrt (a1 * a1 + a2 * a2) ≤ epsilon ∧
      givensSin (qrGivensQuat Real.sqrt a1 a2) = 0 ∧
      givensCos (qrGivensQuat Real.sqrt a1 a2) = (if a1 < 0 then -1 else 1)) := by
  obtain ⟨c, s, hcs, hc, hst, hdeg, hg⟩ := qrGivensQuat_eq a1 a2
  rw [hg]
  rcases lt_or_le (epsilon : ℝ) (Real.sqrt (a1 * a1 + a2 * a2)) with h | h
  · left
    refine ⟨h, ?_⟩
    obtain ⟨u, hu2, hc', hs'⟩ := hst h
    have hr2 : Real.sqrt (a1 * a1 + a2 * a2) * Real.sqrt (a1 * a1 + a2 * a2)
        = |a1| * |a1| + a2 * a2 := by
      rw [Real.mul_self_sqrt (add_nonneg (mul_self_nonneg _) (mul_self_nonneg _)), abs_mul_abs_self]
    have halg := givens_alg |a1| a2 (Real.sqrt (a1 * a1 + a2 * a2)) u hr2 hu2
    rw [← hc', ← hs'] at halg
    by_cases ha : a1 < 0
    · simp only [ha, if_true, givensCos, givensSin]
      have habs : |a1| = -a1 := abs_of_neg ha
      rw [habs] at halg
      obtain ⟨e1, e2⟩ := halg
      constructor
      · linear_combination e1 - 2 * a1 * hcs
      · linear_combination (-1 : ℝ) * e2 - 2 * a2 * hcs
    · simp only [ha, if_false, givensCos, givensSin]
      have habs : |a1| = a1 := abs_of_nonneg (not_lt.mp ha)
      rw [habs] at halg
      exact halg
  · right
    refine ⟨h, ?_⟩
    obtain ⟨h1, h0⟩ := hdeg h
    subst h1 h0
    by_cases ha : a1 < 0
    · simp [ha, givensCos, givensSin]; norm_num
    · simp [ha, givensCos, givensSin]

/-- Sub-epsilon pairs are not rotated: the Givens pair is (1, 0), swapped when a1 < 0. -/
theorem qrGivensQuat_small (a1 a2 : ℝ) (h : a1 * a1 + a2 * a2 ≤ epsilon * epsilon) :
    qrGivensQuat Real.sqrt a1 a2 = if a1 < 0 then (0, 1) else (1, 0) := by
  obtain ⟨c, s, _, _, _, hdeg, hg⟩ := qrGivensQuat_eq a1 a2
  have hle : Real.sqrt (a1 * a1 + a2 * a2) ≤ epsilon := by
    rw [← Real.sqrt_mul_self eps_pos.le]
    exact Real.sqrt_le_sqrt h
  obtain ⟨h1, h0⟩ := hdeg hle
  rw [hg, h1, h0]

theorem abs_snd_le_sqrt (a1 a2 : ℝ) : |a2| ≤ Real.sqrt (a1 * a1 + a2 * a2) := by
  apply Real.abs_le_sqrt
  nlinarith [mul_self_nonneg a1]

theorem abs_fst_le_sqrt (a1 a2 : ℝ) : |a1| ≤ Real.sqrt (a1 * a1 + a2 * a2) := by
  apply Real.abs_le_sqrt
  nlinarith [mul_self_nonneg a2]

/-- After a Givens rotation the second component is zero or was at most epsilon. -/
theorem qrGivens_snd_small (a1 a2 : ℝ) :
    |(-givensSin (qrGivensQuat Real.sqrt a1 a2) * a1
        + givensCos (qrGivensQuat Real.sqrt a1 a2) * a2)| ≤ epsilon := by
  rcases qrGivens_cases a1 a2 with ⟨_, _, h0⟩ | ⟨hle, hs, hc⟩
  · rw [h0, abs_zero]; exact eps_pos.le
  · rw [hs, hc]
    have := abs_snd_le_sqrt a1 a2
    by_cases ha : a1 < 0 <;> simp [ha] <;> linarith

/-- After a Givens rotation the first component is non-negative. -/
theorem qrGivens_fst_nonneg (a1 a2 : ℝ) :
    0 ≤ givensCos (qrGivensQuat Real.sqrt a1 a2) * a1
        + givensSin (qrGivensQuat Real.sqrt a1 a2) * a2 := by
  rcases qrGivens_cases a1 a2 with ⟨_, h1, _⟩ | ⟨hle, hs, hc⟩
  · rw [h1]; exact Real.sqrt_nonneg _
  · rw [hs, hc]
    by_cases ha : a1 < 0 <;> simp [ha]
    · linarith
    · linarith

theorem qrR1_x10_small (b : Mat3 ℝ) : |(qrR1 Real.sqrt b).x10| ≤ epsilon :=
  qrGivens_snd_small b.x00 b.x10

theorem qrR2_x10_small (b : Mat3 ℝ) : |(qrR2 Real.sqrt b).x10| ≤ epsilon :=
  qrGivens_snd_small b.x00 b.x10

theorem qrR2_x20_small (b : Mat3 ℝ) : |(qrR2 Real.sqrt b).x20| ≤ epsilon :=
  qrGivens_snd_small (qrR1 Real.sqrt b).x00 (qrR1 Real.sqrt b).x20

theorem QR_x21_small (b : Mat3 ℝ) : |(b.QRDecomposition Real.sqrt).2.x21| ≤ epsilon :=
  qrGivens_snd_small (qrR2 Real.sqrt b).x11 (qrR2 Real.sqrt b).x21

theorem QR_x00_nonneg (b : Mat3 ℝ) : 0 ≤ (b.QRDecomposition Real.sqrt).2.x00 :=
  qrGivens_fst_nonneg (qrR1 Real.sqrt b).x00 (qrR1 Real.sqrt b).x20

theorem QR_x11_nonneg (b : Mat3 ℝ) : 0 ≤ (b.QRDecomposition Real.sqrt).2.x11 :=
  qrGivens_fst_nonneg (qrR2 Real.sqrt b).x11 (qrR2 Real.sqrt b).x21

/-- The third rotation acts on rows 1 and 2, so it preserves the squared length of the
first column below the diagonal. -/
theorem QR_col0_sq (b : Mat3 ℝ) :
    (b.QRDecomposition Real.sqrt).2.x10 ^ 2 + (b.QRDecomposition Real.sqrt).2.x20 ^ 2
      = (qrR2 Real.sqrt b).x10 ^ 2 + (qrR2 Real.sqrt b).x20 ^ 2 := by
  rw [QRDecomposition_snd]
  have h := qrPair3_circle b
  simp only []
  linear_combination ((qrR2 Real.sqrt b).x10 ^ 2 + (qrR2 Real.sqrt b).x20 ^ 2) * h

theorem sq_le_of_abs_le {x t : ℝ} (h : |x| ≤ t) : x ^ 2 ≤ t ^ 2 := by
  have h0 : 0 ≤ |x| := abs_nonneg x
  have : |x| ^ 2 ≤ t ^ 2 := by nlinarith
  rwa [sq_abs] at this

theorem QR_col0_sq_le (b : Mat3 ℝ) :
    (b.QRDecomposition Real.sqrt).2.x10 ^ 2 + (b.QRDecomposition Real.sqrt).2.x20 ^ 2
      ≤ 2 * epsilon ^ 2 := by
  rw [QR_col0_sq]
  have h1 := sq_le_of_abs_le (qrR2_x10_small b)
  have h2 := sq_le_of_abs_le (qrR2_x20_small b)
  linarith

theorem QR_x10_small (b : Mat3 ℝ) : |(b.QRDecomposition Real.sqrt).2.x10| ≤ 2 * epsilon := by
  have h := QR_col0_sq_le b
  have he := eps_pos
  apply abs_le_of_sq_le_sq _ (by linarith)
  nlinarith [sq_nonneg (b.QRDecomposition Real.sqrt).2.x20]

theorem QR_x20_small (b : Mat3 ℝ) : |(b.QRDecomposition Real.sqrt).2.x20| ≤ 2 * epsilon := by
  have h := QR_col0_sq_le b
  have he := eps_pos
  apply abs_le_of_sq_le_sq _ (by linarith)
  nlinarith [sq_nonneg (b.QRDecomposition Real.sqrt).2.x10]

/-- When the first pivot pair is longer than epsilon, the first column of `r` is cleared
below the diagonal. -/
theorem QR_col0_zero (b : Mat3 ℝ) (h : epsilon * epsilon < b.x00 * b.x00 + b.x10 * b.x10) :
    (b.QRDecomposition Real.sqrt).2.x10 = 0 ∧ (b.QRDecomposition Real.sqrt).2.x20 = 0 := by
  have hlt : epsilon < Real.sqrt (b.x00 * b.x00 + b.x10 * b.x10) := by
    rw [← Real.sqrt_mul_self eps_pos.le]
    exact Real.sqrt_lt_sqrt (mul_self_nonneg _) h
  have h10 : (qrR2 Real.sqrt b).x10 = 0 := by
    rcases qrGivens_cases b.x00 b.x10 with ⟨_, _, h0⟩ | ⟨hle, _, _⟩
    · exact h0
    · exact absurd hlt (not_lt.mpr hle)
  have h00 : epsilon < (qrR1 Real.sqrt b).x00 := by
    rcases qrGivens_cases b.x00 b.x10 with ⟨_, h1, _⟩ | ⟨hle, _, _⟩
    · exact lt_of_lt_of_eq hlt h1.symm
    · exact absurd hlt (not_lt.mpr hle)
  have h20 : (qrR2 Real.sqrt b).x20 = 0 := by
    rcases qrGivens_cases (qrR1 Real.sqrt b).x00 (qrR1 Real.sqrt b).x20
      with ⟨_, _, h0⟩ | ⟨hle, _, _⟩
    · exact h0
    · have h1 := abs_fst_le_sqrt (qrR1 Real.sqrt b).x00 (qrR1 Real.sqrt b).x20
      have h2 := le_abs_self (qrR1 Real.sqrt b).x00
      linarith
  have hsq := QR_col0_sq b
  rw [h10, h20] at hsq
  constructor <;> nlinarith [sq_nonneg (b.QRDecomposition Real.sqrt).2.x10,
    sq_nonneg (b.QRDecomposition Real.sqrt).2.x20]

/-- A diagonal entry `r11` above epsilon certifies that the third rotation cleared `r21`. -/
theorem QR_x21_zero (b : Mat3 ℝ) (h : epsilon < (b.QRDecomposition Real.sqrt).2.x11) :
    (b.QRDecomposition Real.sqrt).2.x21 = 0 := by
  rcases qrGivens_cases (qrR2 Real.sqrt b).x11 (qrR2 Real.sqrt b).x21
    with ⟨_, _, h0⟩ | ⟨hle, hs, hc⟩
  · exact h0
  · exfalso
    have h11 : (b.QRDecomposition Real.sqrt).2.x11
        = givensCos (qrPair3 Real.sqrt b) * (qrR2 Real.sqrt b).x11
          + givensSin (qrPair3 Real.sqrt b) * (qrR2 Real.sqrt b).x21 := rfl
    have hs3 : givensSin (qrPair3 Real.sqrt b) = 0 := hs
    have hc3 : givensCos (qrPair3 Real.sqrt b)
        = if (qrR2 Real.sqrt b).x11 < 0 then -1 else 1 := hc
    rw [h11, hs3, hc3] at h
    have h1 := abs_fst_le_sqrt (qrR2 Real.sqrt b).x11 (qrR2 Real.sqrt b).x21
    have h2 := le_abs_self (qrR2 Real.sqrt b).x11
    have h3 := neg_abs_le (qrR2 Real.sqrt b).x11
    by_cases ha : (qrR2 Real.sqrt b).x11 < 0
    · simp [ha] at h; linarith
    · simp [ha] at h; linarith

/-- A rotated pair longer than epsilon: the double-angle pair is (a1, a2) / rho. -/
theorem qrGivens_cos_sin (a1 a2 : ℝ) (h : epsilon < Real.sqrt (a1 * a1 + a2 * a2)) :
    givensCos (qrGivensQuat Real.sqrt a1 a2) * Real.sqrt (a1 * a1 + a2 * a2) = a1 ∧
    givensSin (qrGivensQuat Real.sqrt a1 a2) * Real.sqrt (a1 * a1 + a2 * a2) = a2 := by
  have hc := givens_circle _ (qrGivensQuat_norm a1 a2)
  have hr2 : Real.sqrt (a1 * a1 + a2 * a2) * Real.sqrt (a1 * a1 + a2 * a2)
      = a1 * a1 + a2 * a2 :=
    Real.mul_self_sqrt (add_nonneg (mul_self_nonneg _) (mul_self_nonneg _))
  have hrpos : 0 < Real.sqrt (a1 * a1 + a2 * a2) := lt_trans eps_pos h
  rcases qrGivens_cases a1 a2 with ⟨_, e1, e2⟩ | ⟨hle, _, _⟩
  · generalize givensCos (qrGivensQuat Real.sqrt a1 a2) = c at hc e1 e2 ⊢
    generalize givensSin (qrGivensQuat Real.sqrt a1 a2) = s at hc e1 e2 ⊢
    generalize Real.sqrt (a1 * a1 + a2 * a2) = r at hr2 hrpos e1 e2 ⊢
    constructor
    · linear_combination a1 * hc - c * e1 + s * e2
    · linear_combination a2 * hc - s * e1 - c * e2
  · exact absurd h (not_lt.mpr hle)


/-- A pivot pair (a1, 0) with a1 above epsilon is left in place. -/
theorem qrGivens_axis (a1 : ℝ) (h : epsilon < a1) :
    givensCos (qrGivensQuat Real.sqrt a1 0) = 1 ∧ givensSin (qrGivensQuat Real.sqrt a1 0) = 0 := by
  have hpos : 0 < a1 := lt_trans eps_pos h
  have hr : Real.sqrt (a1 * a1 + 0 * 0) = a1 := by
    rw [mul_zero, add_zero, Real.sqrt_mul_self hpos.le]
  obtain ⟨e1, e2⟩ := qrGivens_cos_sin a1 0 (by rw [hr]; exact h)
  rw [hr] at e1 e2
  constructor
  · exact mul_right_cancel₀ (ne_of_gt hpos) (by rw [e1, one_mul])
  · rcases mul_eq_zero.mp e2 with h0 | h0
    · exact h0
    · exact absurd h0 (ne_of_gt hpos)

/-- Sub-epsilon pivots with non-negative leading entries: QRDecomposition returns the
identity and the input itself. -/
theorem QR_small (b : Mat3 ℝ)
    (h1 : b.x00 * b.x00 + b.x10 * b.x10 ≤ epsilon * epsilon) (p1 : 0 ≤ b.x00)
    (h2 : b.x00 * b.x00 + b.x20 * b.x20 ≤ epsilon * epsilon)
    (h3 : b.x11 * b.x11 + b.x21 * b.x21 ≤ epsilon * epsilon) (p3 : 0 ≤ b.x11) :
    b.QRDecomposition Real.sqrt = (ident, b) := by
  have e1 : qrPair1 Real.sqrt b = (1, 0) := by
    unfold qrPair1
    rw [qrGivensQuat_small _ _ h1, if_neg (not_lt.mpr p1)]
  have r1 : qrR1 Real.sqrt b = b := by
    ext <;> simp [qrR1, e1, givensCos, givensSin]
  have e2 : qrPair2 Real.sqrt b = (1, 0) := by
    unfold qrPair2
    rw [r1, qrGivensQuat_small _ _ h2, if_neg (not_lt.mpr p1)]
  have r2 : qrR2 Real.sqrt b = b := by
    ext <;> simp [qrR2, r1, e2, givensCos, givensSin]
  have e3 : qrPair3 Real.sqrt b = (1, 0) := by
    unfold qrPair3
    rw [r2, qrGivensQuat_small _ _ h3, if_neg (not_lt.mpr p3)]
  have hq := QRDecomposition_fst_eq_mul Real.sqrt b
  have hr := QRDecomposition_snd_eq_mul Real.sqrt b
  rw [e1, e2, e3] at hq
  rw [e3, r2] at hr
  refine Prod.ext ?_ ?_
  · rw [hq]
    ext <;> simp [MulMat3, planar01, planar02, planar12, mat3, Mat3.Transpose, ident,
      givensCos, givensSin]
  · rw [hr]
    ext <;> simp [MulMat3, planar12, mat3, givensCos, givensSin]

theorem QR_tinyLower :
    (tinyLower : Mat3 ℝ).QRDecomposition Real.sqrt = (ident, tinyLower) := by
  apply QR_small <;> norm_num [tinyLower, mat3, epsilon]

/-- The double-angle pair of a pivot pair of known length `r` above epsilon. -/
theorem qrGivens_at (a1 a2 r : ℝ) (hr : r * r = a1 * a1 + a2 * a2) (h : epsilon < r) :
    givensCos (qrGivensQuat Real.sqrt a1 a2) = a1 / r ∧
    givensSin (qrGivensQuat Real.sqrt a1 a2) = a2 / r := by
  have hpos : 0 < r := lt_trans eps_pos h
  have hs : Real.sqrt (a1 * a1 + a2 * a2) = r := by
    rw [← hr, Real.sqrt_mul_self hpos.le]
  obtain ⟨e1, e2⟩ := qrGivens_cos_sin a1 a2 (by rw [hs]; exact h)
  rw [hs] at e1 e2
  exact ⟨eq_div_of_mul_eq (ne_of_gt hpos) e1, eq_div_of_mul_eq (ne_of_gt hpos) e2⟩

theorem QR_sampleB_snd :
    ((sampleB : Mat3 ℝ).QRDecomposition Real.sqrt).2 = mat3 5 (11 / 5) 0 0 (2 / 5) 0 0 0 1 := by
  obtain ⟨c1, s1⟩ := qrGivens_at 3 4 5 (by norm_num) (by norm_num [epsilon])
  have hr1 : qrR1 Real.sqrt (sampleB : Mat3 ℝ) = mat3 5 (11 / 5) 0 0 (2 / 5) 0 0 0 1 := by
    ext <;> simp [qrR1, qrPair1, sampleB, mat3, c1, s1] <;> norm_num
  obtain ⟨c2, s2⟩ := qrGivens_axis 5 (by norm_num [epsilon])
  have hr2 : qrR2 Real.sqrt (sampleB : Mat3 ℝ) = mat3 5 (11 / 5) 0 0 (2 / 5) 0 0 0 1 := by
    ext <;> simp [qrR2, qrPair2, hr1, mat3, c2, s2]
  obtain ⟨c3, s3⟩ := qrGivens_axis (2 / 5) (by norm_num [epsilon])
  rw [QRDecomposition_snd]
  ext <;> simp [qrPair3, hr2, mat3, c3, s3]

/-- C1: QR round trip. For every real 3x3 matrix B, with (Q, R) = B.QRDecomposition()
evaluated in exact real arithmetic, the matrix product Q·R equals B. -/
theorem C1_qr_round_trip (B : Mat3 ℝ) :
    MulMat3 (B.QRDecomposition Real.sqrt).1 (B.QRDecomposition Real.sqrt).2 = B :=
  QR_mul_eq B

/-- C6: QR orthonormal factor. For every real 3x3 matrix B, the Q returned by
B.QRDecomposition() in exact real arithmetic satisfies Qᵀ·Q = I, and its closed-form
entries equal the product of the three transposed planar rotations built from the three
(ch, sh) pairs, each rotation having cosine 1 - 2·sh² and sine 2·ch·sh. -/
theorem C6_qr_orthonormal (B : Mat3 ℝ) :
    MulMat3 (B.QRDecomposition Real.sqrt).1.Transpose (B.QRDecomposition Real.sqrt).1 = ident ∧
    (B.QRDecomposition Real.sqrt).1 =
      MulMat3
        (planar01 (givensCos (qrPair1 Real.sqrt B)) (givensSin (qrPair1 Real.sqrt B))).Transpose
        (MulMat3
          (planar02 (givensCos (qrPair2 Real.sqrt B))
            (givensSin (qrPair2 Real.sqrt B))).Transpose
          (planar12 (givensCos (qrPair3 Real.sqrt B))
            (givensSin (qrPair3 Real.sqrt B))).Transpose) :=
  ⟨QR_orth B, QRDecomposition_fst_eq_mul Real.sqrt B⟩

/-- C7, as stated, fails: the matrix whose only non-zero entry is 1e-7 at row 1, column 0
keeps that entry in the R returned by QRDecomposition, because a pivot pair no longer than
epsilon is not rotated. -/
theorem C7_counterexample :
    ((tinyLower : Mat3 ℝ).QRDecomposition Real.sqrt).2.x10 = 1e-7 ∧
    ((tinyLower : Mat3 ℝ).QRDecomposition Real.sqrt).2.x10 ≠ 0 := by
  rw [QR_tinyLower]
  norm_num [tinyLower, mat3]

/-- C7, amended: for every real 3x3 matrix B the entries of R below the diagonal are small,
|R[1,0]| ≤ 2·epsilon, |R[2,0]| ≤ 2·epsilon and |R[2,1]| ≤ epsilon with epsilon = 1e-6; they
are exactly zero where the pivot is longer than epsilon: R[1,0] = R[2,0] = 0 when
B[0,0]² + B[1,0]² > epsilon², and R[2,1] = 0 when R[1,1] > epsilon. -/
theorem C7_qr_lower_entries (B : Mat3 ℝ) :
    |(B.QRDecomposition Real.sqrt).2.x10| ≤ 2 * epsilon ∧
    |(B.QRDecomposition Real.sqrt).2.x20| ≤ 2 * epsilon ∧
    |(B.QRDecomposition Real.sqrt).2.x21| ≤ epsilon ∧
    (epsilon * epsilon < B.x00 * B.x00 + B.x10 * B.x10 →
      (B.QRDecomposition Real.sqrt).2.x10 = 0 ∧ (B.QRDecomposition Real.sqrt).2.x20 = 0) ∧
    (epsilon < (B.QRDecomposition Real.sqrt).2.x11 →
      (B.QRDecomposition Real.sqrt).2.x21 = 0) :=
  ⟨QR_x10_small B, QR_x20_small B, QR_x21_small B, QR_col0_zero B, QR_x21_zero B⟩


/-- C7, amended, at the sample matrix with rows (3, 1, 0), (4, 2, 0), (0, 0, 1): both
pivots are longer than epsilon and the three entries below the diagonal of R are zero. -/
theorem C7_qr_lower_entries_witness :
    (epsilon : ℝ) * epsilon < (sampleB : Mat3 ℝ).x00 * (sampleB : Mat3 ℝ).x00
        + (sampleB : Mat3 ℝ).x10 * (sampleB : Mat3 ℝ).x10 ∧
    (epsilon : ℝ) < ((sampleB : Mat3 ℝ).QRDecomposition Real.sqrt).2.x11 ∧
    ((sampleB : Mat3 ℝ).QRDecomposition Real.sqrt).2.x10 = 0 ∧
    ((sampleB : Mat3 ℝ).QRDecomposition Real.sqrt).2.x20 = 0 ∧
    ((sampleB : Mat3 ℝ).QRDecomposition Real.sqrt).2.x21 = 0 := by
  have h1 : (epsilon : ℝ) * epsilon < (sampleB : Mat3 ℝ).x00 * (sampleB : Mat3 ℝ).x00
      + (sampleB : Mat3 ℝ).x10 * (sampleB : Mat3 ℝ).x10 := by
    norm_num [sampleB, mat3, epsilon]
  have h2 : (epsilon : ℝ) < ((sampleB : Mat3 ℝ).QRDecomposition Real.sqrt).2.x11 := by
    rw [QR_sampleB_snd]
    norm_num [mat3, epsilon]
  have h := C7_qr_lower_entries sampleB
  exact ⟨h1, h2, (h.2.2.2.1 h1).1, (h.2.2.2.1 h1).2, h.2.2.2.2 h2⟩

theorem jacobiConj_snd (sqrt : ℝ → ℝ) (m : Mat3 ℝ) (x y z : Fin 3) (q : Quat ℝ) :
    (jacobiConj sqrt m x y z q).2
      = quatUpdate (approximateGivensQuaternion sqrt m.x00 m.x10 m.x11).1
          (approximateGivensQuaternion sqrt m.x00 m.x10 m.x11).2 x y z q := rfl

theorem quatUpdate_012 (ch sh : ℝ) (q : Quat ℝ) :
    quatUpdate ch sh 0 1 2 q =
      { I := q.I * ch + q.J * sh, J := q.J * ch - q.I * sh,
        K := q.K * ch + sh * q.W, W := q.W * ch - q.K * sh } := by
  rfl

theorem quatUpdate_120 (ch sh : ℝ) (q : Quat ℝ) :
    quatUpdate ch sh 1 2 0 q =
      { I := q.I * ch + sh * q.W, J := q.J * ch + q.K * sh,
        K := q.K * ch - q.J * sh, W := q.W * ch - q.I * sh } := by
  rfl

theorem quatUpdate_201 (ch sh : ℝ) (q : Quat ℝ) :
    quatUpdate ch sh 2 0 1 q =
      { I := q.I * ch - q.K * sh, J := q.J * ch + sh * q.W,
        K := q.K * ch + q.I * sh, W := q.W * ch - q.J * sh } := by
  rfl


theorem quatUpdate_normSq_012 (ch sh : ℝ) (q : Quat ℝ) :
    (quatUpdate ch sh 0 1 2 q).normSq = q.normSq * (ch * ch + sh * sh) := by
  rw [quatUpdate_012]; simp only [Quat.normSq]; ring

theorem quatUpdate_normSq_120 (ch sh : ℝ) (q : Quat ℝ) :
    (quatUpdate ch sh 1 2 0 q).normSq = q.normSq * (ch * ch + sh * sh) := by
  rw [quatUpdate_120]; simp only [Quat.normSq]; ring

theorem quatUpdate_normSq_201 (ch sh : ℝ) (q : Quat ℝ) :
    (quatUpdate ch sh 2 0 1 q).normSq = q.normSq * (ch * ch + sh * sh) := by
  rw [quatUpdate_201]; simp only [Quat.normSq]; ring

/-- The pair of the approximate Givens step has unit norm, or it is the fixed pair. -/
theorem approximateGivens_cases (a11 a12 a22 : ℝ) :
    ((approximateGivensQuaternion Real.sqrt a11 a12 a22).1
        * (approximateGivensQuaternion Real.sqrt a11 a12 a22).1
      + (approximateGivensQuaternion Real.sqrt a11 a12 a22).2
        * (approximateGivensQuaternion Real.sqrt a11 a12 a22).2 = 1) ∨
    approximateGivensQuaternion Real.sqrt a11 a12 a22 = (cstar, sstar) := by
  unfold approximateGivensQuaternion
  simp only []
  split_ifs with h
  · left
    have hg : (0 : ℝ) ≤ gamma * a12 * a12 := by
      have : (0 : ℝ) ≤ gamma := by norm_num [gamma]
      nlinarith [mul_self_nonneg a12]
    have hD : 0 < 2 * (a11 - a22) * (2 * (a11 - a22)) + a12 * a12 := by
      nlinarith [mul_self_nonneg a12]
    have hs := Real.mul_self_sqrt hD.le
    have hne : Real.sqrt (2 * (a11 - a22) * (2 * (a11 - a22)) + a12 * a12) ≠ 0 :=
      ne_of_gt (Real.sqrt_pos.mpr hD)
    generalize Real.sqrt (2 * (a11 - a22) * (2 * (a11 - a22)) + a12 * a12) = r at hs hne
    field_simp
    linear_combination -hs
  · right; rfl

theorem fallbackNormSq_lt_one : (fallbackNormSq : ℝ) < 1 := by
  norm_num [fallbackNormSq, cstar, sstar]

theorem fallbackNormSq_pos : (0 : ℝ) < fallbackNormSq := by
  norm_num [fallbackNormSq, cstar, sstar]

theorem fallbackNormSq_pow12 : (1 : ℝ) - 2e-8 ≤ fallbackNormSq ^ 12 := by
  norm_num [fallbackNormSq, cstar, sstar]

/-- One elimination step multiplies the squared norm of the accumulator by 1 or by
cstar² + sstar². -/
theorem jacobiConj_normSq (m : Mat3 ℝ) (q : Quat ℝ) :
    ((jacobiConj Real.sqrt m 0 1 2 q).2.normSq = q.normSq ∨
      (jacobiConj Real.sqrt m 0 1 2 q).2.normSq = q.normSq * fallbackNormSq) ∧
    ((jacobiConj Real.sqrt m 1 2 0 q).2.normSq = q.normSq ∨
      (jacobiConj Real.sqrt m 1 2 0 q).2.normSq = q.normSq * fallbackNormSq) ∧
    ((jacobiConj Real.sqrt m 2 0 1 q).2.normSq = q.normSq ∨
      (jacobiConj Real.sqrt m 2 0 1 q).2.normSq = q.normSq * fallbackNormSq) := by
  simp only [jacobiConj_snd, quatUpdate_normSq_012, quatUpdate_normSq_120,
    quatUpdate_normSq_201]
  rcases approximateGivens_cases m.x00 m.x10 m.x11 with h | h
  · rw [h]; simp
  · rw [h]; simp [fallbackNormSq]

/-- Bounds on the squared norm after `k` elimination steps. -/
theorem normSq_step {k : ℕ} {N N' : ℝ} (h : fallbackNormSq ^ k ≤ N ∧ N ≤ 1)
    (h' : N' = N ∨ N' = N * fallbackNormSq) :
    fallbackNormSq ^ (k + 1) ≤ N' ∧ N' ≤ 1 := by
  have hc1 := fallbackNormSq_lt_one
  have hc0 := fallbackNormSq_pos
  have hk : (0 : ℝ) < fallbackNormSq ^ k := pow_pos hc0 k
  have hN : 0 < N := lt_of_lt_of_le hk h.1
  rw [pow_succ]
  rcases h' with e | e <;> subst e
  · constructor
    · nlinarith
    · exact h.2
  · constructor
    · nlinarith
    · nlinarith

theorem jacobiSweep_normSq (k : ℕ) (s : Mat3 ℝ × Quat ℝ)
    (h : fallbackNormSq ^ k ≤ s.2.normSq ∧ s.2.normSq ≤ 1) :
    fallbackNormSq ^ (k + 3) ≤ (jacobiSweep Real.sqrt s).2.normSq ∧
      (jacobiSweep Real.sqrt s).2.normSq ≤ 1 := by
  unfold jacobiSweep
  simp only []
  have h1 := normSq_step h (jacobiConj_normSq s.1 s.2).1
  have h2 := normSq_step h1 (jacobiConj_normSq (jacobiConj Real.sqrt s.1 0 1 2 s.2).1
    (jacobiConj Real.sqrt s.1 0 1 2 s.2).2).2.1
  exact normSq_step h2 (jacobiConj_normSq _ _).2.2

theorem jacobiEigenanalysis_unfold (sqrt : ℝ → ℝ) (m : Mat3 ℝ) :
    jacobiEigenanalysis sqrt m
      = jacobiSweep sqrt (jacobiSweep sqrt (jacobiSweep sqrt (jacobiSweep sqrt
          (m, { I := 0, J := 0, K := 0, W := 1 })))) := by
  simp only [jacobiEigenanalysis, Function.iterate_succ, Function.iterate_zero,
    Function.comp_apply, id_eq]

/-- The accumulated quaternion of jacobiEigenanalysis has squared norm in [1 - 2e-8, 1]. -/
theorem jacobiEigenanalysis_normSq (m : Mat3 ℝ) :
    1 - 2e-8 ≤ (jacobiEigenanalysis Real.sqrt m).2.normSq ∧
      (jacobiEigenanalysis Real.sqrt m).2.normSq ≤ 1 := by
  rw [jacobiEigenanalysis_unfold]
  generalize hs0 : ((m, ({ I := 0, J := 0, K := 0, W := 1 } : Quat ℝ)) : Mat3 ℝ × Quat ℝ) = s0
  have h0 : (fallbackNormSq : ℝ) ^ 0 ≤ s0.2.normSq ∧ s0.2.normSq ≤ 1 := by
    subst hs0
    simp [Quat.normSq]
  have h1 := jacobiSweep_normSq 0 s0 h0
  generalize jacobiSweep Real.sqrt s0 = s1 at h1 ⊢
  have h2 := jacobiSweep_normSq 3 s1 h1
  generalize jacobiSweep Real.sqrt s1 = s2 at h2 ⊢
  have h3 := jacobiSweep_normSq 6 s2 h2
  generalize jacobiSweep Real.sqrt s2 = s3 at h3 ⊢
  have h4 := jacobiSweep_normSq 9 s3 h3
  generalize jacobiSweep Real.sqrt s3 = s4 at h4 ⊢
  have hp := fallbackNormSq_pow12
  exact ⟨le_trans hp h4.1, h4.2⟩

theorem SVD_fst (sqrt : ℝ → ℝ) (a : Mat3 ℝ) :
    (a.SVD sqrt).1 = ((svdB sqrt a).QRDecomposition sqrt).1 := rfl

theorem SVD_snd (sqrt : ℝ → ℝ) (a : Mat3 ℝ) :
    (a.SVD sqrt).2.1 = ((svdB sqrt a).QRDecomposition sqrt).2 := rfl

theorem SVD_trd (sqrt : ℝ → ℝ) (a : Mat3 ℝ) :
    (a.SVD sqrt).2.2 = (sortSingularValues (MulMat3 a (svdV0 sqrt a)) (svdV0 sqrt a)).2 := rfl

/-- Gram matrix of a RotationMat3: the identity plus (1 - |q|²) times rotDefect. -/
theorem rot_gram (q : Quat ℝ) :
    subMat3 (MulMat3 q.RotationMat3.Transpose q.RotationMat3) ident
      = scaleMat3 (1 - q.normSq) (rotDefect q) := by
  ext <;> simp only [subMat3, MulMat3, Mat3.Transpose, Quat.RotationMat3, mat3, ident,
    scaleMat3, rotDefect, Quat.normSq] <;> ring

theorem rot_gram_right (q : Quat ℝ) :
    subMat3 (MulMat3 q.RotationMat3 q.RotationMat3.Transpose) ident
      = scaleMat3 (1 - q.normSq) (rotDefect q) := by
  ext <;> simp only [subMat3, MulMat3, Mat3.Transpose, Quat.RotationMat3, mat3, ident,
    scaleMat3, rotDefect, Quat.normSq] <;> ring

theorem abs_diag_le (s N : ℝ) (h0 : 0 ≤ s) (h : s ≤ N) : |-4 * s| ≤ 4 * N := by
  rw [abs_le]; constructor <;> linarith

theorem abs_off_le (x y N : ℝ) (h : x * x + y * y ≤ N) : |4 * x * y| ≤ 4 * N := by
  rw [abs_le]
  constructor
  · nlinarith [mul_self_nonneg (x + y), mul_self_nonneg x, mul_self_nonneg y]
  · nlinarith [mul_self_nonneg (x - y), mul_self_nonneg x, mul_self_nonneg y]

theorem rotDefect_le (q : Quat ℝ) : entriesLe (rotDefect q) (4 * q.normSq) := by
  simp only [entriesLe, rotDefect, mat3, Quat.normSq]
  have hi := mul_self_nonneg q.I
  have hj := mul_self_nonneg q.J
  have hk := mul_self_nonneg q.K
  have hw := mul_self_nonneg q.W
  refine ⟨abs_diag_le _ _ ?_ ?_, abs_off_le _ _ _ ?_, abs_off_le _ _ _ ?_,
    abs_off_le _ _ _ ?_, abs_diag_le _ _ ?_ ?_, abs_off_le _ _ _ ?_,
    abs_off_le _ _ _ ?_, abs_off_le _ _ _ ?_, abs_diag_le _ _ ?_ ?_⟩ <;> linarith

theorem entriesLe_scale (c t : ℝ) (m : Mat3 ℝ) (h : entriesLe m t) :
    entriesLe (scaleMat3 c m) (|c| * t) := by
  simp only [entriesLe, scaleMat3, abs_mul] at h ⊢
  obtain ⟨h1, h2, h3, h4, h5, h6, h7, h8, h9⟩ := h
  have hc := abs_nonneg c
  exact ⟨mul_le_mul_of_nonneg_left h1 hc, mul_le_mul_of_nonneg_left h2 hc,
    mul_le_mul_of_nonneg_left h3 hc, mul_le_mul_of_nonneg_left h4 hc,
    mul_le_mul_of_nonneg_left h5 hc, mul_le_mul_of_nonneg_left h6 hc,
    mul_le_mul_of_nonneg_left h7 hc, mul_le_mul_of_nonneg_left h8 hc,
    mul_le_mul_of_nonneg_left h9 hc⟩

theorem entriesLe_mono {m : Mat3 ℝ} {s t : ℝ} (h : entriesLe m s) (hst : s ≤ t) :
    entriesLe m t := by
  simp only [entriesLe] at h ⊢
  obtain ⟨h1, h2, h3, h4, h5, h6, h7, h8, h9⟩ := h
  exact ⟨h1.trans hst, h2.trans hst, h3.trans hst, h4.trans hst, h5.trans hst,
    h6.trans hst, h7.trans hst, h8.trans hst, h9.trans hst⟩

/-- A quaternion with squared norm in [1 - d, 1] gives a matrix whose Gram matrices are
within 4·d of the identity, entry by entry. -/
theorem rot_defect_bound (q : Quat ℝ) (d : ℝ) (h1 : 1 - d ≤ q.normSq) (h2 : q.normSq ≤ 1) :
    entriesLe (scaleMat3 (1 - q.normSq) (rotDefect q)) (4 * d) := by
  have h := entriesLe_scale (1 - q.normSq) _ _ (rotDefect_le q)
  apply entriesLe_mono h
  rw [abs_of_nonneg (by linarith)]
  have hN : 0 ≤ q.normSq := by
    simp only [Quat.normSq]
    nlinarith [mul_self_nonneg q.I, mul_self_nonneg q.J, mul_self_nonneg q.K,
      mul_self_nonneg q.W]
  nlinarith

/-- The matrix V of SVD before sorting is orthonormal up to 8e-8 per entry. -/
theorem svdV0_gram (a : Mat3 ℝ) :
    entriesLe (subMat3 (MulMat3 (svdV0 Real.sqrt a).Transpose (svdV0 Real.sqrt a)) ident) 8e-8 ∧
    entriesLe (subMat3 (MulMat3 (svdV0 Real.sqrt a) (svdV0 Real.sqrt a).Transpose) ident)
      8e-8 := by
  obtain ⟨h1, h2⟩ := jacobiEigenanalysis_normSq (MulMat3 a.Transpose a)
  have hb := rot_defect_bound _ 2e-8 h1 h2
  have e : (4 : ℝ) * 2e-8 = 8e-8 := by norm_num
  rw [e] at hb
  unfold svdV0
  rw [rot_gram, rot_gram_right]
  exact ⟨hb, hb⟩

/-- Induction principle for sortSingularValues: a relation between `b` and `v` kept by
each of the three signed column exchanges holds for the result. -/
theorem sort_ind (P : Mat3 ℝ → Mat3 ℝ → Prop)
    (h01 : ∀ b v, P b v → P (swapCols01 b) (swapCols01 v))
    (h02 : ∀ b v, P b v → P (swapCols02 b) (swapCols02 v))
    (h12 : ∀ b v, P b v → P (swapCols12 b) (swapCols12 v))
    (b v : Mat3 ℝ) (h : P b v) :
    P (sortSingularValues b v).1 (sortSingularValues b v).2 := by
  unfold sortSingularValues
  simp only []
  split_ifs <;> simp only [] <;>
    first
    | exact h
    | exact h01 _ _ h
    | exact h02 _ _ h
    | exact h12 _ _ h
    | exact h02 _ _ (h01 _ _ h)
    | exact h12 _ _ (h01 _ _ h)
    | exact h12 _ _ (h02 _ _ h)
    | exact h12 _ _ (h02 _ _ (h01 _ _ h))


theorem swapCols01_mul (a v : Mat3 ℝ) :
    swapCols01 (MulMat3 a v) = MulMat3 a (swapCols01 v) := by
  ext <;> simp only [swapCols01, MulMat3] <;> ring

theorem swapCols02_mul (a v : Mat3 ℝ) :
    swapCols02 (MulMat3 a v) = MulMat3 a (swapCols02 v) := by
  ext <;> simp only [swapCols02, MulMat3] <;> ring

theorem swapCols12_mul (a v : Mat3 ℝ) :
    swapCols12 (MulMat3 a v) = MulMat3 a (swapCols12 v) := by
  ext <;> simp only [swapCols12, MulMat3] <;> ring

theorem swapCols01_mul_transpose (b v : Mat3 ℝ) :
    MulMat3 (swapCols01 b) (swapCols01 v).Transpose = MulMat3 b v.Transpose := by
  ext <;> simp only [swapCols01, MulMat3, Mat3.Transpose] <;> ring

theorem swapCols02_mul_transpose (b v : Mat3 ℝ) :
    MulMat3 (swapCols02 b) (swapCols02 v).Transpose = MulMat3 b v.Transpose := by
  ext <;> simp only [swapCols02, MulMat3, Mat3.Transpose] <;> ring

theorem swapCols12_mul_transpose (b v : Mat3 ℝ) :
    MulMat3 (swapCols12 b) (swapCols12 v).Transpose = MulMat3 b v.Transpose := by
  ext <;> simp only [swapCols12, MulMat3, Mat3.Transpose] <;> ring

theorem swapCols01_det (v : Mat3 ℝ) : det3 (swapCols01 v) = det3 v := by
  simp only [swapCols01, det3]; ring

theorem swapCols02_det (v : Mat3 ℝ) : det3 (swapCols02 v) = det3 v := by
  simp only [swapCols02, det3]; ring

theorem swapCols12_det (v : Mat3 ℝ) : det3 (swapCols12 v) = det3 v := by
  simp only [swapCols12, det3]; ring

theorem swapCols01_gram (v : Mat3 ℝ) (t : ℝ)
    (h : entriesLe (subMat3 (MulMat3 v.Transpose v) ident) t) :
    entriesLe (subMat3 (MulMat3 (swapCols01 v).Transpose (swapCols01 v)) ident) t := by
  simp only [entriesLe, subMat3, MulMat3, Mat3.Transpose, ident, mat3, swapCols01,
    abs_le] at h ⊢
  obtain ⟨⟨a1, a2⟩, ⟨b1, b2⟩, ⟨c1, c2⟩, ⟨d1, d2⟩, ⟨e1, e2⟩, ⟨f1, f2⟩, ⟨g1, g2⟩, ⟨i1, i2⟩,
    ⟨j1, j2⟩⟩ := h
  refine ⟨⟨?_, ?_⟩, ⟨?_, ?_⟩, ⟨?_, ?_⟩, ⟨?_, ?_⟩, ⟨?_, ?_⟩, ⟨?_, ?_⟩, ⟨?_, ?_⟩, ⟨?_, ?_⟩,
    ⟨?_, ?_⟩⟩ <;> linarith

theorem swapCols02_gram (v : Mat3 ℝ) (t : ℝ)
    (h : entriesLe (subMat3 (MulMat3 v.Transpose v) ident) t) :
    entriesLe (subMat3 (MulMat3 (swapCols02 v).Transpose (swapCols02 v)) ident) t := by
  simp only [entriesLe, subMat3, MulMat3, Mat3.Transpose, ident, mat3, swapCols02,
    abs_le] at h ⊢
  obtain ⟨⟨a1, a2⟩, ⟨b1, b2⟩, ⟨c1, c2⟩, ⟨d1, d2⟩, ⟨e1, e2⟩, ⟨f1, f2⟩, ⟨g1, g2⟩, ⟨i1, i2⟩,
    ⟨j1, j2⟩⟩ := h
  refine ⟨⟨?_, ?_⟩, ⟨?_, ?_⟩, ⟨?_, ?_⟩, ⟨?_, ?_⟩, ⟨?_, ?_⟩, ⟨?_, ?_⟩, ⟨?_, ?_⟩, ⟨?_, ?_⟩,
    ⟨?_, ?_⟩⟩ <;> linarith

theorem swapCols12_gram (v : Mat3 ℝ) (t : ℝ)
    (h : entriesLe (subMat3 (MulMat3 v.Transpose v) ident) t) :
    entriesLe (subMat3 (MulMat3 (swapCols12 v).Transpose (swapCols12 v)) ident) t := by
  simp only [entriesLe, subMat3, MulMat3, Mat3.Transpose, ident, mat3, swapCols12,
    abs_le] at h ⊢
  obtain ⟨⟨a1, a2⟩, ⟨b1, b2⟩, ⟨c1, c2⟩, ⟨d1, d2⟩, ⟨e1, e2⟩, ⟨f1, f2⟩, ⟨g1, g2⟩, ⟨i1, i2⟩,
    ⟨j1, j2⟩⟩ := h
  refine ⟨⟨?_, ?_⟩, ⟨?_, ?_⟩, ⟨?_, ?_⟩, ⟨?_, ?_⟩, ⟨?_, ?_⟩, ⟨?_, ?_⟩, ⟨?_, ?_⟩, ⟨?_, ?_⟩,
    ⟨?_, ?_⟩⟩ <;> linarith

/-- The sorted `b` of SVD is the input times the returned V. -/
theorem svdB_eq_mul (a : Mat3 ℝ) : svdB Real.sqrt a = MulMat3 a (a.SVD Real.sqrt).2.2 := by
  rw [SVD_trd]
  unfold svdB
  refine sort_ind (fun b v => b = MulMat3 a v) ?_ ?_ ?_ _ _ rfl
  · intro b v h; rw [h, swapCols01_mul]
  · intro b v h; rw [h, swapCols02_mul]
  · intro b v h; rw [h, swapCols12_mul]

/-- Sorting does not change V·Vᵀ. -/
theorem svdV_rowgram (a : Mat3 ℝ) :
    MulMat3 (a.SVD Real.sqrt).2.2 (a.SVD Real.sqrt).2.2.Transpose
      = MulMat3 (svdV0 Real.sqrt a) (svdV0 Real.sqrt a).Transpose := by
  rw [SVD_trd]
  refine sort_ind (fun _ v => MulMat3 v v.Transpose
    = MulMat3 (svdV0 Real.sqrt a) (svdV0 Real.sqrt a).Transpose) ?_ ?_ ?_ _ _ rfl
  · intro b v h; rw [swapCols01_mul_transpose, h]
  · intro b v h; rw [swapCols02_mul_transpose, h]
  · intro b v h; rw [swapCols12_mul_transpose, h]

/-- The returned V is orthonormal up to 8e-8 per entry. -/
theorem svdV_gram (a : Mat3 ℝ) :
    entriesLe (subMat3 (MulMat3 (a.SVD Real.sqrt).2.2.Transpose (a.SVD Real.sqrt).2.2) ident)
      8e-8 := by
  rw [SVD_trd]
  refine sort_ind (fun _ v => entriesLe (subMat3 (MulMat3 v.Transpose v) ident) 8e-8)
    ?_ ?_ ?_ _ _ (svdV0_gram a).1
  · intro b v h; exact swapCols01_gram v _ h
  · intro b v h; exact swapCols02_gram v _ h
  · intro b v h; exact swapCols12_gram v _ h

/-- Sorting does not change the determinant of V. -/
theorem svdV_det (a : Mat3 ℝ) : det3 (a.SVD Real.sqrt).2.2 = det3 (svdV0 Real.sqrt a) := by
  rw [SVD_trd]
  refine sort_ind (fun _ v => det3 v = det3 (svdV0 Real.sqrt a)) ?_ ?_ ?_ _ _ rfl
  · intro b v h; rw [swapCols01_det, h]
  · intro b v h; rw [swapCols02_det, h]
  · intro b v h; rw [swapCols12_det, h]

/-- The product U·S of SVD is the input times the returned V. -/
theorem SVD_US (a : Mat3 ℝ) :
    MulMat3 (a.SVD Real.sqrt).1 (a.SVD Real.sqrt).2.1 = MulMat3 a (a.SVD Real.sqrt).2.2 := by
  rw [SVD_fst, SVD_snd, QR_mul_eq, svdB_eq_mul]

theorem cauchy3 (a b c x y z : ℝ) :
    (a * x + b * y + c * z) * (a * x + b * y + c * z)
      ≤ (a * a + b * b + c * c) * (x * x + y * y + z * z) := by
  nlinarith [mul_self_nonneg (a * y - b * x), mul_self_nonneg (a * z - c * x),
    mul_self_nonneg (b * z - c * y)]

/-- The Frobenius norm is submultiplicative (squared form). -/
theorem frobSq_mul_le (a d : Mat3 ℝ) : frobSq (MulMat3 a d) ≤ frobSq a * frobSq d := by
  simp only [frobSq, MulMat3]
  have h00 := cauchy3 a.x00 a.x01 a.x02 d.x00 d.x10 d.x20
  have h01 := cauchy3 a.x00 a.x01 a.x02 d.x01 d.x11 d.x21
  have h02 := cauchy3 a.x00 a.x01 a.x02 d.x02 d.x12 d.x22
  have h10 := cauchy3 a.x10 a.x11 a.x12 d.x00 d.x10 d.x20
  have h11 := cauchy3 a.x10 a.x11 a.x12 d.x01 d.x11 d.x21
  have h12 := cauchy3 a.x10 a.x11 a.x12 d.x02 d.x12 d.x22
  have h20 := cauchy3 a.x20 a.x21 a.x22 d.x00 d.x10 d.x20
  have h21 := cauchy3 a.x20 a.x21 a.x22 d.x01 d.x11 d.x21
  have h22 := cauchy3 a.x20 a.x21 a.x22 d.x02 d.x12 d.x22
  linarith

theorem frobSq_nonneg (a : Mat3 ℝ) : 0 ≤ frobSq a := by
  simp only [frobSq]
  nlinarith [mul_self_nonneg a.x00, mul_self_nonneg a.x01, mul_self_nonneg a.x02,
    mul_self_nonneg a.x10, mul_self_nonneg a.x11, mul_self_nonneg a.x12,
    mul_self_nonneg a.x20, mul_self_nonneg a.x21, mul_self_nonneg a.x22]

theorem mul_self_le_of_abs_le {x t : ℝ} (h : |x| ≤ t) : x * x ≤ t * t := by
  have h0 : 0 ≤ |x| := abs_nonneg x
  have : |x| * |x| ≤ t * t := by nlinarith
  rwa [abs_mul_abs_self] at this

theorem frobSq_le_of_entriesLe (m : Mat3 ℝ) (t : ℝ) (h : entriesLe m t) :
    frobSq m ≤ 9 * (t * t) := by
  simp only [entriesLe] at h
  obtain ⟨h1, h2, h3, h4, h5, h6, h7, h8, h9⟩ := h
  have := mul_self_le_of_abs_le h1
  have := mul_self_le_of_abs_le h2
  have := mul_self_le_of_abs_le h3
  have := mul_self_le_of_abs_le h4
  have := mul_self_le_of_abs_le h5
  have := mul_self_le_of_abs_le h6
  have := mul_self_le_of_abs_le h7
  have := mul_self_le_of_abs_le h8
  have := mul_self_le_of_abs_le h9
  simp only [frobSq]
  linarith

theorem sub_mul_eq (a w : Mat3 ℝ) :
    subMat3 a (MulMat3 a w) = MulMat3 a (subMat3 ident w) := by
  ext <;> simp only [subMat3, MulMat3, ident, mat3] <;> ring

theorem frobSq_neg_sub (a b : Mat3 ℝ) : frobSq (subMat3 a b) = frobSq (subMat3 b a) := by
  simp only [frobSq, subMat3]; ring

/-- Squared form of the reconstruction bound. -/
theorem SVD_reconstruct_sq (a : Mat3 ℝ) :
    frobSq (subMat3 a (MulMat3 (MulMat3 (a.SVD Real.sqrt).1 (a.SVD Real.sqrt).2.1)
        (a.SVD Real.sqrt).2.2.Transpose))
      ≤ (1e-5 * 1e-5) * frobSq a := by
  rw [SVD_US, MulMat3_assoc, svdV_rowgram, sub_mul_eq]
  have hmul := frobSq_mul_le a
    (subMat3 ident (MulMat3 (svdV0 Real.sqrt a) (svdV0 Real.sqrt a).Transpose))
  have hd := frobSq_le_of_entriesLe _ _ (svdV0_gram a).2
  rw [frobSq_neg_sub] at hd
  have ha := frobSq_nonneg a
  have hd' : frobSq (subMat3 ident (MulMat3 (svdV0 Real.sqrt a) (svdV0 Real.sqrt a).Transpose))
      ≤ 1e-5 * 1e-5 := le_trans hd (by norm_num)
  calc frobSq (MulMat3 a (subMat3 ident
          (MulMat3 (svdV0 Real.sqrt a) (svdV0 Real.sqrt a).Transpose)))
      ≤ frobSq a * frobSq (subMat3 ident
          (MulMat3 (svdV0 Real.sqrt a) (svdV0 Real.sqrt a).Transpose)) := hmul
    _ ≤ frobSq a * (1e-5 * 1e-5) := mul_le_mul_of_nonneg_left hd' ha
    _ = (1e-5 * 1e-5) * frobSq a := mul_comm _ _

/-- C2: SVD reconstruction. For every real 3x3 matrix A, with (U, S, V) = A.SVD() evaluated
in exact real arithmetic, the Frobenius norm of A - U·S·Vᵀ is at most 1e-5 times the
Frobenius norm of A. -/
theorem C2_svd_reconstruction (A : Mat3 ℝ) :
    Real.sqrt (frobSq (subMat3 A (MulMat3 (MulMat3 (A.SVD Real.sqrt).1 (A.SVD Real.sqrt).2.1)
        (A.SVD Real.sqrt).2.2.Transpose)))
      ≤ 1e-5 * Real.sqrt (frobSq A) := by
  have h := SVD_reconstruct_sq A
  have e : (1e-5 : ℝ) * Real.sqrt (frobSq A)
      = Real.sqrt ((1e-5 * 1e-5) * frobSq A) := by
    rw [Real.sqrt_mul (by norm_num), Real.sqrt_mul_self (by norm_num)]
  rw [e]
  exact Real.sqrt_le_sqrt h

theorem entriesLe_zero_gram (u : Mat3 ℝ) (h : MulMat3 u.Transpose u = ident) (t : ℝ)
    (ht : 0 ≤ t) : entriesLe (subMat3 (MulMat3 u.Transpose u) ident) t := by
  rw [h]
  simp [entriesLe, subMat3, ht]

/-- C5: SVD orthonormality. For every real 3x3 matrix A, with (U, S, V) = A.SVD(), every
entry of Uᵀ·U - I and every entry of Vᵀ·V - I has absolute value at most 1e-5. -/
theorem C5_svd_orthonormal (A : Mat3 ℝ) :
    entriesLe (subMat3 (MulMat3 (A.SVD Real.sqrt).1.Transpose (A.SVD Real.sqrt).1) ident) 1e-5 ∧
    entriesLe (subMat3 (MulMat3 (A.SVD Real.sqrt).2.2.Transpose (A.SVD Real.sqrt).2.2) ident)
      1e-5 := by
  constructor
  · rw [SVD_fst]
    exact entriesLe_zero_gram _ (QR_orth _) _ (by norm_num)
  · exact entriesLe_mono (svdV_gram A) (by norm_num)

theorem MulMat3_zero_left (v : Mat3 ℝ) : MulMat3 zero3 v = zero3 := by
  ext <;> simp [MulMat3, zero3, mat3]

theorem sort_zero (v : Mat3 ℝ) : sortSingularValues (zero3 : Mat3 ℝ) v = (zero3, v) := by
  simp [sortSingularValues, Norm2, Mat3.VecCol, zero3, mat3]

theorem QR_zero : (zero3 : Mat3 ℝ).QRDecomposition Real.sqrt = (ident, zero3) := by
  apply QR_small <;> norm_num [zero3, mat3, epsilon]

theorem svdB_zero : svdB Real.sqrt (zero3 : Mat3 ℝ) = zero3 := by
  unfold svdB
  rw [MulMat3_zero_left, sort_zero]

/-- C10: degenerate input. For A = 0 (the 3x3 zero matrix), A.SVD() returns S equal to the
zero matrix exactly (and U equal to the identity), and U and V are orthonormal: every entry
of Uᵀ·U - I and of Vᵀ·V - I is at most 1e-5 in absolute value. -/
theorem C10_svd_zero :
    ((zero3 : Mat3 ℝ).SVD Real.sqrt).2.1 = zero3 ∧
    ((zero3 : Mat3 ℝ).SVD Real.sqrt).1 = ident ∧
    entriesLe (subMat3 (MulMat3 ((zero3 : Mat3 ℝ).SVD Real.sqrt).1.Transpose
      ((zero3 : Mat3 ℝ).SVD Real.sqrt).1) ident) 1e-5 ∧
    entriesLe (subMat3 (MulMat3 ((zero3 : Mat3 ℝ).SVD Real.sqrt).2.2.Transpose
      ((zero3 : Mat3 ℝ).SVD Real.sqrt).2.2) ident) 1e-5 := by
  refine ⟨?_, ?_, ?_, ?_⟩
  · rw [SVD_snd, svdB_zero, QR_zero]
  · rw [SVD_fst, svdB_zero, QR_zero]
  · rw [SVD_fst]
    exact entriesLe_zero_gram _ (QR_orth _) _ (by norm_num)
  · exact entriesLe_mono (svdV_gram _) (by norm_num)

/-! ### Determinants and Gram matrices through the QR step -/

theorem det3_mul (a b : Mat3 ℝ) : det3 (MulMat3 a b) = det3 a * det3 b := by
  simp only [det3, MulMat3]; ring

theorem det3_transpose (a : Mat3 ℝ) : det3 a.Transpose = det3 a := by
  simp only [det3, Mat3.Transpose]; ring

theorem det3_planar01 (c s : ℝ) : det3 (planar01 c s) = c ^ 2 + s ^ 2 := by
  simp only [det3, planar01, mat3]; ring

theorem det3_planar02 (c s : ℝ) : det3 (planar02 c s) = c ^ 2 + s ^ 2 := by
  simp only [det3, planar02, mat3]; ring

theorem det3_planar12 (c s : ℝ) : det3 (planar12 c s) = c ^ 2 + s ^ 2 := by
  simp only [det3, planar12, mat3]; ring

/-- The factor `q` of QRDecomposition has determinant 1. -/
theorem QR_det_q (b : Mat3 ℝ) : det3 (b.QRDecomposition Real.sqrt).1 = 1 := by
  rw [QRDecomposition_fst_eq_mul, det3_mul, det3_mul, det3_transpose, det3_transpose,
    det3_transpose, det3_planar01, det3_planar02, det3_planar12, qrPair1_circle,
    qrPair2_circle, qrPair3_circle]
  norm_num

/-- The factor `r` of QRDecomposition has the determinant of the input. -/
theorem QR_det_r (b : Mat3 ℝ) : det3 (b.QRDecomposition Real.sqrt).2 = det3 b := by
  have h := congrArg det3 (QR_mul_eq b)
  rw [det3_mul, QR_det_q, one_mul] at h
  exact h

/-- The factor `r` of QRDecomposition has the Gram matrix of the input. -/
theorem QR_gram (b : Mat3 ℝ) :
    MulMat3 (b.QRDecomposition Real.sqrt).2.Transpose (b.QRDecomposition Real.sqrt).2
      = MulMat3 b.Transpose b := by
  have h := QR_mul_eq b
  have ho := QR_orth b
  generalize (b.QRDecomposition Real.sqrt).1 = q at h ho
  generalize (b.QRDecomposition Real.sqrt).2 = r at h ⊢
  rw [← h, Transpose_MulMat3]
  calc MulMat3 r.Transpose r
      = MulMat3 r.Transpose (MulMat3 (MulMat3 q.Transpose q) r) := by
        rw [ho, MulMat3_ident_left]
    _ = MulMat3 (MulMat3 r.Transpose q.Transpose) (MulMat3 q r) := by
        simp only [MulMat3_assoc]

/-- Determinant of a RotationMat3 for an arbitrary quaternion. -/
theorem rot_det (q : Quat ℝ) :
    det3 q.RotationMat3 = q.normSq ^ 2 + (1 - q.normSq) ^ 2
      + 2 * (1 - q.normSq) * (q.W * q.W - q.I * q.I - q.J * q.J - q.K * q.K) := by
  simp only [det3, Quat.RotationMat3, mat3, Quat.normSq]; ring

/-- The matrix V of SVD has determinant at least 0.99. -/
theorem svdV0_det (a : Mat3 ℝ) : 0.99 ≤ det3 (svdV0 Real.sqrt a) := by
  obtain ⟨h1, h2⟩ := jacobiEigenanalysis_normSq (MulMat3 a.Transpose a)
  unfold svdV0
  rw [rot_det]
  generalize (jacobiEigenanalysis Real.sqrt (MulMat3 a.Transpose a)).2 = q at h1 h2 ⊢
  have hi := mul_self_nonneg q.I
  have hj := mul_self_nonneg q.J
  have hk := mul_self_nonneg q.K
  have hw := mul_self_nonneg q.W
  have hN : q.normSq = q.I * q.I + q.J * q.J + q.K * q.K + q.W * q.W := rfl
  have hd : -q.normSq ≤ q.W * q.W - q.I * q.I - q.J * q.J - q.K * q.K := by
    rw [hN]; linarith
  have hu : 0 ≤ 1 - q.normSq := by linarith
  have hu2 : 1 - q.normSq ≤ 2e-8 := by linarith
  have hN0 : (0.9 : ℝ) ≤ q.normSq := by norm_num at h1 ⊢; linarith
  nlinarith [mul_nonneg hu (by linarith : 0 ≤ q.W * q.W - q.I * q.I - q.J * q.J
    - q.K * q.K + q.normSq), mul_self_nonneg (1 - q.normSq)]

/-- After sortSingularValues the squared column norms of `b` are in descending order. -/
theorem sort_ordered (b v : Mat3 ℝ) :
    colNorm2 (sortSingularValues b v).1 1 ≤ colNorm2 (sortSingularValues b v).1 0 ∧
    colNorm2 (sortSingularValues b v).1 2 ≤ colNorm2 (sortSingularValues b v).1 1 := by
  simp only [sortSingularValues, colNorm2, Norm2, Mat3.VecCol]
  split_ifs <;>
    simp only [swapCols01, swapCols02, swapCols12, neg_mul_neg] at * <;>
    constructor <;> linarith

/-- QRDecomposition keeps the squared norm of every column. -/
theorem QR_colNorm2 (b : Mat3 ℝ) :
    colNorm2 (b.QRDecomposition Real.sqrt).2 0 = colNorm2 b 0 ∧
    colNorm2 (b.QRDecomposition Real.sqrt).2 1 = colNorm2 b 1 ∧
    colNorm2 (b.QRDecomposition Real.sqrt).2 2 = colNorm2 b 2 := by
  have h := QR_gram b
  have h0 := congrArg Mat3.x00 h
  have h1 := congrArg Mat3.x11 h
  have h2 := congrArg Mat3.x22 h
  simp only [MulMat3, Mat3.Transpose] at h0 h1 h2
  simp only [colNorm2, Norm2, Mat3.VecCol]
  exact ⟨h0, h1, h2⟩

theorem le_add_of_sq_le {x y e : ℝ} (hx : 0 ≤ x) (he : 0 ≤ e)
    (h : y * y ≤ x * x + 2 * (e * e)) : y ≤ x + 2 * e := by
  by_contra hc
  push_neg at hc
  nlinarith [mul_nonneg hx he]

/-- Ordering facts for the factor `r` of a matrix whose columns are sorted by norm. -/
theorem QR_sorted_diag (b : Mat3 ℝ) (h10 : colNorm2 b 1 ≤ colNorm2 b 0)
    (h21 : colNorm2 b 2 ≤ colNorm2 b 1) :
    (b.QRDecomposition Real.sqrt).2.x11 ≤ (b.QRDecomposition Real.sqrt).2.x00 + 2 * epsilon ∧
    |(b.QRDecomposition Real.sqrt).2.x22| ≤ (b.QRDecomposition Real.sqrt).2.x00
      + 2 * epsilon := by
  obtain ⟨e0, e1, e2⟩ := QR_colNorm2 b
  have hl := QR_col0_sq_le b
  have p0 := QR_x00_nonneg b
  rw [← e0, ← e1] at h10
  rw [← e1, ← e2] at h21
  simp only [colNorm2, Norm2, Mat3.VecCol] at h10 h21
  generalize (b.QRDecomposition Real.sqrt).2 = r at *
  have he := eps_pos
  simp only [sq] at hl
  have q01 := mul_self_nonneg r.x01
  have q21 := mul_self_nonneg r.x21
  have q02 := mul_self_nonneg r.x02
  have q12 := mul_self_nonneg r.x12
  have q11 := mul_self_nonneg r.x11
  have hneg : -r.x22 * -r.x22 = r.x22 * r.x22 := by ring
  refine ⟨le_add_of_sq_le p0 he.le (by linarith), abs_le.mpr ⟨?_, ?_⟩⟩
  · have : -r.x22 ≤ r.x00 + 2 * epsilon := le_add_of_sq_le p0 he.le (by rw [hneg]; linarith)
    linarith
  · exact le_add_of_sq_le p0 he.le (by linarith)

/-- C3, amended: for every real 3x3 matrix A the diagonal of the S returned by A.SVD()
satisfies S[0,0] ≥ 0, S[1,1] ≥ 0, S[0,0] ≥ S[1,1] - 1e-5 and S[0,0] ≥ |S[2,2]| - 1e-5;
S[2,2] itself is not bounded below by -1e-5. -/
theorem C3_svd_ordering (A : Mat3 ℝ) :
    0 ≤ (A.SVD Real.sqrt).2.1.x00 ∧ 0 ≤ (A.SVD Real.sqrt).2.1.x11 ∧
    (A.SVD Real.sqrt).2.1.x11 - 1e-5 ≤ (A.SVD Real.sqrt).2.1.x00 ∧
    |(A.SVD Real.sqrt).2.1.x22| - 1e-5 ≤ (A.SVD Real.sqrt).2.1.x00 := by
  rw [SVD_snd]
  have hs := sort_ordered (MulMat3 A (svdV0 Real.sqrt A)) (svdV0 Real.sqrt A)
  obtain ⟨h1, h2⟩ := QR_sorted_diag (svdB Real.sqrt A) hs.1 hs.2
  have he : (2 : ℝ) * epsilon ≤ 1e-5 := by norm_num [epsilon]
  exact ⟨QR_x00_nonneg _, QR_x11_nonneg _, by linarith, by linarith⟩

theorem near_one_of_sq {x a : ℝ} (hx : 0 ≤ x) (ha : 0 ≤ a)
    (h1 : 1 - a ≤ x * x) (h2 : x * x ≤ 1 + a) : 1 - a ≤ x ∧ x ≤ 1 + a := by
  constructor
  · by_contra hc
    push_neg at hc
    nlinarith
  · by_contra hc
    push_neg at hc
    nlinarith

theorem abs_le_of_mul_eq {x y p m : ℝ} (hx : 0.9999 ≤ x) (hm : 0 ≤ m) (hp : |p| ≤ m)
    (h : x * y = p) : |y| ≤ 1.0002 * m := by
  rw [abs_le] at hp ⊢
  obtain ⟨p1, p2⟩ := hp
  constructor
  · by_contra hc
    push_neg at hc
    nlinarith
  · by_contra hc
    push_neg at hc
    nlinarith

theorem abs_le_one_of_sq {x s : ℝ} (h : x * x ≤ s) (hs : s ≤ 1.0002) : |x| ≤ 1.0001 := by
  rw [abs_le]
  constructor
  · by_contra hc
    push_neg at hc
    nlinarith
  · by_contra hc
    push_neg at hc
    nlinarith

theorem abs_mul_le_mul {x y a b : ℝ} (hx : |x| ≤ a) (hy : |y| ≤ b) : |x * y| ≤ a * b := by
  rw [abs_mul]
  exact mul_le_mul hx hy (abs_nonneg y) (le_trans (abs_nonneg x) hx)


theorem pivot_near_one {a u : ℝ} (pa : 0 ≤ a) (u0 : 0 ≤ u) (u1 : u ≤ 1e-10)
    (G : |a * a + u - 1| ≤ 8e-8) : 1 - 1e-6 ≤ a ∧ a ≤ 1 + 1e-6 := by
  rw [abs_le] at G
  exact near_one_of_sq pa (by norm_num) (by linarith) (by linarith)

theorem crude_entry {x u v : ℝ} (u0 : 0 ≤ u) (v0 : 0 ≤ v) (G : |x * x + u + v - 1| ≤ 8e-8) :
    |x| ≤ 1.0001 := by
  rw [abs_le] at G
  exact abs_le_one_of_sq (s := 1 + 8e-8) (by linarith) (by norm_num)

theorem offdiag_small {a y p q m1 m2 : ℝ} (ha : 1 - 1e-6 ≤ a) (G : |a * y + p + q| ≤ 8e-8)
    (hp : |p| ≤ m1) (hq : |q| ≤ m2) : |y| ≤ 1.0002 * (8e-8 + m1 + m2) := by
  have hm1 : 0 ≤ m1 := le_trans (abs_nonneg p) hp
  have hm2 : 0 ≤ m2 := le_trans (abs_nonneg q) hq
  have hpq : |a * y + p + q - p - q| ≤ 8e-8 + m1 + m2 := by
    rw [abs_le] at G hp hq ⊢
    constructor <;> linarith
  exact abs_le_of_mul_eq (x := a) (y := y) (by linarith) (by linarith) hpq (by ring)

/-- An almost upper-triangular matrix with non-negative leading diagonal entries whose Gram
matrix is within 8e-8 of the identity is within 5e-6 of diag(1, 1, ±1). The letters are
the rows (a b c), (d e f), (g h i). -/
theorem near_id_core (a b c d e f g h i : ℝ) (pa : 0 ≤ a) (pe : 0 ≤ e)
    (ld : |d| ≤ 2e-6) (lg : |g| ≤ 2e-6) (lh : |h| ≤ 1e-6)
    (G00 : |a * a + d * d + g * g - 1| ≤ 8e-8)
    (G01 : |a * b + d * e + g * h| ≤ 8e-8)
    (G02 : |a * c + d * f + g * i| ≤ 8e-8)
    (G11 : |b * b + e * e + h * h - 1| ≤ 8e-8)
    (G12 : |b * c + e * f + h * i| ≤ 8e-8)
    (G22 : |c * c + f * f + i * i - 1| ≤ 8e-8) :
    (1 - 1e-6 ≤ a ∧ a ≤ 1 + 1e-6) ∧ |b| ≤ 3e-6 ∧ |c| ≤ 5e-6 ∧
    (1 - 1e-6 ≤ e ∧ e ≤ 1 + 1e-6) ∧ |f| ≤ 2e-6 ∧
    (1 - 1e-6 ≤ i * i ∧ i * i ≤ 1 + 1e-6) := by
  have dd := mul_self_le_of_abs_le ld
  have gg := mul_self_le_of_abs_le lg
  have hh := mul_self_le_of_abs_le lh
  have ha : 1 - 1e-6 ≤ a ∧ a ≤ 1 + 1e-6 :=
    pivot_near_one (u := d * d + g * g) pa
      (add_nonneg (mul_self_nonneg d) (mul_self_nonneg g))
      (by linarith) (by rw [← add_assoc]; exact G00)
  have be : |e| ≤ 1.0001 :=
    crude_entry (u := b * b) (v := h * h) (mul_self_nonneg b) (mul_self_nonneg h)
      (by rw [show e * e + b * b + h * h - 1 = b * b + e * e + h * h - 1 by ring]; exact G11)
  have bf : |f| ≤ 1.0001 :=
    crude_entry (u := c * c) (v := i * i) (mul_self_nonneg c) (mul_self_nonneg i)
      (by rw [show f * f + c * c + i * i - 1 = c * c + f * f + i * i - 1 by ring]; exact G22)
  have bi : |i| ≤ 1.0001 :=
    crude_entry (u := c * c) (v := f * f) (mul_self_nonneg c) (mul_self_nonneg f)
      (by rw [show i * i + c * c + f * f - 1 = c * c + f * f + i * i - 1 by ring]; exact G22)
  have hb : |b| ≤ 3e-6 :=
    (offdiag_small ha.1 G01 (abs_mul_le_mul ld be) (abs_mul_le_mul lg lh)).trans
      (by norm_num)
  have bb := mul_self_le_of_abs_le hb
  have he : 1 - 1e-6 ≤ e ∧ e ≤ 1 + 1e-6 :=
    pivot_near_one (u := b * b + h * h) pe
      (add_nonneg (mul_self_nonneg b) (mul_self_nonneg h))
      (by linarith)
      (by rw [show e * e + (b * b + h * h) - 1 = b * b + e * e + h * h - 1 by ring]; exact G11)
  have hc : |c| ≤ 5e-6 :=
    (offdiag_small ha.1 G02 (abs_mul_le_mul ld bf) (abs_mul_le_mul lg bi)).trans
      (by norm_num)
  have cc := mul_self_le_of_abs_le hc
  have hf : |f| ≤ 2e-6 := by
    have G12' : |e * f + b * c + h * i| ≤ 8e-8 := by
      rw [show e * f + b * c + h * i = b * c + e * f + h * i by ring]; exact G12
    exact (offdiag_small he.1 G12' (abs_mul_le_mul hb hc) (abs_mul_le_mul lh bi)).trans
      (by norm_num)
  have ff := mul_self_le_of_abs_le hf
  rw [abs_le] at G22
  have c0 := mul_self_nonneg c
  have f0 := mul_self_nonneg f
  exact ⟨ha, hb, hc, he, hf, by linarith, by linarith⟩


theorem abs_le_of_le_of_le {x t s : ℝ} (h : |x| ≤ t) (hts : t ≤ s) : |x| ≤ s := h.trans hts

theorem neg_far_of_sq {i : ℝ} (hi : 9 / 10 ≤ i * i) (lo : -(11 / 10) ≤ i) (hneg : i < 0) :
    i ≤ -(8 / 10) := by
  have := mul_nonneg (by linarith : (0 : ℝ) ≤ i + 11 / 10) (by linarith : (0 : ℝ) ≤ -i)
  linarith

theorem prod_neg_far {p i : ℝ} (hp : 81 / 100 ≤ p) (hi : i ≤ -(8 / 10)) :
    p * i ≤ -(648 / 1000) := by
  have := mul_le_mul_of_nonpos_right hp (by linarith : i ≤ 0)
  linarith

/-- Sign of the last diagonal entry of an almost diagonal matrix, read off the determinant. -/
theorem sign_core (a b c d e f g h i D : ℝ)
    (ha : 9 / 10 ≤ a ∧ a ≤ 11 / 10) (he : 9 / 10 ≤ e ∧ e ≤ 11 / 10)
    (hb : |b| ≤ 1 / 100) (hc : |c| ≤ 1 / 100) (hd : |d| ≤ 1 / 100) (hf : |f| ≤ 1 / 100)
    (hg : |g| ≤ 1 / 100) (hh : |h| ≤ 1 / 100) (hi : 9 / 10 ≤ i * i) (bi : |i| ≤ 11 / 10)
    (hD : a * (e * i - f * h) - b * (d * i - f * g) + c * (d * h - e * g) = D) :
    (0 < D → 0 ≤ i) ∧ (D < 0 → i ≤ 0) := by
  have ba : |a| ≤ 11 / 10 := abs_le.mpr ⟨by linarith only [ha.1], ha.2⟩
  have be : |e| ≤ 11 / 10 := abs_le.mpr ⟨by linarith only [he.1], he.2⟩
  have t1 := abs_le.mp (abs_mul_le_mul (abs_mul_le_mul ba hf) hh)
  have t2 := abs_le.mp (abs_mul_le_mul (abs_mul_le_mul hb hd) bi)
  have t3 := abs_le.mp (abs_mul_le_mul (abs_mul_le_mul hb hf) hg)
  have t4 := abs_le.mp (abs_mul_le_mul (abs_mul_le_mul hc hd) hh)
  have t5 := abs_le.mp (abs_mul_le_mul (abs_mul_le_mul hc be) hg)
  have hsplit : D = a * e * i - a * f * h - b * d * i + b * f * g + c * d * h - c * e * g := by
    rw [← hD]; ring
  have hae1 : 81 / 100 ≤ a * e := by
    have := mul_le_mul ha.1 he.1 (by norm_num) (by linarith only [ha.1])
    linarith only [this]
  have bi' := abs_le.mp bi
  generalize a * f * h = u1 at t1 hsplit
  generalize b * d * i = u2 at t2 hsplit
  generalize b * f * g = u3 at t3 hsplit
  generalize c * d * h = u4 at t4 hsplit
  generalize c * e * g = u5 at t5 hsplit
  constructor
  · intro hpos
    by_contra hneg
    push_neg at hneg
    have := prod_neg_far hae1 (neg_far_of_sq hi bi'.1 hneg)
    linarith only [this, hpos, hsplit, t1.1, t1.2, t2.1, t2.2, t3.1, t3.2, t4.1, t4.2, t5.1, t5.2]
  · intro hneg
    by_contra hpos
    push_neg at hpos
    have hi' : 9 / 10 ≤ (-i) * (-i) := by linarith only [hi]
    have := prod_neg_far hae1 (neg_far_of_sq hi' (by linarith only [bi'.2]) (by linarith only [hpos]))
    linarith only [this, hneg, hsplit, t1.1, t1.2, t2.1, t2.2, t3.1, t3.2, t4.1, t4.2, t5.1, t5.2]

theorem two_eps : (2 : ℝ) * epsilon = 2e-6 := by norm_num [epsilon]

theorem eps_val : (epsilon : ℝ) = 1e-6 := by norm_num [epsilon]

/-- QRDecomposition of a matrix whose Gram matrix is within 8e-8 of the identity: the
factor `r` is within 5e-6 of diag(1, 1, ±1), the sign being that of the determinant. -/
theorem QR_near_orthonormal (b : Mat3 ℝ)
    (hg : entriesLe (subMat3 (MulMat3 b.Transpose b) ident) 8e-8) :
    (1 - 1e-6 ≤ (b.QRDecomposition Real.sqrt).2.x00 ∧
      (b.QRDecomposition Real.sqrt).2.x00 ≤ 1 + 1e-6) ∧
    |(b.QRDecomposition Real.sqrt).2.x01| ≤ 3e-6 ∧
    |(b.QRDecomposition Real.sqrt).2.x02| ≤ 5e-6 ∧
    |(b.QRDecomposition Real.sqrt).2.x10| ≤ 2e-6 ∧
    (1 - 1e-6 ≤ (b.QRDecomposition Real.sqrt).2.x11 ∧
      (b.QRDecomposition Real.sqrt).2.x11 ≤ 1 + 1e-6) ∧
    |(b.QRDecomposition Real.sqrt).2.x12| ≤ 2e-6 ∧
    |(b.QRDecomposition Real.sqrt).2.x20| ≤ 2e-6 ∧
    |(b.QRDecomposition Real.sqrt).2.x21| ≤ 1e-6 ∧
    (0 < det3 b → 1 - 1e-6 ≤ (b.QRDecomposition Real.sqrt).2.x22 ∧
      (b.QRDecomposition Real.sqrt).2.x22 ≤ 1 + 1e-6) ∧
    (det3 b < 0 → -1 - 1e-6 ≤ (b.QRDecomposition Real.sqrt).2.x22 ∧
      (b.QRDecomposition Real.sqrt).2.x22 ≤ -1 + 1e-6) := by
  rw [← QR_gram b] at hg
  have l10 := QR_x10_small b
  have l20 := QR_x20_small b
  have l21 := QR_x21_small b
  rw [two_eps] at l10 l20
  rw [eps_val] at l21
  have p0 := QR_x00_nonneg b
  have p1 := QR_x11_nonneg b
  have hdet := QR_det_r b
  generalize (b.QRDecomposition Real.sqrt).2 = r at *
  simp only [entriesLe, subMat3, MulMat3, Mat3.Transpose, ident, mat3, sub_zero] at hg
  obtain ⟨G00, G01, G02, -, G11, G12, -, -, G22⟩ := hg
  obtain ⟨ha, hb, hc, he, hf, hi⟩ := near_id_core r.x00 r.x01 r.x02 r.x10 r.x11 r.x12
    r.x20 r.x21 r.x22 p0 p1 l10 l20 l21 G00 G01 G02 G11 G12 G22
  have hsign := sign_core r.x00 r.x01 r.x02 r.x10 r.x11 r.x12 r.x20 r.x21 r.x22 (det3 b)
    ⟨by linarith [ha.1], by linarith [ha.2]⟩ ⟨by linarith [he.1], by linarith [he.2]⟩
    (hb.trans (by norm_num)) (hc.trans (by norm_num)) (l10.trans (by norm_num))
    (hf.trans (by norm_num)) (l20.trans (by norm_num)) (l21.trans (by norm_num))
    (by linarith [hi.1])
    (abs_le_one_of_sq (s := 1 + 1e-6) hi.2 (by norm_num) |>.trans (by norm_num))
    (by rw [← hdet]; rfl)
  refine ⟨ha, hb, hc, l10, he, hf, l20, l21, ?_, ?_⟩
  · intro hpos
    exact near_one_of_sq (hsign.1 hpos) (by norm_num) hi.1 hi.2
  · intro hneg
    have hn := hsign.2 hneg
    have hsq : -r.x22 * -r.x22 = r.x22 * r.x22 := by ring
    have := near_one_of_sq (x := -r.x22) (a := 1e-6) (by linarith) (by norm_num)
      (by rw [hsq]; exact hi.1) (by rw [hsq]; exact hi.2)
    exact ⟨by linarith [this.2], by linarith [this.1]⟩

theorem reflectZ_gram (v : Mat3 ℝ) :
    MulMat3 (MulMat3 reflectZ v).Transpose (MulMat3 reflectZ v) = MulMat3 v.Transpose v := by
  ext <;> simp only [MulMat3, Mat3.Transpose, reflectZ, diag3, mat3] <;> ring

theorem ident_gram (v : Mat3 ℝ) :
    MulMat3 (MulMat3 ident v).Transpose (MulMat3 ident v) = MulMat3 v.Transpose v := by
  rw [MulMat3_ident_left]

/-- C3, as stated, fails at diag(1, 1, -1): the last diagonal entry of S is within 1e-6 of
-1, far below -1e-5. -/
theorem C3_counterexample :
    ((reflectZ : Mat3 ℝ).SVD Real.sqrt).2.1.x22 ≤ -1 + 1e-6 ∧
    ¬ (-1e-5 ≤ ((reflectZ : Mat3 ℝ).SVD Real.sqrt).2.1.x22) := by
  have hg : entriesLe (subMat3 (MulMat3 (svdB Real.sqrt (reflectZ : Mat3 ℝ)).Transpose
      (svdB Real.sqrt reflectZ)) ident) 8e-8 := by
    rw [svdB_eq_mul, reflectZ_gram]
    exact svdV_gram _
  have hd : det3 (svdB Real.sqrt (reflectZ : Mat3 ℝ)) < 0 := by
    rw [svdB_eq_mul, det3_mul, svdV_det]
    have h1 := svdV0_det (reflectZ : Mat3 ℝ)
    have h2 : det3 (reflectZ : Mat3 ℝ) = -1 := by
      simp [det3, reflectZ, diag3, mat3]
    rw [h2]
    linarith
  have h := (QR_near_orthonormal _ hg).2.2.2.2.2.2.2.2.2 hd
  rw [SVD_snd]
  refine ⟨h.2, ?_⟩
  intro hc
  have := h.2
  norm_num at this hc
  linarith

theorem approximateGivens_diag_ne (p q : ℝ) (h : p ≠ q) :
    approximateGivensQuaternion Real.sqrt p 0 q = (if q < p then 1 else -1, 0) := by
  have hne : p - q ≠ 0 := sub_ne_zero.mpr h
  have hpos : 0 < 2 * (p - q) * (2 * (p - q)) := by
    have := mul_self_pos.mpr hne
    nlinarith
  have hs : Real.sqrt (2 * (p - q) * (2 * (p - q)) + 0 * 0) = |2 * (p - q)| := by
    rw [mul_zero, add_zero, Real.sqrt_mul_self_eq_abs]
  unfold approximateGivensQuaternion
  simp only [hs]
  rw [if_pos (by simpa using hpos)]
  by_cases hlt : q < p
  · have h2 : 0 < 2 * (p - q) := by linarith
    rw [abs_of_pos h2, if_pos hlt]
    ext
    · simp; field_simp; ring
    · simp
  · have h2 : 2 * (p - q) < 0 := by
      rcases lt_or_gt_of_ne h with h' | h'
      · linarith
      · exact absurd h' hlt
    rw [abs_of_neg h2, if_neg hlt]
    ext
    · simp; field_simp
    · simp

theorem approximateGivens_diag_eq (p : ℝ) :
    approximateGivensQuaternion Real.sqrt p 0 p = (cstar, sstar) := by
  unfold approximateGivensQuaternion
  simp

theorem fallback_ab :
    ((cstar * cstar - sstar * sstar) / (cstar * cstar + sstar * sstar) : ℝ) ^ 2
      + ((2 * sstar * cstar) / (cstar * cstar + sstar * sstar)) ^ 2 = 1 := by
  norm_num [cstar, sstar]

/-- An elimination step on a diagonal matrix with distinct leading entries only relabels
the diagonal and multiplies the accumulator by 1 or -1. -/
theorem jacobiConj_diag_ne (p q r : ℝ) (h : p ≠ q) (x y z : Fin 3) (Q : Quat ℝ) :
    jacobiConj Real.sqrt (diag3 p q r) x y z Q
      = (diag3 q r p, quatUpdate (if q < p then 1 else -1) 0 x y z Q) := by
  have hg : approximateGivensQuaternion Real.sqrt (diag3 p q r).x00 (diag3 p q r).x10
      (diag3 p q r).x11 = (if q < p then 1 else -1, 0) := approximateGivens_diag_ne p q h
  refine Prod.ext ?_ ?_
  · simp only [jacobiConj, hg]
    by_cases hlt : q < p <;> simp [hlt, diag3, mat3]
  · rw [jacobiConj_snd, hg]

/-- An elimination step on a diagonal matrix with equal leading entries takes the fallback
pair and only relabels the diagonal. -/
theorem jacobiConj_diag_eq (p r : ℝ) (x y z : Fin 3) (Q : Quat ℝ) :
    jacobiConj Real.sqrt (diag3 p p r) x y z Q
      = (diag3 p r p, quatUpdate cstar sstar x y z Q) := by
  have hg : approximateGivensQuaternion Real.sqrt (diag3 p p r).x00 (diag3 p p r).x10
      (diag3 p p r).x11 = (cstar, sstar) := approximateGivens_diag_eq p
  have hab := fallback_ab
  refine Prod.ext ?_ ?_
  · simp only [jacobiConj, hg]
    generalize ((cstar * cstar - sstar * sstar) / (cstar * cstar + sstar * sstar) : ℝ) = a
      at hab
    generalize ((2 * sstar * cstar) / (cstar * cstar + sstar * sstar) : ℝ) = b at hab
    ext <;> simp only [diag3, mat3] <;> first | ring1 | linear_combination p * hab
  · rw [jacobiConj_snd, hg]



theorem jacobiSweep_eq (sqrt : ℝ → ℝ) (s : Mat3 ℝ × Quat ℝ) :
    jacobiSweep sqrt s
      = jacobiConj sqrt (jacobiConj sqrt (jacobiConj sqrt s.1 0 1 2 s.2).1 1 2 0
            (jacobiConj sqrt s.1 0 1 2 s.2).2).1 2 0 1
          (jacobiConj sqrt (jacobiConj sqrt s.1 0 1 2 s.2).1 1 2 0
            (jacobiConj sqrt s.1 0 1 2 s.2).2).2 := rfl

/-- One sweep on diag(9, 1, 4) returns the same matrix and the same accumulator. -/
theorem jacobiSweep_diag914 (Q : Quat ℝ) :
    jacobiSweep Real.sqrt (diag3 9 1 4, Q) = (diag3 9 1 4, Q) := by
  rw [jacobiSweep_eq]
  simp only []
  rw [jacobiConj_diag_ne 9 1 4 (by norm_num)]
  simp only []
  rw [jacobiConj_diag_ne 1 4 9 (by norm_num)]
  simp only []
  rw [jacobiConj_diag_ne 4 9 1 (by norm_num)]
  refine Prod.ext rfl ?_
  simp only [quatUpdate_012, quatUpdate_120, quatUpdate_201]
  ext <;> norm_num

theorem jacobi_diag914 :
    jacobiEigenanalysis Real.sqrt (diag3 9 1 4)
      = (diag3 9 1 4, { I := 0, J := 0, K := 0, W := 1 }) := by
  rw [jacobiEigenanalysis_unfold]
  simp only [jacobiSweep_diag914]

theorem svdV0_diag312 : svdV0 Real.sqrt (diag3 3 1 2 : Mat3 ℝ) = ident := by
  have h : MulMat3 (diag3 3 1 2 : Mat3 ℝ).Transpose (diag3 3 1 2) = diag3 9 1 4 := by
    ext <;> simp [MulMat3, Mat3.Transpose, diag3, mat3] <;> norm_num
  unfold svdV0
  rw [h, jacobi_diag914]
  ext <;> simp [Quat.RotationMat3, mat3, ident]

theorem sort_diag312 :
    sortSingularValues (diag3 3 1 2 : Mat3 ℝ) ident = (mat3 3 0 0 0 0 (-1) 0 2 0, quarterX) := by
  simp only [sortSingularValues, Norm2, Mat3.VecCol, diag3, ident, mat3]
  norm_num [swapCols12, quarterX, mat3]

theorem QR_sorted312 :
    (mat3 3 0 0 0 0 (-1) 0 2 0 : Mat3 ℝ).QRDecomposition Real.sqrt
      = (quarterX, diag3 3 2 1) := by
  obtain ⟨c1, s1⟩ := qrGivens_axis 3 (by norm_num [epsilon])
  have hr1 : qrR1 Real.sqrt (mat3 3 0 0 0 0 (-1) 0 2 0 : Mat3 ℝ)
      = mat3 3 0 0 0 0 (-1) 0 2 0 := by
    ext <;> simp [qrR1, qrPair1, mat3, c1, s1]
  have hr2 : qrR2 Real.sqrt (mat3 3 0 0 0 0 (-1) 0 2 0 : Mat3 ℝ)
      = mat3 3 0 0 0 0 (-1) 0 2 0 := by
    ext <;> simp only [qrR2, qrPair2, hr1] <;> simp [mat3, c1, s1]
  obtain ⟨c3, s3⟩ := qrGivens_at 0 2 2 (by norm_num) (by norm_num [epsilon])
  have h1 : givensCos (qrPair1 Real.sqrt (mat3 3 0 0 0 0 (-1) 0 2 0 : Mat3 ℝ)) = 1 := by
    simp [qrPair1, mat3, c1]
  have h1s : givensSin (qrPair1 Real.sqrt (mat3 3 0 0 0 0 (-1) 0 2 0 : Mat3 ℝ)) = 0 := by
    simp [qrPair1, mat3, s1]
  have h2 : givensCos (qrPair2 Real.sqrt (mat3 3 0 0 0 0 (-1) 0 2 0 : Mat3 ℝ)) = 1 := by
    simp only [qrPair2, hr1]; simp [mat3, c1]
  have h2s : givensSin (qrPair2 Real.sqrt (mat3 3 0 0 0 0 (-1) 0 2 0 : Mat3 ℝ)) = 0 := by
    simp only [qrPair2, hr1]; simp [mat3, s1]
  have h3 : givensCos (qrPair3 Real.sqrt (mat3 3 0 0 0 0 (-1) 0 2 0 : Mat3 ℝ)) = 0 := by
    simp only [qrPair3, hr2]; simp [mat3, c3]
  have h3s : givensSin (qrPair3 Real.sqrt (mat3 3 0 0 0 0 (-1) 0 2 0 : Mat3 ℝ)) = 1 := by
    simp only [qrPair3, hr2]; simp [mat3, s3]
  refine Prod.ext ?_ ?_
  · rw [QRDecomposition_fst_eq_mul, h1, h1s, h2, h2s, h3, h3s]
    ext <;> simp [MulMat3, planar01, planar02, planar12, mat3, Mat3.Transpose, quarterX]
  · rw [QRDecomposition_snd_eq_mul, h3, h3s, hr2]
    ext <;> simp [MulMat3, planar12, mat3, diag3]

theorem SVD_diag312 :
    (diag3 3 1 2 : Mat3 ℝ).SVD Real.sqrt = (quarterX, diag3 3 2 1, quarterX) := by
  have hb : svdB Real.sqrt (diag3 3 1 2 : Mat3 ℝ) = mat3 3 0 0 0 0 (-1) 0 2 0 := by
    unfold svdB
    rw [svdV0_diag312, MulMat3_ident_right, sort_diag312]
  refine Prod.ext ?_ (Prod.ext ?_ ?_)
  · rw [SVD_fst, hb, QR_sorted312]
  · rw [SVD_snd, hb, QR_sorted312]
  · rw [SVD_trd, svdV0_diag312, MulMat3_ident_right, sort_diag312]

theorem quarterX_signedPerm : isSignedPerm (quarterX : Mat3 ℝ) := by
  refine ⟨?_, ?_⟩
  · ext <;> simp [MulMat3, Mat3.Transpose, quarterX, mat3, ident]
  · simp [quarterX, mat3]

/-- C8: diagonal input. For A = diag(3,1,2), A.SVD() returns S = diag(3,2,1), and U and V
are signed permutation matrices (both the quarter turn about the first axis, with rows
(1,0,0), (0,0,-1), (0,1,0)) with U·S·Vᵀ = A. -/
theorem C8_svd_diag312 :
    ((diag3 3 1 2 : Mat3 ℝ).SVD Real.sqrt).2.1 = diag3 3 2 1 ∧
    isSignedPerm ((diag3 3 1 2 : Mat3 ℝ).SVD Real.sqrt).1 ∧
    isSignedPerm ((diag3 3 1 2 : Mat3 ℝ).SVD Real.sqrt).2.2 ∧
    MulMat3 (MulMat3 ((diag3 3 1 2 : Mat3 ℝ).SVD Real.sqrt).1
        ((diag3 3 1 2 : Mat3 ℝ).SVD Real.sqrt).2.1)
      ((diag3 3 1 2 : Mat3 ℝ).SVD Real.sqrt).2.2.Transpose = diag3 3 1 2 := by
  rw [SVD_diag312]
  refine ⟨rfl, quarterX_signedPerm, quarterX_signedPerm, ?_⟩
  ext <;> simp [MulMat3, Mat3.Transpose, quarterX, diag3, mat3]

theorem fallbackSweep_eq (q : Quat ℝ) :
    fallbackSweep q =
      { I := ((q.I * cstar + q.J * sstar) * cstar + sstar * (q.W * cstar - q.K * sstar)) * cstar
              - ((q.K * cstar + sstar * q.W) * cstar - (q.J * cstar - q.I * sstar) * sstar)
                * sstar
        J := ((q.J * cstar - q.I * sstar) * cstar + (q.K * cstar + sstar * q.W) * sstar) * cstar
              + sstar * ((q.W * cstar - q.K * sstar) * cstar
                - (q.I * cstar + q.J * sstar) * sstar)
        K := ((q.K * cstar + sstar * q.W) * cstar - (q.J * cstar - q.I * sstar) * sstar) * cstar
              + ((q.I * cstar + q.J * sstar) * cstar + sstar * (q.W * cstar - q.K * sstar))
                * sstar
        W := ((q.W * cstar - q.K * sstar) * cstar - (q.I * cstar + q.J * sstar) * sstar) * cstar
              - ((q.J * cstar - q.I * sstar) * cstar + (q.K * cstar + sstar * q.W) * sstar)
                * sstar } := rfl

theorem fallbackSweep_1 : fallbackSweep ({ I := 0, J := 0, K := 0, W := 1 } : Quat ℝ) = qSweep1 := by
  rw [fallbackSweep_eq]
  ext <;> norm_num [qSweep1, cstar, sstar]

theorem fallbackSweep_2 : fallbackSweep (qSweep1 : Quat ℝ) = qSweep2 := by
  rw [fallbackSweep_eq]
  ext <;> norm_num [qSweep2, qSweep1, cstar, sstar]

theorem fallbackSweep_3 : fallbackSweep (qSweep2 : Quat ℝ) = qSweep3 := by
  rw [fallbackSweep_eq]
  ext <;> norm_num [qSweep3, qSweep2, cstar, sstar]

theorem fallbackSweep_4 : fallbackSweep (qSweep3 : Quat ℝ) = qSweep4 := by
  rw [fallbackSweep_eq]
  ext <;> norm_num [qSweep4, qSweep3, cstar, sstar]

theorem qFallback_eq : (qFallback : Quat ℝ) = qSweep4 := by
  unfold qFallback
  rw [fallbackSweep_1, fallbackSweep_2, fallbackSweep_3, fallbackSweep_4]

/-- Every entry of the rotation matrix of the all-fallback accumulator exceeds 0.06 in
absolute value. -/
theorem rot_qFallback_entries : entriesGt (qFallback : Quat ℝ).RotationMat3 0.06 := by
  rw [qFallback_eq]
  simp only [entriesGt, Quat.RotationMat3, mat3, qSweep4]
  refine ⟨?_, ?_, ?_, ?_, ?_, ?_, ?_, ?_, ?_⟩ <;> norm_num [abs_of_pos, abs_of_neg]

theorem jacobiSweep_scalar (t : ℝ) (Q : Quat ℝ) :
    jacobiSweep Real.sqrt (diag3 t t t, Q) = (diag3 t t t, fallbackSweep Q) := by
  rw [jacobiSweep_eq]
  simp only []
  rw [jacobiConj_diag_eq t t]
  simp only []
  rw [jacobiConj_diag_eq t t]
  simp only []
  rw [jacobiConj_diag_eq t t]
  rfl

/-- On a multiple of the identity every elimination step takes the fixed pair. -/
theorem jacobi_scalar (t : ℝ) :
    jacobiEigenanalysis Real.sqrt (diag3 t t t) = (diag3 t t t, qFallback) := by
  rw [jacobiEigenanalysis_unfold]
  simp only [jacobiSweep_scalar]
  rfl

theorem svdV0_ident : svdV0 Real.sqrt (ident : Mat3 ℝ) = (qFallback : Quat ℝ).RotationMat3 := by
  have h : MulMat3 (ident : Mat3 ℝ).Transpose ident = diag3 1 1 1 := by
    rw [MulMat3_ident_right]; rfl
  unfold svdV0
  rw [h, jacobi_scalar]

theorem entriesGt_swap01 (v : Mat3 ℝ) (t : ℝ) (h : entriesGt v t) :
    entriesGt (swapCols01 v) t := by
  simp only [entriesGt, swapCols01, abs_neg] at h ⊢
  tauto

theorem entriesGt_swap02 (v : Mat3 ℝ) (t : ℝ) (h : entriesGt v t) :
    entriesGt (swapCols02 v) t := by
  simp only [entriesGt, swapCols02, abs_neg] at h ⊢
  tauto

theorem entriesGt_swap12 (v : Mat3 ℝ) (t : ℝ) (h : entriesGt v t) :
    entriesGt (swapCols12 v) t := by
  simp only [entriesGt, swapCols12, abs_neg] at h ⊢
  tauto

theorem svdV_ident_entries : entriesGt ((ident : Mat3 ℝ).SVD Real.sqrt).2.2 0.06 := by
  rw [SVD_trd]
  refine sort_ind (fun _ v => entriesGt v 0.06) ?_ ?_ ?_ _ _ ?_
  · intro b v h; exact entriesGt_swap01 v _ h
  · intro b v h; exact entriesGt_swap02 v _ h
  · intro b v h; exact entriesGt_swap12 v _ h
  · rw [svdV0_ident]; exact rot_qFallback_entries

/-- C9, as stated, fails: for A = I the returned V is not diagonal, its entry at row 0,
column 1 exceeds 0.06 in absolute value, far from the 0 a diagonal matrix has there. -/
theorem C9_counterexample :
    0.06 < |((ident : Mat3 ℝ).SVD Real.sqrt).2.2.x01| ∧
    ¬ (|((ident : Mat3 ℝ).SVD Real.sqrt).2.2.x01| ≤ 1e-5) := by
  have h := svdV_ident_entries.2.1
  refine ⟨h, ?_⟩
  intro hc
  have : (1e-5 : ℝ) < 0.06 := by norm_num
  linarith

theorem entriesLe_near_diag (r : Mat3 ℝ)
    (h00 : 1 - 1e-6 ≤ r.x00 ∧ r.x00 ≤ 1 + 1e-6) (h01 : |r.x01| ≤ 3e-6) (h02 : |r.x02| ≤ 5e-6)
    (h10 : |r.x10| ≤ 2e-6) (h11 : 1 - 1e-6 ≤ r.x11 ∧ r.x11 ≤ 1 + 1e-6) (h12 : |r.x12| ≤ 2e-6)
    (h20 : |r.x20| ≤ 2e-6) (h21 : |r.x21| ≤ 1e-6)
    (h22 : 1 - 1e-6 ≤ r.x22 ∧ r.x22 ≤ 1 + 1e-6) :
    entriesLe (subMat3 r ident) 1e-5 := by
  have k1 : (1e-6 : ℝ) ≤ 1e-5 := by norm_num
  have k2 : (2e-6 : ℝ) ≤ 1e-5 := by norm_num
  have k3 : (3e-6 : ℝ) ≤ 1e-5 := by norm_num
  have k5 : (5e-6 : ℝ) ≤ 1e-5 := by norm_num
  have d (x : ℝ) (h : 1 - 1e-6 ≤ x ∧ x ≤ 1 + 1e-6) : |x - 1| ≤ 1e-5 :=
    abs_le.mpr ⟨by linarith only [h.1, k1], by linarith only [h.2, k1]⟩
  have o (x t : ℝ) (h : |x| ≤ t) (k : t ≤ 1e-5) : |x - 0| ≤ 1e-5 := by
    rw [sub_zero]; exact h.trans k
  exact ⟨d _ h00, o _ _ h01 k3, o _ _ h02 k5, o _ _ h10 k2, d _ h11, o _ _ h12 k2,
    o _ _ h20 k2, o _ _ h21 k1, d _ h22⟩

/-- C9, amended: for A = I the returned S equals I within 1e-5 per entry, U is orthonormal
(Uᵀ·U = I), V is orthonormal within 1e-5 per entry and U·S = V; U and V are rotations and
not diagonal matrices: every entry of V exceeds 0.06 in absolute value. -/
theorem C9_svd_identity :
    entriesLe (subMat3 ((ident : Mat3 ℝ).SVD Real.sqrt).2.1 ident) 1e-5 ∧
    MulMat3 ((ident : Mat3 ℝ).SVD Real.sqrt).1.Transpose ((ident : Mat3 ℝ).SVD Real.sqrt).1
      = ident ∧
    entriesLe (subMat3 (MulMat3 ((ident : Mat3 ℝ).SVD Real.sqrt).2.2.Transpose
      ((ident : Mat3 ℝ).SVD Real.sqrt).2.2) ident) 1e-5 ∧
    MulMat3 ((ident : Mat3 ℝ).SVD Real.sqrt).1 ((ident : Mat3 ℝ).SVD Real.sqrt).2.1
      = ((ident : Mat3 ℝ).SVD Real.sqrt).2.2 ∧
    entriesGt ((ident : Mat3 ℝ).SVD Real.sqrt).2.2 0.06 := by
  have hg : entriesLe (subMat3 (MulMat3 (svdB Real.sqrt (ident : Mat3 ℝ)).Transpose
      (svdB Real.sqrt ident)) ident) 8e-8 := by
    rw [svdB_eq_mul, ident_gram]
    exact svdV_gram _
  have hd : 0 < det3 (svdB Real.sqrt (ident : Mat3 ℝ)) := by
    rw [svdB_eq_mul, MulMat3_ident_left, svdV_det]
    have h1 := svdV0_det (ident : Mat3 ℝ)
    linarith
  obtain ⟨h00, h01, h02, h10, h11, h12, h20, h21, hpos, -⟩ := QR_near_orthonormal _ hg
  refine ⟨?_, ?_, entriesLe_mono (svdV_gram _) (by norm_num), ?_, svdV_ident_entries⟩
  · rw [SVD_snd]
    exact entriesLe_near_diag _ h00 h01 h02 h10 h11 h12 h20 h21 (hpos hd)
  · rw [SVD_fst]; exact QR_orth _
  · rw [SVD_US, MulMat3_ident_left]

/-- One sweep on diag(p, 0, 0) with p > 0 returns the same matrix and keeps the accumulator
in the plane of the components I and W. -/
theorem jacobiSweep_diag_p00 (p : ℝ) (hp : 0 < p) (Q : Quat ℝ) (hJ : Q.J = 0) (hK : Q.K = 0) :
    ∃ Q' : Quat ℝ, jacobiSweep Real.sqrt (diag3 p 0 0, Q) = (diag3 p 0 0, Q') ∧
      Q'.J = 0 ∧ Q'.K = 0 := by
  rw [jacobiSweep_eq]
  simp only []
  rw [jacobiConj_diag_ne p 0 0 (ne_of_gt hp)]
  simp only []
  rw [jacobiConj_diag_eq 0 p]
  simp only []
  rw [jacobiConj_diag_ne 0 p 0 (ne_of_lt hp)]
  refine ⟨_, rfl, ?_, ?_⟩
  · simp [quatUpdate_012, quatUpdate_120, quatUpdate_201, hJ, hK]
  · simp [quatUpdate_012, quatUpdate_120, quatUpdate_201, hJ, hK]

theorem jacobi_diag_p00 (p : ℝ) (hp : 0 < p) :
    ∃ Q : Quat ℝ, jacobiEigenanalysis Real.sqrt (diag3 p 0 0) = (diag3 p 0 0, Q) ∧
      Q.J = 0 ∧ Q.K = 0 := by
  rw [jacobiEigenanalysis_unfold]
  obtain ⟨Q1, e1, j1, k1⟩ := jacobiSweep_diag_p00 p hp { I := 0, J := 0, K := 0, W := 1 } rfl rfl
  obtain ⟨Q2, e2, j2, k2⟩ := jacobiSweep_diag_p00 p hp Q1 j1 k1
  obtain ⟨Q3, e3, j3, k3⟩ := jacobiSweep_diag_p00 p hp Q2 j2 k2
  obtain ⟨Q4, e4, j4, k4⟩ := jacobiSweep_diag_p00 p hp Q3 j3 k3
  exact ⟨Q4, by rw [e1, e2, e3, e4], j4, k4⟩

/-- A matrix whose columns are already in descending order of norm is left in place. -/
theorem sort_sorted (b v : Mat3 ℝ) (h1 : ¬ Norm2 (b.VecCol 0) < Norm2 (b.VecCol 1))
    (h2 : ¬ Norm2 (b.VecCol 0) < Norm2 (b.VecCol 2))
    (h3 : ¬ Norm2 (b.VecCol 1) < Norm2 (b.VecCol 2)) :
    sortSingularValues b v = (b, v) := by
  unfold sortSingularValues
  simp only [if_neg h1, if_neg h2, if_neg h3]

theorem svdB_tinyLower : svdB Real.sqrt (tinyLower : Mat3 ℝ) = tinyLower := by
  have h : MulMat3 (tinyLower : Mat3 ℝ).Transpose tinyLower = diag3 (1e-7 * 1e-7) 0 0 := by
    ext <;> simp [MulMat3, Mat3.Transpose, tinyLower, diag3, mat3]
  obtain ⟨Q, e, hJ, hK⟩ := jacobi_diag_p00 (1e-7 * 1e-7) (by norm_num)
  have hv : MulMat3 (tinyLower : Mat3 ℝ) (svdV0 Real.sqrt tinyLower) = tinyLower := by
    unfold svdV0
    rw [h, e]
    ext <;> simp [MulMat3, tinyLower, mat3, Quat.RotationMat3, hJ, hK]
  unfold svdB
  rw [hv, sort_sorted] <;> norm_num [Norm2, Mat3.VecCol, tinyLower, mat3]

/-- C4, as stated, fails: for the input whose only non-zero entry is 1e-7 at row 1,
column 0, the returned S is that same matrix, so S[1,0] = 1e-7 is not zero. -/
theorem C4_counterexample :
    ((tinyLower : Mat3 ℝ).SVD Real.sqrt).2.1.x10 = 1e-7 ∧
    ((tinyLower : Mat3 ℝ).SVD Real.sqrt).2.1.x10 ≠ 0 := by
  rw [SVD_snd, svdB_tinyLower, QR_tinyLower]
  norm_num [tinyLower, mat3]

/-- When the pivots are longer than epsilon and the columns of the input are mutually
orthogonal, the factor `r` of QRDecomposition is diagonal. -/
theorem QR_diag_of_orthogonal (b : Mat3 ℝ)
    (h1 : epsilon * epsilon < b.x00 * b.x00 + b.x10 * b.x10)
    (h2 : epsilon < (b.QRDecomposition Real.sqrt).2.x11) (ho : colsOrthogonal b) :
    (b.QRDecomposition Real.sqrt).2.x01 = 0 ∧ (b.QRDecomposition Real.sqrt).2.x02 = 0 ∧
    (b.QRDecomposition Real.sqrt).2.x10 = 0 ∧ (b.QRDecomposition Real.sqrt).2.x12 = 0 ∧
    (b.QRDecomposition Real.sqrt).2.x20 = 0 ∧ (b.QRDecomposition Real.sqrt).2.x21 = 0 := by
  obtain ⟨l10, l20⟩ := QR_col0_zero b h1
  have l21 := QR_x21_zero b h2
  have hg := QR_gram b
  have g00 := congrArg Mat3.x00 hg
  have g01 := congrArg Mat3.x01 hg
  have g02 := congrArg Mat3.x02 hg
  have g12 := congrArg Mat3.x12 hg
  simp only [MulMat3, Mat3.Transpose] at g00 g01 g02 g12
  obtain ⟨o01, o02, o12⟩ := ho
  rw [o01] at g01
  rw [o02] at g02
  rw [o12] at g12
  have he := eps_pos
  generalize (b.QRDecomposition Real.sqrt).2 = r at *
  rw [l10, l20] at g00 g01 g02
  rw [l21] at g01 g12
  have hr00 : r.x00 ≠ 0 := by
    intro h0
    rw [h0] at g00
    nlinarith [mul_self_nonneg b.x20, mul_self_nonneg (epsilon : ℝ)]
  have hr11 : r.x11 ≠ 0 := ne_of_gt (lt_trans he h2)
  have e01 : r.x01 = 0 := by
    have : r.x00 * r.x01 = 0 := by linarith
    rcases mul_eq_zero.mp this with h | h
    · exact absurd h hr00
    · exact h
  have e02 : r.x02 = 0 := by
    have : r.x00 * r.x02 = 0 := by linarith
    rcases mul_eq_zero.mp this with h | h
    · exact absurd h hr00
    · exact h
  have e12 : r.x12 = 0 := by
    rw [e01] at g12
    have : r.x11 * r.x12 = 0 := by linarith
    rcases mul_eq_zero.mp this with h | h
    · exact absurd h hr11
    · exact h
  exact ⟨e01, e02, l10, e12, l20, l21⟩

/-- C4, amended: for every real 3x3 matrix A the below-diagonal entries of the S returned
by A.SVD() are at most 2e-6 in absolute value (|S[1,0]|, |S[2,0]| ≤ 2·epsilon and
|S[2,1]| ≤ epsilon); all six off-diagonal entries are zero when the sorted matrix
b = A·V passed to QRDecomposition has b[0,0]² + b[1,0]² > epsilon², mutually orthogonal
columns, and S[1,1] > epsilon. -/
theorem C4_svd_offdiag (A : Mat3 ℝ) :
    |(A.SVD Real.sqrt).2.1.x10| ≤ 2 * epsilon ∧
    |(A.SVD Real.sqrt).2.1.x20| ≤ 2 * epsilon ∧
    |(A.SVD Real.sqrt).2.1.x21| ≤ epsilon ∧
    (epsilon * epsilon < (svdB Real.sqrt A).x00 * (svdB Real.sqrt A).x00
        + (svdB Real.sqrt A).x10 * (svdB Real.sqrt A).x10 →
      epsilon < (A.SVD Real.sqrt).2.1.x11 → colsOrthogonal (svdB Real.sqrt A) →
      (A.SVD Real.sqrt).2.1.x01 = 0 ∧ (A.SVD Real.sqrt).2.1.x02 = 0 ∧
      (A.SVD Real.sqrt).2.1.x10 = 0 ∧ (A.SVD Real.sqrt).2.1.x12 = 0 ∧
      (A.SVD Real.sqrt).2.1.x20 = 0 ∧ (A.SVD Real.sqrt).2.1.x21 = 0) := by
  rw [SVD_snd]
  exact ⟨QR_x10_small _, QR_x20_small _, QR_x21_small _, QR_diag_of_orthogonal _⟩

theorem svdB_diag312 : svdB Real.sqrt (diag3 3 1 2 : Mat3 ℝ) = mat3 3 0 0 0 0 (-1) 0 2 0 := by
  unfold svdB
  rw [svdV0_diag312, MulMat3_ident_right, sort_diag312]

/-- C4, amended, at A = diag(3, 1, 2): the sorted b has rows (3,0,0), (0,0,-1), (0,2,0), its
pivots are longer than epsilon and its columns are orthogonal, and S is diagonal. -/
theorem C4_svd_offdiag_witness :
    ((diag3 3 1 2 : Mat3 ℝ).SVD Real.sqrt).2.1.x01 = 0 ∧
    ((diag3 3 1 2 : Mat3 ℝ).SVD Real.sqrt).2.1.x02 = 0 ∧
    ((diag3 3 1 2 : Mat3 ℝ).SVD Real.sqrt).2.1.x10 = 0 ∧
    ((diag3 3 1 2 : Mat3 ℝ).SVD Real.sqrt).2.1.x12 = 0 ∧
    ((diag3 3 1 2 : Mat3 ℝ).SVD Real.sqrt).2.1.x20 = 0 ∧
    ((diag3 3 1 2 : Mat3 ℝ).SVD Real.sqrt).2.1.x21 = 0 := by
  refine (C4_svd_offdiag (diag3 3 1 2)).2.2.2 ?_ ?_ ?_
  · rw [svdB_diag312]; norm_num [mat3, epsilon]
  · rw [SVD_diag312]; norm_num [diag3, mat3, epsilon]
  · rw [svdB_diag312]; simp [colsOrthogonal, mat3]

theorem colNorms_swap01 (b : Mat3 ℝ) :
    colNorms (swapCols01 b) = [colNorm2 b 1, colNorm2 b 0, colNorm2 b 2] := by
  simp only [colNorms, colNorm2, Norm2, Mat3.VecCol, swapCols01, neg_mul_neg]

theorem colNorms_swap02 (b : Mat3 ℝ) :
    colNorms (swapCols02 b) = [colNorm2 b 2, colNorm2 b 1, colNorm2 b 0] := by
  simp only [colNorms, colNorm2, Norm2, Mat3.VecCol, swapCols02, neg_mul_neg]

theorem colNorms_swap12 (b : Mat3 ℝ) :
    colNorms (swapCols12 b) = [colNorm2 b 0, colNorm2 b 2, colNorm2 b 1] := by
  simp only [colNorms, colNorm2, Norm2, Mat3.VecCol, swapCols12, neg_mul_neg]

theorem perm3_swap01 (x y z : ℝ) : List.Perm [y, x, z] [x, y, z] := List.Perm.swap x y [z]

theorem perm3_swap12 (x y z : ℝ) : List.Perm [x, z, y] [x, y, z] :=
  List.Perm.cons x (List.Perm.swap y z [])

theorem perm3_swap02 (x y z : ℝ) : List.Perm [z, y, x] [x, y, z] :=
  ((perm3_swap12 z x y).trans (perm3_swap01 x z y)).trans (perm3_swap12 x y z)

/-- C11: singular value sorter ordering. For all real 3x3 matrices B and V, with
(B', V') = sortSingularValues(B, V), the squared column norms of B' are in descending order
and are a permutation of the squared column norms of B. -/
theorem C11_sort_ordering (B V : Mat3 ℝ) :
    colNorm2 (sortSingularValues B V).1 1 ≤ colNorm2 (sortSingularValues B V).1 0 ∧
    colNorm2 (sortSingularValues B V).1 2 ≤ colNorm2 (sortSingularValues B V).1 1 ∧
    List.Perm (colNorms (sortSingularValues B V).1) (colNorms B) := by
  refine ⟨(sort_ordered B V).1, (sort_ordered B V).2, ?_⟩
  refine sort_ind (fun b _ => List.Perm (colNorms b) (colNorms B)) ?_ ?_ ?_ B V
    (List.Perm.refl _)
  · intro b v h
    rw [colNorms_swap01]
    exact (perm3_swap01 _ _ _).trans h
  · intro b v h
    rw [colNorms_swap02]
    exact (perm3_swap02 _ _ _).trans h
  · intro b v h
    rw [colNorms_swap12]
    exact (perm3_swap12 _ _ _).trans h

theorem orth_entries (v : Mat3 ℝ) (h : MulMat3 v.Transpose v = ident) :
    (v.x00 * v.x00 + v.x10 * v.x10 + v.x20 * v.x20 = 1 ∧
      v.x00 * v.x01 + v.x10 * v.x11 + v.x20 * v.x21 = 0 ∧
      v.x00 * v.x02 + v.x10 * v.x12 + v.x20 * v.x22 = 0) ∧
    (v.x01 * v.x01 + v.x11 * v.x11 + v.x21 * v.x21 = 1 ∧
      v.x01 * v.x02 + v.x11 * v.x12 + v.x21 * v.x22 = 0 ∧
      v.x02 * v.x02 + v.x12 * v.x12 + v.x22 * v.x22 = 1) := by
  have h00 := congrArg Mat3.x00 h
  have h01 := congrArg Mat3.x01 h
  have h02 := congrArg Mat3.x02 h
  have h11 := congrArg Mat3.x11 h
  have h12 := congrArg Mat3.x12 h
  have h22 := congrArg Mat3.x22 h
  simp only [MulMat3, Mat3.Transpose, ident, mat3] at h00 h01 h02 h11 h12 h22
  exact ⟨⟨h00, h01, h02⟩, h11, h12, h22⟩

theorem orth_of_entries (v : Mat3 ℝ)
    (h : (v.x00 * v.x00 + v.x10 * v.x10 + v.x20 * v.x20 = 1 ∧
      v.x00 * v.x01 + v.x10 * v.x11 + v.x20 * v.x21 = 0 ∧
      v.x00 * v.x02 + v.x10 * v.x12 + v.x20 * v.x22 = 0) ∧
    (v.x01 * v.x01 + v.x11 * v.x11 + v.x21 * v.x21 = 1 ∧
      v.x01 * v.x02 + v.x11 * v.x12 + v.x21 * v.x22 = 0 ∧
      v.x02 * v.x02 + v.x12 * v.x12 + v.x22 * v.x22 = 1)) :
    MulMat3 v.Transpose v = ident := by
  obtain ⟨⟨h00, h01, h02⟩, h11, h12, h22⟩ := h
  ext <;> simp only [MulMat3, Mat3.Transpose, ident, mat3] <;> linarith

theorem swapCols01_orth (v : Mat3 ℝ) (h : MulMat3 v.Transpose v = ident) :
    MulMat3 (swapCols01 v).Transpose (swapCols01 v) = ident := by
  obtain ⟨⟨h00, h01, h02⟩, h11, h12, h22⟩ := orth_entries v h
  apply orth_of_entries
  simp only [swapCols01, neg_mul_neg, mul_neg, neg_mul]
  refine ⟨⟨?_, ?_, ?_⟩, ?_, ?_, ?_⟩ <;> linarith

theorem swapCols02_orth (v : Mat3 ℝ) (h : MulMat3 v.Transpose v = ident) :
    MulMat3 (swapCols02 v).Transpose (swapCols02 v) = ident := by
  obtain ⟨⟨h00, h01, h02⟩, h11, h12, h22⟩ := orth_entries v h
  apply orth_of_entries
  simp only [swapCols02, neg_mul_neg, mul_neg, neg_mul]
  refine ⟨⟨?_, ?_, ?_⟩, ?_, ?_, ?_⟩ <;> linarith

theorem swapCols12_orth (v : Mat3 ℝ) (h : MulMat3 v.Transpose v = ident) :
    MulMat3 (swapCols12 v).Transpose (swapCols12 v) = ident := by
  obtain ⟨⟨h00, h01, h02⟩, h11, h12, h22⟩ := orth_entries v h
  apply orth_of_entries
  simp only [swapCols12, neg_mul_neg, mul_neg, neg_mul]
  refine ⟨⟨?_, ?_, ?_⟩, ?_, ?_, ?_⟩ <;> linarith

theorem neg_trichotomy {x : ℝ} (h : x = 0 ∨ x = 1 ∨ x = -1) : -x = 0 ∨ -x = 1 ∨ -x = -1 := by
  rcases h with h | h | h <;> subst h <;> simp

theorem swapCols01_signedPerm (p : Mat3 ℝ) (h : isSignedPerm p) : isSignedPerm (swapCols01 p) := by
  obtain ⟨ho, e00, e01, e02, e10, e11, e12, e20, e21, e22⟩ := h
  exact ⟨swapCols01_orth p ho, e01, neg_trichotomy e00, e02, e11, neg_trichotomy e10, e12,
    e21, neg_trichotomy e20, e22⟩

theorem swapCols02_signedPerm (p : Mat3 ℝ) (h : isSignedPerm p) : isSignedPerm (swapCols02 p) := by
  obtain ⟨ho, e00, e01, e02, e10, e11, e12, e20, e21, e22⟩ := h
  exact ⟨swapCols02_orth p ho, e02, e01, neg_trichotomy e00, e12, e11, neg_trichotomy e10,
    e22, e21, neg_trichotomy e20⟩

theorem swapCols12_signedPerm (p : Mat3 ℝ) (h : isSignedPerm p) : isSignedPerm (swapCols12 p) := by
  obtain ⟨ho, e00, e01, e02, e10, e11, e12, e20, e21, e22⟩ := h
  exact ⟨swapCols12_orth p ho, e00, e02, neg_trichotomy e01, e10, e12, neg_trichotomy e11,
    e20, e22, neg_trichotomy e21⟩

theorem ident_signedPerm : isSignedPerm (ident : Mat3 ℝ) := by
  refine ⟨?_, ?_⟩
  · rw [MulMat3_ident_right]; ext <;> rfl
  · simp [ident, mat3]

theorem det3_ident : det3 (ident : Mat3 ℝ) = 1 := by
  simp [det3, ident, mat3]

/-- The sorter multiplies both arguments on the right by one signed permutation matrix of
determinant 1. -/
theorem sort_eq_mul (B V : Mat3 ℝ) :
    ∃ P : Mat3 ℝ, isSignedPerm P ∧ det3 P = 1 ∧
      sortSingularValues B V = (MulMat3 B P, MulMat3 V P) := by
  have h := sort_ind (fun b v => ∃ P : Mat3 ℝ, isSignedPerm P ∧ det3 P = 1 ∧
      b = MulMat3 B P ∧ v = MulMat3 V P) ?_ ?_ ?_ B V
    ⟨ident, ident_signedPerm, det3_ident, (MulMat3_ident_right B).symm,
      (MulMat3_ident_right V).symm⟩
  · obtain ⟨P, hP, hd, hb, hv⟩ := h
    exact ⟨P, hP, hd, Prod.ext hb hv⟩
  · rintro b v ⟨P, hP, hd, hb, hv⟩
    exact ⟨swapCols01 P, swapCols01_signedPerm P hP, by rw [swapCols01_det, hd],
      by rw [hb, swapCols01_mul], by rw [hv, swapCols01_mul]⟩
  · rintro b v ⟨P, hP, hd, hb, hv⟩
    exact ⟨swapCols02 P, swapCols02_signedPerm P hP, by rw [swapCols02_det, hd],
      by rw [hb, swapCols02_mul], by rw [hv, swapCols02_mul]⟩
  · rintro b v ⟨P, hP, hd, hb, hv⟩
    exact ⟨swapCols12 P, swapCols12_signedPerm P hP, by rw [swapCols12_det, hd],
      by rw [hb, swapCols12_mul], by rw [hv, swapCols12_mul]⟩

/-- The sorter leaves the product b·vᵀ unchanged. -/
theorem sort_mul_transpose (B V : Mat3 ℝ) :
    MulMat3 (sortSingularValues B V).1 (sortSingularValues B V).2.Transpose
      = MulMat3 B V.Transpose := by
  refine sort_ind (fun b v => MulMat3 b v.Transpose = MulMat3 B V.Transpose) ?_ ?_ ?_ B V rfl
  · intro b v h; rw [swapCols01_mul_transpose, h]
  · intro b v h; rw [swapCols02_mul_transpose, h]
  · intro b v h; rw [swapCols12_mul_transpose, h]

/-- C12: the singular value sorter is an orientation-preserving column operation applied
identically to both arguments. For all real 3x3 B and V there is a signed permutation
matrix P with Pᵀ·P = I and det P = +1 such that sortSingularValues(B, V) = (B·P, V·P);
hence det V' = det V, V' is orthonormal whenever V is, and B'·V'ᵀ = B·Vᵀ. -/
theorem C12_sort_signed_permutation (B V : Mat3 ℝ) :
    ∃ P : Mat3 ℝ, isSignedPerm P ∧ MulMat3 P.Transpose P = ident ∧ det3 P = 1 ∧
      sortSingularValues B V = (MulMat3 B P, MulMat3 V P) ∧
      det3 (sortSingularValues B V).2 = det3 V ∧
      (MulMat3 V.Transpose V = ident →
        MulMat3 (sortSingularValues B V).2.Transpose (sortSingularValues B V).2 = ident) ∧
      MulMat3 (sortSingularValues B V).1 (sortSingularValues B V).2.Transpose
        = MulMat3 B V.Transpose := by
  obtain ⟨P, hP, hd, hs⟩ := sort_eq_mul B V
  refine ⟨P, hP, hP.1, hd, hs, ?_, ?_, sort_mul_transpose B V⟩
  · rw [hs, det3_mul, hd, mul_one]
  · intro hV
    rw [hs]
    simp only []
    rw [Transpose_MulMat3, MulMat3_assoc, ← MulMat3_assoc V.Transpose, hV, MulMat3_ident_left,
      hP.1]

/-- C12 at B = diag(3, 1, 2) and V = I: V is orthonormal, and so is the sorted V'. -/
theorem C12_sort_signed_permutation_witness :
    MulMat3 (ident : Mat3 ℝ).Transpose ident = ident ∧
    MulMat3 (sortSingularValues (diag3 3 1 2 : Mat3 ℝ) ident).2.Transpose
      (sortSingularValues (diag3 3 1 2 : Mat3 ℝ) ident).2 = ident := by
  have h : MulMat3 (ident : Mat3 ℝ).Transpose ident = ident := ident_signedPerm.1
  obtain ⟨P, -, -, -, -, -, hV, -⟩ := C12_sort_signed_permutation (diag3 3 1 2) ident
  exact ⟨h, hV h⟩

/-- C13, as stated, fails: for the symmetric matrix M = I every elimination step takes the
fixed pair (cstar, sstar), whose squared norm is below 1, and the returned quaternion has
squared norm (cstar² + sstar²)^12 < 1. -/
theorem C13_counterexample :
    (jacobiEigenanalysis Real.sqrt (ident : Mat3 ℝ)).2.normSq ≠ 1 ∧
    (ident : Mat3 ℝ).Transpose = ident := by
  have h : (ident : Mat3 ℝ) = diag3 1 1 1 := rfl
  refine ⟨?_, by ext <;> rfl⟩
  rw [h, jacobi_scalar, qFallback_eq]
  norm_num [Quat.normSq, qSweep4]

/-- C14: the exact Givens solver annihilates the second scalar. For all reals a1, a2 with
ρ = √(a1² + a2²) > epsilon, the pair (ch, sh) = qrGivensQuat(a1, a2) satisfies
ch² + sh² = 1 and, with c = 1 - 2·sh² and s = 2·ch·sh, c·a1 + s·a2 = ρ and
-s·a1 + c·a2 = 0, for either sign of a1. -/
theorem C14_qrGivens_exact (a1 a2 : ℝ) (h : epsilon < Real.sqrt (a1 * a1 + a2 * a2)) :
    (qrGivensQuat Real.sqrt a1 a2).1 ^ 2 + (qrGivensQuat Real.sqrt a1 a2).2 ^ 2 = 1 ∧
    (1 - 2 * (qrGivensQuat Real.sqrt a1 a2).2 * (qrGivensQuat Real.sqrt a1 a2).2) * a1
      + (2 * (qrGivensQuat Real.sqrt a1 a2).1 * (qrGivensQuat Real.sqrt a1 a2).2) * a2
      = Real.sqrt (a1 * a1 + a2 * a2) ∧
    -(2 * (qrGivensQuat Real.sqrt a1 a2).1 * (qrGivensQuat Real.sqrt a1 a2).2) * a1
      + (1 - 2 * (qrGivensQuat Real.sqrt a1 a2).2 * (qrGivensQuat Real.sqrt a1 a2).2) * a2
      = 0 := by
  refine ⟨qrGivensQuat_norm a1 a2, ?_⟩
  rcases qrGivens_cases a1 a2 with ⟨_, e1, e2⟩ | ⟨hle, _, _⟩
  · exact ⟨e1, e2⟩
  · exact absurd h (not_lt.mpr hle)

theorem sqrt_neg3_4 : Real.sqrt ((-3 : ℝ) * (-3) + 4 * 4) = 5 := by
  rw [show ((-3 : ℝ) * (-3) + 4 * 4) = 5 * 5 by norm_num]
  exact Real.sqrt_mul_self (by norm_num)

/-- C14 at (a1, a2) = (-3, 4), a pair with negative a1: ρ = 5 and the rotation maps the
pair to (5, 0). -/
theorem C14_qrGivens_exact_witness :
    (epsilon : ℝ) < Real.sqrt ((-3 : ℝ) * (-3) + 4 * 4) ∧
    (1 - 2 * (qrGivensQuat Real.sqrt (-3) 4).2 * (qrGivensQuat Real.sqrt (-3) 4).2) * (-3)
      + (2 * (qrGivensQuat Real.sqrt (-3) 4).1 * (qrGivensQuat Real.sqrt (-3) 4).2) * 4
      = 5 := by
  have h : (epsilon : ℝ) < Real.sqrt ((-3 : ℝ) * (-3) + 4 * 4) := by
    rw [sqrt_neg3_4]; norm_num [epsilon]
  have := (C14_qrGivens_exact (-3) 4 h).2.1
  rw [sqrt_neg3_4] at this
  exact ⟨h, this⟩

theorem qrGivensDivisor_pos (a1 a2 : ℝ) : 0 < qrGivensDivisor Real.sqrt a1 a2 := by
  unfold qrGivensDivisor
  simp only []
  apply Real.sqrt_pos.mpr
  have h1 : 0 ≤ |a1| := abs_nonneg a1
  have h2 : (epsilon : ℝ) ≤ max (Real.sqrt (a1 * a1 + a2 * a2)) epsilon := le_max_right _ _
  have he := eps_pos
  have hch : 0 < |a1| + max (Real.sqrt (a1 * a1 + a2 * a2)) epsilon := by linarith
  have := mul_pos hch hch
  have := mul_self_nonneg (if Real.sqrt (a1 * a1 + a2 * a2) > epsilon then a2 else 0)
  linarith

theorem jacobiConjDivisor_pos (m : Mat3 ℝ) : 0 < jacobiConjDivisor Real.sqrt m := by
  unfold jacobiConjDivisor
  simp only []
  rcases approximateGivens_cases m.x00 m.x10 m.x11 with h | h
  · rw [h]; norm_num
  · rw [h]; exact fallbackNormSq_pos

theorem approxGivensDivisor_pos (a11 a12 a22 : ℝ)
    (h : gamma * a12 * a12 < 2 * (a11 - a22) * (2 * (a11 - a22))) :
    0 < approxGivensDivisor Real.sqrt a11 a12 a22 := by
  unfold approxGivensDivisor
  simp only []
  apply Real.sqrt_pos.mpr
  have hg : (0 : ℝ) ≤ gamma * a12 * a12 := by
    have : (0 : ℝ) ≤ gamma := by norm_num [gamma]
    nlinarith [mul_self_nonneg a12]
  nlinarith [mul_self_nonneg a12]

/-- C15, as stated, fails: at a11 = a22 = 1 and a12 = 0 the divisor √(ch² + sh²) of
approximateGivensQuaternion is zero; the quotient is computed before the branch and then
discarded by the fallback. -/
theorem C15_counterexample :
    approxGivensDivisor Real.sqrt 1 0 1 = 0 ∧ ¬ (0 < approxGivensDivisor Real.sqrt 1 0 1) := by
  have h : approxGivensDivisor Real.sqrt 1 0 1 = 0 := by
    simp [approxGivensDivisor]
  exact ⟨h, by rw [h]; exact lt_irrefl 0⟩

/-- C15, amended: for all real inputs the divisor ch² + sh² of jacobiConj and the divisor
√(ch² + sh²) of qrGivensQuat are strictly positive; the divisor √(ch² + sh²) of
approximateGivensQuaternion is strictly positive whenever the branch that uses the
quotient is taken (gamma·sh² < ch², with ch = 2·(a11 - a22) and sh = a12), and it is zero
on the degenerate input a11 = a22, a12 = 0, where the fixed pair is returned instead. -/
theorem C15_divisors (m : Mat3 ℝ) (a1 a2 a11 a12 a22 : ℝ) :
    0 < jacobiConjDivisor Real.sqrt m ∧
    0 < qrGivensDivisor Real.sqrt a1 a2 ∧
    (gamma * a12 * a12 < 2 * (a11 - a22) * (2 * (a11 - a22)) →
      0 < approxGivensDivisor Real.sqrt a11 a12 a22) ∧
    (approxGivensDivisor Real.sqrt a11 0 a11 = 0 ∧
      approximateGivensQuaternion Real.sqrt a11 0 a11 = (cstar, sstar)) :=
  ⟨jacobiConjDivisor_pos m, qrGivensDivisor_pos a1 a2, approxGivensDivisor_pos a11 a12 a22,
    by simp [approxGivensDivisor], approximateGivens_diag_eq a11⟩

/-- C15, amended, at a11 = 1, a12 = 0, a22 = 0: the stable branch is taken and the divisor
of approximateGivensQuaternion is positive. -/
theorem C15_divisors_witness :
    (gamma : ℝ) * 0 * 0 < 2 * (1 - 0) * (2 * (1 - 0)) ∧
    0 < approxGivensDivisor Real.sqrt 1 0 0 := by
  have h : (gamma : ℝ) * 0 * 0 < 2 * (1 - 0) * (2 * (1 - 0)) := by norm_num
  exact ⟨h, (C15_divisors ident 0 0 1 0 0).2.2.1 h⟩

theorem rot_orth_of_unit (q : Quat ℝ) (h : q.normSq = 1) :
    MulMat3 q.RotationMat3.Transpose q.RotationMat3 = ident := by
  have hg := rot_gram q
  rw [h, sub_self] at hg
  have e00 := congrArg Mat3.x00 hg
  have e01 := congrArg Mat3.x01 hg
  have e02 := congrArg Mat3.x02 hg
  have e10 := congrArg Mat3.x10 hg
  have e11 := congrArg Mat3.x11 hg
  have e12 := congrArg Mat3.x12 hg
  have e20 := congrArg Mat3.x20 hg
  have e21 := congrArg Mat3.x21 hg
  have e22 := congrArg Mat3.x22 hg
  simp only [subMat3, scaleMat3, zero_mul] at e00 e01 e02 e10 e11 e12 e20 e21 e22
  ext <;> linarith

theorem rot_not_orth (q : Quat ℝ) (hN : q.normSq ≠ 1)
    (hv : q.I ≠ 0 ∨ q.J ≠ 0 ∨ q.K ≠ 0) :
    MulMat3 q.RotationMat3.Transpose q.RotationMat3 ≠ ident := by
  intro h
  have hg := rot_gram q
  rw [h] at hg
  have hu : 1 - q.normSq ≠ 0 := sub_ne_zero.mpr (Ne.symm hN)
  have e00 := congrArg Mat3.x00 hg
  have e11 := congrArg Mat3.x11 hg
  have e22 := congrArg Mat3.x22 hg
  simp only [subMat3, scaleMat3, rotDefect, mat3, sub_self] at e00 e11 e22
  have z00 := (mul_eq_zero.mp e00.symm).resolve_left hu
  have z11 := (mul_eq_zero.mp e11.symm).resolve_left hu
  have z22 := (mul_eq_zero.mp e22.symm).resolve_left hu
  have hi := mul_self_nonneg q.I
  have hj := mul_self_nonneg q.J
  have hk := mul_self_nonneg q.K
  have i0 : q.I = 0 := mul_self_eq_zero.mp (by linarith)
  have j0 : q.J = 0 := mul_self_eq_zero.mp (by linarith)
  have k0 : q.K = 0 := mul_self_eq_zero.mp (by linarith)
  rcases hv with h | h | h
  · exact h i0
  · exact h j0
  · exact h k0

theorem rot_scalar (q : Quat ℝ) (hi : q.I = 0) (hj : q.J = 0) (hk : q.K = 0) :
    q.RotationMat3 = ident := by
  ext <;> simp [Quat.RotationMat3, mat3, ident, hi, hj, hk]

/-- C16 fails in the code: the quaternion (0, 0, 0, 2) has squared norm 4, yet its
RotationMat3 is the identity matrix, a pure rotation, against the doc comment of
RotationMat3 (a receiver that is not a unit quaternion gives no pure rotation). -/
theorem C16_counterexample :
    (scalarQuat : Quat ℝ).normSq ≠ 1 ∧
    MulMat3 (scalarQuat : Quat ℝ).RotationMat3.Transpose (scalarQuat : Quat ℝ).RotationMat3
      = ident ∧
    det3 (scalarQuat : Quat ℝ).RotationMat3 = 1 := by
  have h : (scalarQuat : Quat ℝ).RotationMat3 = ident := rot_scalar _ rfl rfl rfl
  rw [h]
  refine ⟨by norm_num [Quat.normSq, scalarQuat], ident_signedPerm.1, det3_ident⟩

/-- C16 where the code agrees, and the extent of the failure: for every quaternion q with
I² + J² + K² + W² = 1, M = q.RotationMat3() satisfies Mᵀ·M = I and det M = 1; for every
quaternion that is not of unit norm and has a non-zero vector part (I, J, K), Mᵀ·M ≠ I;
a quaternion with zero vector part gives M = I whatever its norm. -/
theorem C16_rotation_matrix (q : Quat ℝ) :
    (q.normSq = 1 →
      MulMat3 q.RotationMat3.Transpose q.RotationMat3 = ident ∧ det3 q.RotationMat3 = 1) ∧
    (q.normSq ≠ 1 → (q.I ≠ 0 ∨ q.J ≠ 0 ∨ q.K ≠ 0) →
      MulMat3 q.RotationMat3.Transpose q.RotationMat3 ≠ ident) ∧
    (q.I = 0 → q.J = 0 → q.K = 0 → q.RotationMat3 = ident) := by
  refine ⟨?_, rot_not_orth q, rot_scalar q⟩
  intro h
  refine ⟨rot_orth_of_unit q h, ?_⟩
  rw [rot_det, h]
  norm_num

/-- C16 at the unit quaternion (3/5, 0, 0, 4/5), at the quaternion (1, 0, 0, 1) of
squared norm 2, and at the quaternion (0, 0, 0, 2) with zero vector part. -/
theorem C16_rotation_matrix_witness :
    ((unitQuat : Quat ℝ).normSq = 1 ∧
      MulMat3 (unitQuat : Quat ℝ).RotationMat3.Transpose (unitQuat : Quat ℝ).RotationMat3
        = ident ∧ det3 (unitQuat : Quat ℝ).RotationMat3 = 1) ∧
    ((longQuat : Quat ℝ).normSq ≠ 1 ∧ (longQuat : Quat ℝ).I ≠ 0 ∧
      MulMat3 (longQuat : Quat ℝ).RotationMat3.Transpose (longQuat : Quat ℝ).RotationMat3
        ≠ ident) ∧
    (scalarQuat : Quat ℝ).RotationMat3 = ident := by
  have hu : (unitQuat : Quat ℝ).normSq = 1 := by norm_num [Quat.normSq, unitQuat]
  have hl : (longQuat : Quat ℝ).normSq ≠ 1 := by norm_num [Quat.normSq, longQuat]
  have hi : (longQuat : Quat ℝ).I ≠ 0 := by norm_num [longQuat]
  exact ⟨⟨hu, (C16_rotation_matrix unitQuat).1 hu⟩,
    ⟨hl, hi, (C16_rotation_matrix longQuat).2.1 hl (Or.inl hi)⟩,
    (C16_rotation_matrix scalarQuat).2.2 rfl rfl rfl⟩

/-! ## The approximate Givens pair, branch by branch -/

theorem approximateGivens_stable (a11 a12 a22 : ℝ)
    (h : gamma * a12 * a12 < 2 * (a11 - a22) * (2 * (a11 - a22))) :
    approximateGivensQuaternion Real.sqrt a11 a12 a22
      = (1 / Real.sqrt (2 * (a11 - a22) * (2 * (a11 - a22)) + a12 * a12) * (2 * (a11 - a22)),
         1 / Real.sqrt (2 * (a11 - a22) * (2 * (a11 - a22)) + a12 * a12) * a12) := by
  unfold approximateGivensQuaternion
  simp only []
  rw [if_pos h]

theorem approximateGivens_fallback (a11 a12 a22 : ℝ)
    (h : ¬ gamma * a12 * a12 < 2 * (a11 - a22) * (2 * (a11 - a22))) :
    approximateGivensQuaternion Real.sqrt a11 a12 a22 = (cstar, sstar) := by
  unfold approximateGivensQuaternion
  simp only []
  rw [if_neg h]

theorem stable_radicand_pos (a11 a12 a22 : ℝ)
    (h : gamma * a12 * a12 < 2 * (a11 - a22) * (2 * (a11 - a22))) :
    0 < 2 * (a11 - a22) * (2 * (a11 - a22)) + a12 * a12 := by
  have hg : (0 : ℝ) ≤ gamma * a12 * a12 := by
    have : (0 : ℝ) ≤ gamma := by norm_num [gamma]
    nlinarith [mul_self_nonneg a12]
  nlinarith [mul_self_nonneg a12]

/-- With w = 1/√D and D > 0: w·w·D = 1. -/
theorem inv_sqrt_sq {D : ℝ} (hD : 0 < D) :
    (1 / Real.sqrt D) * (1 / Real.sqrt D) * D = 1 := by
  have hs := Real.mul_self_sqrt hD.le
  have hne : Real.sqrt D ≠ 0 := ne_of_gt (Real.sqrt_pos.mpr hD)
  generalize Real.sqrt D = r at hs hne
  field_simp
  linear_combination -hs

theorem approximateGivens_stable_norm (a11 a12 a22 : ℝ)
    (h : gamma * a12 * a12 < 2 * (a11 - a22) * (2 * (a11 - a22))) :
    (approximateGivensQuaternion Real.sqrt a11 a12 a22).1
        * (approximateGivensQuaternion Real.sqrt a11 a12 a22).1
      + (approximateGivensQuaternion Real.sqrt a11 a12 a22).2
        * (approximateGivensQuaternion Real.sqrt a11 a12 a22).2 = 1 := by
  rw [approximateGivens_stable a11 a12 a22 h]
  have hw := inv_sqrt_sq (stable_radicand_pos a11 a12 a22 h)
  generalize 1 / Real.sqrt (2 * (a11 - a22) * (2 * (a11 - a22)) + a12 * a12) = w at hw
  simp only []
  linear_combination hw

theorem fallbackNormSq_near_one : |(cstar : ℝ) * cstar + sstar * sstar - 1| < 2e-9 := by
  rw [abs_lt]
  constructor <;> norm_num [cstar, sstar]

/-- C23: the Givens rotation approximator follows the specified algorithm. With
ch0 = 2·(a11 - a22) and sh0 = a12: if gamma·sh0² < ch0² it returns (ch0, sh0)/√(ch0² + sh0²),
which has ch² + sh² = 1; otherwise it returns exactly the fixed pair (cstar, sstar), whose
squared norm differs from 1 by less than 2e-9. -/
theorem C23_approximateGivens (a11 a12 a22 : ℝ) :
    (gamma * a12 * a12 < 2 * (a11 - a22) * (2 * (a11 - a22)) →
      approximateGivensQuaternion Real.sqrt a11 a12 a22
        = (2 * (a11 - a22) / Real.sqrt (2 * (a11 - a22) * (2 * (a11 - a22)) + a12 * a12),
           a12 / Real.sqrt (2 * (a11 - a22) * (2 * (a11 - a22)) + a12 * a12)) ∧
      (approximateGivensQuaternion Real.sqrt a11 a12 a22).1 ^ 2
        + (approximateGivensQuaternion Real.sqrt a11 a12 a22).2 ^ 2 = 1) ∧
    (¬ gamma * a12 * a12 < 2 * (a11 - a22) * (2 * (a11 - a22)) →
      approximateGivensQuaternion Real.sqrt a11 a12 a22 = (cstar, sstar)) ∧
    (cstar : ℝ) = 0.923879532 ∧ (sstar : ℝ) = 0.3826834323 ∧
    |(cstar : ℝ) * cstar + sstar * sstar - 1| < 2e-9 := by
  refine ⟨fun h => ⟨?_, ?_⟩, approximateGivens_fallback a11 a12 a22, rfl, rfl,
    fallbackNormSq_near_one⟩
  · rw [approximateGivens_stable a11 a12 a22 h, one_div_mul_eq_div, one_div_mul_eq_div]
  · have := approximateGivens_stable_norm a11 a12 a22 h
    rw [sq, sq]; exact this

/-- C23 at (a11, a12, a22) = (3, 1, 1), a stable input, and at (1, 0, 1), a fallback. -/
theorem C23_approximateGivens_witness :
    ((gamma : ℝ) * 1 * 1 < 2 * (3 - 1) * (2 * (3 - 1)) ∧
      (approximateGivensQuaternion Real.sqrt 3 1 1).1 ^ 2
        + (approximateGivensQuaternion Real.sqrt 3 1 1).2 ^ 2 = (1 : ℝ)) ∧
    (¬ ((gamma : ℝ) * 0 * 0 < 2 * (1 - 1) * (2 * (1 - 1))) ∧
      approximateGivensQuaternion Real.sqrt 1 0 1 = ((cstar : ℝ), (sstar : ℝ))) := by
  have h1 : (gamma : ℝ) * 1 * 1 < 2 * (3 - 1) * (2 * (3 - 1)) := by norm_num [gamma]
  have h2 : ¬ ((gamma : ℝ) * 0 * 0 < 2 * (1 - 1) * (2 * (1 - 1))) := by norm_num
  exact ⟨⟨h1, ((C23_approximateGivens 3 1 1).1 h1).2⟩, h2, (C23_approximateGivens 1 0 1).2.1 h2⟩

/-! ## The quaternion update as a quaternion product -/

theorem quatUpdate_eq_Mul (ch sh : ℝ) (q : Quat ℝ) :
    quatUpdate ch sh 0 1 2 q = q.Mul (givensQuat ch sh 2) ∧
    quatUpdate ch sh 1 2 0 q = q.Mul (givensQuat ch sh 0) ∧
    quatUpdate ch sh 2 0 1 q = q.Mul (givensQuat ch sh 1) := by
  rw [quatUpdate_012, quatUpdate_120, quatUpdate_201]
  refine ⟨?_, ?_, ?_⟩ <;> ext <;>
    simp only [Quat.Mul, givensQuat, Quat.IJK, Add, Cross, Scale, Dot] <;> ring

/-- C24: the closed-form quaternion update in jacobiConj is quaternion composition. For
every quaternion qV, every pair (ch, sh) and each index triple (x, y, z) in
(0,1,2), (1,2,0), (2,0,1), the updated accumulator equals qV.Mul(g), where g has scalar
part ch and the single imaginary component sh on axis z; in jacobiConj the pair is the one
returned by approximateGivensQuaternion. -/
theorem C24_quat_update_is_mul (qV : Quat ℝ) (ch sh : ℝ) (m : Mat3 ℝ) :
    quatUpdate ch sh 0 1 2 qV = qV.Mul (givensQuat ch sh 2) ∧
    quatUpdate ch sh 1 2 0 qV = qV.Mul (givensQuat ch sh 0) ∧
    quatUpdate ch sh 2 0 1 qV = qV.Mul (givensQuat ch sh 1) ∧
    (jacobiConj Real.sqrt m 0 1 2 qV).2
      = qV.Mul (givensQuat (approximateGivensQuaternion Real.sqrt m.x00 m.x10 m.x11).1
          (approximateGivensQuaternion Real.sqrt m.x00 m.x10 m.x11).2 2) ∧
    (jacobiConj Real.sqrt m 1 2 0 qV).2
      = qV.Mul (givensQuat (approximateGivensQuaternion Real.sqrt m.x00 m.x10 m.x11).1
          (approximateGivensQuaternion Real.sqrt m.x00 m.x10 m.x11).2 0) ∧
    (jacobiConj Real.sqrt m 2 0 1 qV).2
      = qV.Mul (givensQuat (approximateGivensQuaternion Real.sqrt m.x00 m.x10 m.x11).1
          (approximateGivensQuaternion Real.sqrt m.x00 m.x10 m.x11).2 1) := by
  have h := quatUpdate_eq_Mul ch sh qV
  have h' := quatUpdate_eq_Mul (approximateGivensQuaternion Real.sqrt m.x00 m.x10 m.x11).1
    (approximateGivensQuaternion Real.sqrt m.x00 m.x10 m.x11).2 qV
  simp only [jacobiConj_snd]
  exact ⟨h.1, h.2.1, h.2.2, h'.1, h'.2.1, h'.2.2⟩

/-! ## Residual below the diagonal of R -/

theorem eps_lt_sqrt_iff {X : ℝ} (h : epsilon < Real.sqrt X) : epsilon * epsilon < X := by
  have := (Real.lt_sqrt eps_pos.le).mp h
  rwa [sq] at this

theorem QR_x21_zero_of_pivot (b : Mat3 ℝ) (h : epsilon < qrPivotNorm3 Real.sqrt b) :
    (b.QRDecomposition Real.sqrt).2.x21 = 0 := by
  rcases qrGivens_cases (qrR2 Real.sqrt b).x11 (qrR2 Real.sqrt b).x21
    with ⟨_, _, h0⟩ | ⟨hle, _, _⟩
  · exact h0
  · exact absurd h (not_lt.mpr hle)

/-- C25: bound on the residual below the diagonal of R. For every real 3x3 matrix B each
of R[1,0], R[2,0], R[2,1] has absolute value at most 2·epsilon = 2e-6; R[1,0] or R[2,0] is
non-zero only when the first pivot pair has norm at most epsilon, and R[2,1] is non-zero
only when the third pivot pair has norm at most epsilon. -/
theorem C25_qr_residual (B : Mat3 ℝ) :
    (|(B.QRDecomposition Real.sqrt).2.x10| ≤ 2e-6 ∧
      |(B.QRDecomposition Real.sqrt).2.x20| ≤ 2e-6 ∧
      |(B.QRDecomposition Real.sqrt).2.x21| ≤ 2e-6) ∧
    (2 : ℝ) * epsilon = 2e-6 ∧
    ((B.QRDecomposition Real.sqrt).2.x10 ≠ 0 ∨ (B.QRDecomposition Real.sqrt).2.x20 ≠ 0 →
      qrPivotNorm1 Real.sqrt B ≤ epsilon) ∧
    ((B.QRDecomposition Real.sqrt).2.x21 ≠ 0 → qrPivotNorm3 Real.sqrt B ≤ epsilon) := by
  have h10 := QR_x10_small B
  have h20 := QR_x20_small B
  have h21 := QR_x21_small B
  have he := two_eps
  have hp := eps_pos
  refine ⟨⟨by linarith, by linarith, by linarith⟩, he, ?_, ?_⟩
  · intro hne
    by_contra hlt
    have hz := QR_col0_zero B (eps_lt_sqrt_iff (not_le.mp hlt))
    rcases hne with h | h
    · exact h hz.1
    · exact h hz.2
  · intro hne
    by_contra hlt
    exact hne (QR_x21_zero_of_pivot B (not_le.mp hlt))

/-- C25 at the matrix whose only non-zero entry is B[1,0] = 1e-7: R[1,0] = 1e-7 is not
zero and the first pivot pair has norm at most epsilon. -/
theorem C25_qr_residual_witness :
    ((tinyLower : Mat3 ℝ).QRDecomposition Real.sqrt).2.x10 ≠ 0 ∧
    qrPivotNorm1 Real.sqrt (tinyLower : Mat3 ℝ) ≤ epsilon := by
  have h : ((tinyLower : Mat3 ℝ).QRDecomposition Real.sqrt).2.x10 ≠ 0 := by
    rw [QR_tinyLower]
    norm_num [tinyLower, mat3]
  exact ⟨h, (C25_qr_residual tinyLower).2.2.1 (Or.inl h)⟩

/-! ## The factor identity of the orchestrator -/

/-- C26: the exact factor identity of the orchestrator. For every real 3x3 matrix A, with
(U, S, V) = A.SVD(), U·S = A·V holds exactly, and the reconstruction error is
A - U·S·Vᵀ = A·(I - V·Vᵀ). -/
theorem C26_svd_factor_identity (A : Mat3 ℝ) :
    MulMat3 (A.SVD Real.sqrt).1 (A.SVD Real.sqrt).2.1 = MulMat3 A (A.SVD Real.sqrt).2.2 ∧
    subMat3 A (MulMat3 (MulMat3 (A.SVD Real.sqrt).1 (A.SVD Real.sqrt).2.1)
        (A.SVD Real.sqrt).2.2.Transpose)
      = MulMat3 A (subMat3 ident
          (MulMat3 (A.SVD Real.sqrt).2.2 (A.SVD Real.sqrt).2.2.Transpose)) := by
  refine ⟨SVD_US A, ?_⟩
  rw [SVD_US A, MulMat3_assoc, sub_mul_eq]

/-! ## The exact norm drift of the Jacobi accumulator -/

theorem approximateGivens_normSq (m : Mat3 ℝ) :
    (approximateGivensQuaternion Real.sqrt m.x00 m.x10 m.x11).1
        * (approximateGivensQuaternion Real.sqrt m.x00 m.x10 m.x11).1
      + (approximateGivensQuaternion Real.sqrt m.x00 m.x10 m.x11).2
        * (approximateGivensQuaternion Real.sqrt m.x00 m.x10 m.x11).2
      = fallbackNormSq ^ stepFallback m := by
  unfold stepFallback
  by_cases h : gamma * m.x10 * m.x10 < 2 * (m.x00 - m.x11) * (2 * (m.x00 - m.x11))
  · rw [if_pos h, pow_zero]
    exact approximateGivens_stable_norm _ _ _ h
  · rw [if_neg h, pow_one, approximateGivens_fallback _ _ _ h]
    rfl

theorem stepFallback_le (m : Mat3 ℝ) : stepFallback m ≤ 1 := by
  unfold stepFallback
  split_ifs <;> omega

theorem jacobiConj_normSq_exact (m : Mat3 ℝ) (q : Quat ℝ) :
    (jacobiConj Real.sqrt m 0 1 2 q).2.normSq = q.normSq * fallbackNormSq ^ stepFallback m ∧
    (jacobiConj Real.sqrt m 1 2 0 q).2.normSq = q.normSq * fallbackNormSq ^ stepFallback m ∧
    (jacobiConj Real.sqrt m 2 0 1 q).2.normSq = q.normSq * fallbackNormSq ^ stepFallback m := by
  simp only [jacobiConj_snd, quatUpdate_normSq_012, quatUpdate_normSq_120,
    quatUpdate_normSq_201, approximateGivens_normSq, and_self]

theorem jacobiSweep_normSq_exact (s : Mat3 ℝ × Quat ℝ) :
    (jacobiSweep Real.sqrt s).2.normSq
      = s.2.normSq * fallbackNormSq ^ sweepFallbacks Real.sqrt s ∧
    sweepFallbacks Real.sqrt s ≤ 3 := by
  unfold jacobiSweep sweepFallbacks
  simp only []
  constructor
  · rw [(jacobiConj_normSq_exact _ _).2.2, (jacobiConj_normSq_exact _ _).2.1,
      (jacobiConj_normSq_exact _ _).1, pow_add, pow_add]
    ring
  · have h1 := stepFallback_le s.1
    have h2 := stepFallback_le (jacobiConj Real.sqrt s.1 0 1 2 s.2).1
    have h3 := stepFallback_le (jacobiConj Real.sqrt
      (jacobiConj Real.sqrt s.1 0 1 2 s.2).1 1 2 0 (jacobiConj Real.sqrt s.1 0 1 2 s.2).2).1
    omega

theorem jacobi_normSq_exact (M : Mat3 ℝ) :
    (jacobiEigenanalysis Real.sqrt M).2.normSq
      = fallbackNormSq ^ jacobiFallbacks Real.sqrt M ∧
    jacobiFallbacks Real.sqrt M ≤ 12 := by
  rw [jacobiEigenanalysis_unfold]
  unfold jacobiFallbacks
  simp only []
  generalize hs0 : ((M, ({ I := 0, J := 0, K := 0, W := 1 } : Quat ℝ)) : Mat3 ℝ × Quat ℝ) = s0
  have h0 : s0.2.normSq = 1 := by
    subst hs0
    simp [Quat.normSq]
  have h1 := jacobiSweep_normSq_exact s0
  generalize jacobiSweep Real.sqrt s0 = s1 at h1 ⊢
  have h2 := jacobiSweep_normSq_exact s1
  generalize jacobiSweep Real.sqrt s1 = s2 at h2 ⊢
  have h3 := jacobiSweep_normSq_exact s2
  generalize jacobiSweep Real.sqrt s2 = s3 at h3 ⊢
  have h4 := jacobiSweep_normSq_exact s3
  constructor
  · rw [h4.1, h3.1, h2.1, h1.1, h0, pow_add, pow_add, pow_add]
    ring
  · have := h1.2
    have := h2.2
    have := h3.2
    have := h4.2
    omega

theorem pow_fallback_eq_one_iff (k : ℕ) : (fallbackNormSq : ℝ) ^ k = 1 ↔ k = 0 := by
  constructor
  · intro h
    by_contra hk
    have hlt : (fallbackNormSq : ℝ) ^ k < 1 :=
      pow_lt_one₀ fallbackNormSq_pos.le fallbackNormSq_lt_one hk
    linarith
  · intro h
    rw [h, pow_zero]

/-- C13, amended: for every real 3x3 matrix M the quaternion returned by
M.jacobiEigenanalysis() has squared norm I² + J² + K² + W² between 1 - 2e-8 and 1, and the
squared norm equals 1 exactly when none of the 12 elimination steps takes the fixed pair
(cstar, sstar), that is when the count of fallback steps is 0. -/
theorem C13_jacobi_norm (M : Mat3 ℝ) :
    1 - 2e-8 ≤ (jacobiEigenanalysis Real.sqrt M).2.I * (jacobiEigenanalysis Real.sqrt M).2.I
        + (jacobiEigenanalysis Real.sqrt M).2.J * (jacobiEigenanalysis Real.sqrt M).2.J
        + (jacobiEigenanalysis Real.sqrt M).2.K * (jacobiEigenanalysis Real.sqrt M).2.K
        + (jacobiEigenanalysis Real.sqrt M).2.W * (jacobiEigenanalysis Real.sqrt M).2.W ∧
    (jacobiEigenanalysis Real.sqrt M).2.I * (jacobiEigenanalysis Real.sqrt M).2.I
        + (jacobiEigenanalysis Real.sqrt M).2.J * (jacobiEigenanalysis Real.sqrt M).2.J
        + (jacobiEigenanalysis Real.sqrt M).2.K * (jacobiEigenanalysis Real.sqrt M).2.K
        + (jacobiEigenanalysis Real.sqrt M).2.W * (jacobiEigenanalysis Real.sqrt M).2.W ≤ 1 ∧
    ((jacobiEigenanalysis Real.sqrt M).2.I * (jacobiEigenanalysis Real.sqrt M).2.I
        + (jacobiEigenanalysis Real.sqrt M).2.J * (jacobiEigenanalysis Real.sqrt M).2.J
        + (jacobiEigenanalysis Real.sqrt M).2.K * (jacobiEigenanalysis Real.sqrt M).2.K
        + (jacobiEigenanalysis Real.sqrt M).2.W * (jacobiEigenanalysis Real.sqrt M).2.W = 1
      ↔ jacobiFallbacks Real.sqrt M = 0) := by
  have hb := jacobiEigenanalysis_normSq M
  have he : (jacobiEigenanalysis Real.sqrt M).2.normSq = 1
      ↔ jacobiFallbacks Real.sqrt M = 0 := by
    rw [(jacobi_normSq_exact M).1]
    exact pow_fallback_eq_one_iff _
  exact ⟨hb.1, hb.2, he⟩

/-- C27: norm drift of the Jacobi accumulator. For every real 3x3 input the quaternion qV
returned by jacobiEigenanalysis has squared norm exactly (cstar² + sstar²)^k, where k, at
most 12, is the number of the 12 elimination steps that took the fallback branch of
approximateGivensQuaternion; consequently 1 - 2e-8 ≤ I² + J² + K² + W² ≤ 1. -/
theorem C27_norm_drift (M : Mat3 ℝ) :
    (jacobiEigenanalysis Real.sqrt M).2.I * (jacobiEigenanalysis Real.sqrt M).2.I
        + (jacobiEigenanalysis Real.sqrt M).2.J * (jacobiEigenanalysis Real.sqrt M).2.J
        + (jacobiEigenanalysis Real.sqrt M).2.K * (jacobiEigenanalysis Real.sqrt M).2.K
        + (jacobiEigenanalysis Real.sqrt M).2.W * (jacobiEigenanalysis Real.sqrt M).2.W
      = (cstar * cstar + sstar * sstar) ^ jacobiFallbacks Real.sqrt M ∧
    jacobiFallbacks Real.sqrt M ≤ 12 ∧
    1 - 2e-8 ≤ (cstar * cstar + sstar * sstar : ℝ) ^ jacobiFallbacks Real.sqrt M ∧
    (cstar * cstar + sstar * sstar : ℝ) ^ jacobiFallbacks Real.sqrt M ≤ 1 := by
  obtain ⟨h1, h2⟩ := jacobi_normSq_exact M
  have hb := jacobiEigenanalysis_normSq M
  rw [h1] at hb
  exact ⟨h1, h2, hb.1, hb.2⟩

/-! ## One elimination step shrinks the active off-diagonal entry -/

theorem jacobiConj_x20 (sqrt : ℝ → ℝ) (m : Mat3 ℝ) (x y z : Fin 3) (q : Quat ℝ) :
    (jacobiConj sqrt m x y z q).1.x20
      = conjOffDiag (approximateGivensQuaternion sqrt m.x00 m.x10 m.x11) m := rfl

theorem conjOffDiag_unit (c s : ℝ) (h : c * c + s * s = 1) (m : Mat3 ℝ) :
    conjOffDiag (c, s) m
      = ((c * c - s * s) * (c * c - s * s) - 2 * s * c * (2 * s * c)) * m.x10
        - (c * c - s * s) * (2 * s * c) * (m.x00 - m.x11) := by
  unfold conjOffDiag
  simp only []
  rw [h, div_one, div_one]
  ring

theorem stable_ratio (P Q : ℝ) (hQ : 0 ≤ Q) (h : gamma * Q < P) :
    |Q * (Q - 5 * P)| ≤ 0.61 * ((P + Q) * (P + Q)) := by
  have hg : (gamma : ℝ) = 5.828427124 := rfl
  rw [hg] at h
  have h1 : 0 ≤ P - 5.828427124 * Q := by linarith
  have h2 : 0 ≤ P - 0.46 * Q := by linarith
  have hA := mul_nonneg h1 h2
  have hB := mul_nonneg hQ h1
  have hC := mul_nonneg hQ hQ
  have hD := mul_nonneg hQ h2
  rw [abs_le]
  constructor <;> nlinarith

theorem conjOffDiag_stable (m : Mat3 ℝ)
    (h : gamma * m.x10 * m.x10 < 2 * (m.x00 - m.x11) * (2 * (m.x00 - m.x11))) :
    |conjOffDiag (approximateGivensQuaternion Real.sqrt m.x00 m.x10 m.x11) m|
      ≤ 0.61 * |m.x10| := by
  rw [approximateGivens_stable _ _ _ h]
  have hw := inv_sqrt_sq (stable_radicand_pos _ _ _ h)
  generalize 1 / Real.sqrt (2 * (m.x00 - m.x11) * (2 * (m.x00 - m.x11)) + m.x10 * m.x10)
    = w at hw
  have hn : w * (2 * (m.x00 - m.x11)) * (w * (2 * (m.x00 - m.x11)))
      + w * m.x10 * (w * m.x10) = 1 := by linear_combination hw
  rw [conjOffDiag_unit _ _ hn]
  generalize m.x00 - m.x11 = d at h hw ⊢
  generalize m.x10 = q at h hw ⊢
  have hE : ((w * (2 * d) * (w * (2 * d)) - w * q * (w * q))
        * (w * (2 * d) * (w * (2 * d)) - w * q * (w * q))
        - 2 * (w * q) * (w * (2 * d)) * (2 * (w * q) * (w * (2 * d)))) * q
      - (w * (2 * d) * (w * (2 * d)) - w * q * (w * q)) * (2 * (w * q) * (w * (2 * d))) * d
      = q * ((w * w) * (w * w) * (q * q * (q * q - 5 * (2 * d * (2 * d))))) := by ring
  rw [hE, abs_mul, mul_comm (0.61 : ℝ)]
  apply mul_le_mul_of_nonneg_left _ (abs_nonneg q)
  have hw4 : 0 ≤ (w * w) * (w * w) := mul_nonneg (mul_self_nonneg w) (mul_self_nonneg w)
  rw [abs_mul, abs_of_nonneg hw4]
  have hr := stable_ratio (2 * d * (2 * d)) (q * q) (mul_self_nonneg q)
    (by linarith [h, mul_assoc (gamma : ℝ) q q])
  calc (w * w) * (w * w) * |q * q * (q * q - 5 * (2 * d * (2 * d)))|
      ≤ (w * w) * (w * w) * (0.61 * ((2 * d * (2 * d) + q * q) * (2 * d * (2 * d) + q * q))) :=
        mul_le_mul_of_nonneg_left hr hw4
    _ = 0.61 * ((w * w * (2 * d * (2 * d) + q * q)) * (w * w * (2 * d * (2 * d) + q * q))) := by
        ring
    _ = 0.61 := by rw [hw]; norm_num

theorem conjOffDiag_fallback_eq (m : Mat3 ℝ) :
    conjOffDiag ((cstar : ℝ), (sstar : ℝ)) m
      = (((cstar * cstar - sstar * sstar) / (cstar * cstar + sstar * sstar))
            * ((cstar * cstar - sstar * sstar) / (cstar * cstar + sstar * sstar))
          - ((2 * sstar * cstar) / (cstar * cstar + sstar * sstar))
            * ((2 * sstar * cstar) / (cstar * cstar + sstar * sstar))) * m.x10
        - (((cstar * cstar - sstar * sstar) / (cstar * cstar + sstar * sstar))
            * ((2 * sstar * cstar) / (cstar * cstar + sstar * sstar))) * (m.x00 - m.x11) := by
  unfold conjOffDiag
  simp only []
  ring

theorem fallback_coeff_bounds :
    |(((cstar : ℝ) * cstar - sstar * sstar) / (cstar * cstar + sstar * sstar))
        * ((cstar * cstar - sstar * sstar) / (cstar * cstar + sstar * sstar))
      - ((2 * sstar * cstar) / (cstar * cstar + sstar * sstar))
        * ((2 * sstar * cstar) / (cstar * cstar + sstar * sstar))| ≤ 1e-9 ∧
    |(((cstar : ℝ) * cstar - sstar * sstar) / (cstar * cstar + sstar * sstar))
        * ((2 * sstar * cstar) / (cstar * cstar + sstar * sstar))| ≤ 0.5000001 := by
  constructor <;> rw [abs_le] <;> constructor <;> norm_num [cstar, sstar]

theorem fallback_diff_le (q d : ℝ) (h : ¬ gamma * q * q < 2 * d * (2 * d)) :
    |d| ≤ 1.2072 * |q| := by
  have hg : (gamma : ℝ) = 5.828427124 := rfl
  rw [hg] at h
  have hle : (2 * d) ^ 2 ≤ (2.4144 * q) ^ 2 := by nlinarith [mul_self_nonneg q]
  have h2 := sq_le_sq.mp hle
  rw [abs_mul, abs_mul, abs_of_pos (by norm_num : (0 : ℝ) < 2),
    abs_of_pos (by norm_num : (0 : ℝ) < 2.4144)] at h2
  linarith

theorem conjOffDiag_fallback (m : Mat3 ℝ)
    (h : ¬ gamma * m.x10 * m.x10 < 2 * (m.x00 - m.x11) * (2 * (m.x00 - m.x11))) :
    |conjOffDiag (approximateGivensQuaternion Real.sqrt m.x00 m.x10 m.x11) m|
      ≤ 0.61 * |m.x10| := by
  rw [approximateGivens_fallback _ _ _ h, conjOffDiag_fallback_eq]
  obtain ⟨hA, hB⟩ := fallback_coeff_bounds
  have hd := fallback_diff_le m.x10 (m.x00 - m.x11) h
  generalize (((cstar : ℝ) * cstar - sstar * sstar) / (cstar * cstar + sstar * sstar))
        * ((cstar * cstar - sstar * sstar) / (cstar * cstar + sstar * sstar))
      - ((2 * sstar * cstar) / (cstar * cstar + sstar * sstar))
        * ((2 * sstar * cstar) / (cstar * cstar + sstar * sstar)) = A at hA ⊢
  generalize (((cstar : ℝ) * cstar - sstar * sstar) / (cstar * cstar + sstar * sstar))
        * ((2 * sstar * cstar) / (cstar * cstar + sstar * sstar)) = B at hB ⊢
  generalize m.x00 - m.x11 = d at hd ⊢
  generalize m.x10 = q at hd ⊢
  have h1 : |A * q - B * d| ≤ |A * q| + |B * d| := by
    have := abs_add (A * q) (-(B * d))
    rwa [abs_neg, ← sub_eq_add_neg] at this
  rw [abs_mul, abs_mul] at h1
  have hq := abs_nonneg q
  have hdn := abs_nonneg d
  have h2 : |A| * |q| ≤ 1e-9 * |q| := mul_le_mul_of_nonneg_right hA hq
  have h3 : |B| * |d| ≤ 0.5000001 * (1.2072 * |q|) :=
    mul_le_mul hB hd hdn (by norm_num)
  linarith

theorem jacobiConj_trace (m : Mat3 ℝ) (x y z : Fin 3) (q : Quat ℝ) :
    trace3 (jacobiConj Real.sqrt m x y z q).1 = trace3 m := by
  have hS : (approximateGivensQuaternion Real.sqrt m.x00 m.x10 m.x11).1
        * (approximateGivensQuaternion Real.sqrt m.x00 m.x10 m.x11).1
      + (approximateGivensQuaternion Real.sqrt m.x00 m.x10 m.x11).2
        * (approximateGivensQuaternion Real.sqrt m.x00 m.x10 m.x11).2 ≠ 0 :=
    ne_of_gt (jacobiConjDivisor_pos m)
  simp only [jacobiConj, trace3]
  generalize approximateGivensQuaternion Real.sqrt m.x00 m.x10 m.x11 = g at hS ⊢
  field_simp
  ring

/-- C28: each Jacobi elimination step shrinks the active off-diagonal entry. For every
real matrix state m, after one jacobiConj step the conjugated image of the active entry
m.x10, stored at x20, has absolute value at most 0.61·|m.x10|, in the stable and in the
fallback branch, while the trace x00 + x11 + x22 is unchanged. -/
theorem C28_jacobi_step_contracts (m : Mat3 ℝ) (x y z : Fin 3) (qV : Quat ℝ) :
    |(jacobiConj Real.sqrt m x y z qV).1.x20| ≤ 0.61 * |m.x10| ∧
    (jacobiConj Real.sqrt m x y z qV).1.x00 + (jacobiConj Real.sqrt m x y z qV).1.x11
        + (jacobiConj Real.sqrt m x y z qV).1.x22
      = m.x00 + m.x11 + m.x22 := by
  refine ⟨?_, jacobiConj_trace m x y z qV⟩
  rw [jacobiConj_x20]
  by_cases h : gamma * m.x10 * m.x10 < 2 * (m.x00 - m.x11) * (2 * (m.x00 - m.x11))
  · exact conjOffDiag_stable m h
  · exact conjOffDiag_fallback m h

end md3

/-! # Package ms2: lines and triangles -/

namespace ms2

theorem triangle_sort_zero (a b c : ℝ) : sort a b c = (0, 0, 0) := by
  simp [sort]

theorem orderedLengths_zero (t : Triangle ℝ) : t.orderedLengths Real.sqrt = (0, 0, 0) := by
  simp [Triangle.orderedLengths, triangle_sort_zero]

theorem Area_zero (t : Triangle ℝ) : t.Area Real.sqrt = 0 := by
  simp [Triangle.Area, orderedLengths_zero]

/-- C17 fails in the code: sort never reads its arguments, so orderedLengths returns
(0, 0, 0) and Area returns 0 for every triangle; the triangle (0,0), (1,0), (0,1) has area
1/2 and side lengths 1, √2, 1. -/
theorem C17_area_zero :
    (∀ t : Triangle ℝ, t.Area Real.sqrt = 0 ∧ t.orderedLengths Real.sqrt = (0, 0, 0)) ∧
    (unitTriangle : Triangle ℝ).Area Real.sqrt = 0 ∧
    crossArea (unitTriangle : Triangle ℝ) = 1 / 2 ∧
    Norm Real.sqrt (unitTriangle : Triangle ℝ).edges.1 = 1 := by
  refine ⟨fun t => ⟨Area_zero t, orderedLengths_zero t⟩, Area_zero _, ?_, ?_⟩
  · norm_num [crossArea, unitTriangle]
  · norm_num [Norm, Hypot, Triangle.edges, Sub, unitTriangle]

theorem Closest_unitSegment_above :
    (unitSegment : Line ℝ).Closest Real.sqrt { X := 1 / 2, Y := 1 }
      = ({ X := 1 / 2, Y := 2 }, -1) := by
  norm_num [Line.Closest, Line.edgeEquation, Line.DistanceInfinite, Hypot, Norm, Unit, Scale,
    Sub, Add, unitSegment]

theorem Closest_unitSegment_below :
    (unitSegment : Line ℝ).Closest Real.sqrt { X := 1 / 2, Y := -1 }
      = ({ X := 1 / 2, Y := 0 }, -1) := by
  norm_num [Line.Closest, Line.edgeEquation, Line.DistanceInfinite, Hypot, Norm, Unit, Scale,
    Sub, Add, unitSegment]

/-- C18 fails in the code: for the segment (0,0)..(1,0) and the point (1/2, 1), on the left
of the direction of the segment, Closest returns (1/2, 2), which is no point of the
segment (no Interpolate(s) equals it); the point (1/2, 0) of the segment is at the same
distance 1 from the argument. For the mirrored point (1/2, -1) it returns (1/2, 0). -/
theorem C18_closest_off_segment :
    ((unitSegment : Line ℝ).Closest Real.sqrt { X := 1 / 2, Y := 1 }).1
      = { X := 1 / 2, Y := 2 } ∧
    (∀ s : ℝ, (unitSegment : Line ℝ).Interpolate s
      ≠ ((unitSegment : Line ℝ).Closest Real.sqrt { X := 1 / 2, Y := 1 }).1) ∧
    (unitSegment : Line ℝ).Interpolate (1 / 2) = { X := 1 / 2, Y := 0 } ∧
    ((unitSegment : Line ℝ).Closest Real.sqrt { X := 1 / 2, Y := -1 }).1
      = { X := 1 / 2, Y := 0 } := by
  rw [Closest_unitSegment_above, Closest_unitSegment_below]
  refine ⟨rfl, ?_, ?_, rfl⟩
  · intro s h
    have := congrArg Vec.Y h
    norm_num [Line.Interpolate, Add, Scale, Sub, unitSegment] at this
  · norm_num [Line.Interpolate, Add, Scale, Sub, unitSegment]

theorem Closest_flag_cases (ln : Line ℝ) (p : Vec ℝ) :
    ln.Closest Real.sqrt p = (ln.p1, 0) ∨ ln.Closest Real.sqrt p = (ln.p0, 1) ∨
    (ln.Closest Real.sqrt p).2 = -1 := by
  unfold Line.Closest
  simp only []
  split_ifs
  · exact Or.inl rfl
  · exact Or.inr (Or.inl rfl)
  · exact Or.inr (Or.inr rfl)

/-- C19 fails in the code: the flag is swapped. For every line and point, when Closest
returns flag 0 the returned point is ln[1], and when it returns flag 1 the returned point
is ln[0]. For the segment (0,0)..(1,0) and the point (2,0) it returns (ln[1], 0), and for
the point (-1,0) it returns (ln[0], 1). -/
theorem C19_closest_flag_swapped (ln : Line ℝ) (p : Vec ℝ) :
    ((ln.Closest Real.sqrt p).2 = 0 → (ln.Closest Real.sqrt p).1 = ln.p1) ∧
    ((ln.Closest Real.sqrt p).2 = 1 → (ln.Closest Real.sqrt p).1 = ln.p0) ∧
    (unitSegment : Line ℝ).Closest Real.sqrt { X := 2, Y := 0 } = ({ X := 1, Y := 0 }, 0) ∧
    (unitSegment : Line ℝ).Closest Real.sqrt { X := -1, Y := 0 } = ({ X := 0, Y := 0 }, 1) ∧
    (unitSegment : Line ℝ).p0 ≠ { X := 1, Y := 0 } := by
  refine ⟨?_, ?_, ?_, ?_, ?_⟩
  · intro h
    rcases Closest_flag_cases ln p with e | e | e
    · rw [e]
    · rw [e] at h; simp at h
    · rw [e] at h; simp at h
  · intro h
    rcases Closest_flag_cases ln p with e | e | e
    · rw [e] at h; simp at h
    · rw [e]
    · rw [e] at h; simp at h
  · norm_num [Line.Closest, Line.edgeEquation, Sub, Add, unitSegment]
  · norm_num [Line.Closest, Line.edgeEquation, Sub, Add, unitSegment]
  · intro h
    have := congrArg Vec.X h
    norm_num [unitSegment] at this

/-- C19 at the segment (0,0)..(1,0) and the point (2,0): the flag is 0 and the returned
point is ln[1] = (1,0). -/
theorem C19_closest_flag_swapped_witness :
    ((unitSegment : Line ℝ).Closest Real.sqrt { X := 2, Y := 0 }).2 = 0 ∧
    ((unitSegment : Line ℝ).Closest Real.sqrt { X := 2, Y := 0 }).1
      = (unitSegment : Line ℝ).p1 := by
  have h : ((unitSegment : Line ℝ).Closest Real.sqrt { X := 2, Y := 0 }).2 = 0 := by
    rw [(C19_closest_flag_swapped unitSegment { X := 2, Y := 0 }).2.2.1]
  exact ⟨h, (C19_closest_flag_swapped unitSegment { X := 2, Y := 0 }).1 h⟩

theorem Contains_unitTriangle_below :
    (unitTriangle : Triangle ℝ).Contains { X := 1 / 2, Y := -1 } = false := by
  norm_num [Triangle.Contains, d2Sign, unitTriangle]

theorem closestStep_0 (large : ℝ) (h : 1 < large) :
    closestStep Real.sqrt (unitTriangle : Triangle ℝ) { X := 1 / 2, Y := -1 } 0
      ({ X := 0, Y := 0 }, 0, 0, large) = ({ X := 1 / 2, Y := 0 }, -1, -1, 1) := by
  have e : ({ p0 := { X := 0, Y := 0 }, p1 := { X := 1, Y := 0 } } : Line ℝ) = unitSegment :=
    rfl
  simp only [closestStep, Triangle.get, unitTriangle, zero_add, e, Closest_unitSegment_below]
  norm_num [Norm2, Sub, h]
  decide

theorem closestStep_1 :
    closestStep Real.sqrt (unitTriangle : Triangle ℝ) { X := 1 / 2, Y := -1 } 1
      ({ X := 1 / 2, Y := 0 }, -1, -1, 1) = ({ X := 1 / 2, Y := 0 }, -1, -1, 1) := by
  norm_num [closestStep, Triangle.get, unitTriangle, Line.Closest, Line.edgeEquation, Sub, Add,
    Norm2]

theorem closestStep_2 :
    closestStep Real.sqrt (unitTriangle : Triangle ℝ) { X := 1 / 2, Y := -1 } 2
      ({ X := 1 / 2, Y := 0 }, -1, -1, 1) = ({ X := 1 / 2, Y := 0 }, -1, -1, 1) := by
  norm_num [closestStep, Triangle.get, unitTriangle, Line.Closest, Line.edgeEquation, Sub, Add,
    Norm2]

/-- C20 fails in the code: for the triangle (0,0), (1,0), (0,1) and the point (1/2, -1),
which the triangle does not contain, Closest returns the point (1/2, 0) with side = -1 and
vertex = -1, for every initial value of minDist above 1. -/
theorem C20_closest_flags (large : ℝ) (h : 1 < large) :
    (unitTriangle : Triangle ℝ).Contains { X := 1 / 2, Y := -1 } = false ∧
    (unitTriangle : Triangle ℝ).Closest large Real.sqrt { X := 1 / 2, Y := -1 }
      = ({ X := 1 / 2, Y := 0 }, -1, -1) := by
  refine ⟨Contains_unitTriangle_below, ?_⟩
  unfold Triangle.Closest
  rw [Contains_unitTriangle_below]
  simp only [closestStep_0 large h, closestStep_1, closestStep_2]
  rfl

/-- C20 at an initial minDist of 1000. -/
theorem C20_closest_flags_witness :
    (1 : ℝ) < 1000 ∧
    (unitTriangle : Triangle ℝ).Closest 1000 Real.sqrt { X := 1 / 2, Y := -1 }
      = ({ X := 1 / 2, Y := 0 }, -1, -1) :=
  ⟨by norm_num, (C20_closest_flags 1000 (by norm_num)).2⟩

end ms2

/-! # Package i3: octree cubes and power tables -/

namespace i3

theorem wrapInt_of_range {x : Int} (h0 : -9223372036854775808 ≤ x)
    (h1 : x < 9223372036854775808) : wrapInt x = x := by
  unfold wrapInt; omega

theorem wrapInt_add_ne {x s : Int} (h0 : 0 < s) (h1 : s < 9223372036854775808) :
    wrapInt (x + s) ≠ wrapInt (x + 0) := by
  unfold wrapInt; omega

theorem pow_lt_of_le_61 {n : ℕ} (h : n ≤ 61) : (2 : Int) ^ n < 9223372036854775808 := by
  have h1 : (2 : Int) ^ n ≤ 2 ^ 61 := pow_le_pow_right₀ (by norm_num) h
  have h2 : (2 : Int) ^ 61 < 9223372036854775808 := by norm_num
  exact lt_of_le_of_lt h1 h2

theorem shiftLeftOne_eq {n : Int} (h0 : 1 ≤ n) (h1 : n ≤ 61) :
    shiftLeftOne n = 2 ^ n.toNat ∧ 0 < shiftLeftOne n ∧ shiftLeftOne n < 9223372036854775808 := by
  have hn : n.toNat ≤ 61 := by omega
  have hlt := pow_lt_of_le_61 hn
  have hpos : (0 : Int) < 2 ^ n.toNat := by positivity
  have e : shiftLeftOne n = 2 ^ n.toNat := by
    unfold shiftLeftOne
    rw [if_neg (by omega)]
    exact wrapInt_of_range (by linarith) hlt
  rw [e]
  exact ⟨rfl, hpos, hlt⟩

theorem Octree_ok (c : Cube) (h0 : 2 ≤ c.Lvl) (h1 : c.Lvl ≤ 62) :
    c.Octree = Except.ok (octants.map (subCube c (2 ^ (c.Lvl - 1).toNat))) := by
  have hl : wrapInt (c.Lvl - 1) = c.Lvl - 1 := wrapInt_of_range (by omega) (by omega)
  have hs := (shiftLeftOne_eq (n := c.Lvl - 1) (by omega) (by omega)).1
  unfold Cube.Octree
  simp only [hl, hs]
  rw [if_neg (by omega)]
  simp [octants, subCube]

theorem subCube_nodup (c : Cube) (s : Int) (h0 : 0 < s) (h1 : s < 9223372036854775808) :
    (octants.map (subCube c s)).Nodup := by
  have hx := wrapInt_add_ne (x := c.Vec.X) h0 h1
  have hy := wrapInt_add_ne (x := c.Vec.Y) h0 h1
  have hz := wrapInt_add_ne (x := c.Vec.Z) h0 h1
  rw [add_zero] at hx hy hz
  have hx' := Ne.symm hx
  have hy' := Ne.symm hy
  have hz' := Ne.symm hz
  simp [octants, subCube, Vec.Add, hx, hy, hz, hx', hy', hz']

theorem Octree_panic (c : Cube) (h0 : -9223372036854775808 < c.Lvl) (h1 : c.Lvl ≤ 1) :
    c.Octree = Except.error "invalid operation: octree for level<=1" := by
  have hl : wrapInt (c.Lvl - 1) = c.Lvl - 1 := wrapInt_of_range (by omega) (by omega)
  unfold Cube.Octree
  simp only [hl]
  rw [if_pos (by omega)]

theorem Octree_minLvl :
    minLvlCube.Octree
      = Except.ok (List.replicate 8
          { Vec := { X := 0, Y := 0, Z := 0 }, Lvl := 9223372036854775807 }) := by
  rfl

theorem octants_all :
    octants.Nodup ∧ octants.length = 8 ∧
    ∀ d ∈ octants, (d.X = 0 ∨ d.X = 1) ∧ (d.Y = 0 ∨ d.Y = 1) ∧ (d.Z = 0 ∨ d.Z = 1) := by
  decide

theorem wrapInt_corner {x s e : Int} (h0 : -9223372036854775808 ≤ x)
    (h1 : x + s < 9223372036854775808) (hs : 0 ≤ s) (he : e = 0 ∨ e = 1) :
    wrapInt (x + s * e) = x + s * e := by
  rcases he with rfl | rfl
  · rw [mul_zero]; exact wrapInt_of_range (by omega) (by omega)
  · rw [mul_one]; exact wrapInt_of_range (by omega) (by omega)

theorem subCube_exact (c : Cube) (s : Int) (hs : 0 ≤ s)
    (hx : -9223372036854775808 ≤ c.Vec.X ∧ c.Vec.X + s < 9223372036854775808)
    (hy : -9223372036854775808 ≤ c.Vec.Y ∧ c.Vec.Y + s < 9223372036854775808)
    (hz : -9223372036854775808 ≤ c.Vec.Z ∧ c.Vec.Z + s < 9223372036854775808) :
    ∀ d ∈ octants, (subCube c s d).Vec
      = { X := c.Vec.X + s * d.X, Y := c.Vec.Y + s * d.Y, Z := c.Vec.Z + s * d.Z } := by
  intro d hd
  obtain ⟨ex, ey, ez⟩ := octants_all.2.2 d hd
  simp only [subCube, Vec.Add]
  rw [wrapInt_corner hx.1 hx.2 hs ex, wrapInt_corner hy.1 hy.2 hs ey,
    wrapInt_corner hz.1 hz.2 hs ez]

/-- C21 fails in the code at one level: for the cube with Lvl = -2^63, the least value of a
64-bit `int`, `c.Lvl - 1` wraps around to 2^63 - 1, the test `lvl <= 0` is false, and
Octree returns eight equal cubes instead of panicking. -/
theorem C21_counterexample :
    minLvlCube.Lvl ≤ 1 ∧
    minLvlCube.Octree
      = Except.ok (List.replicate 8
          { Vec := { X := 0, Y := 0, Z := 0 }, Lvl := 9223372036854775807 }) ∧
    minLvlCube.Octree ≠ Except.error "invalid operation: octree for level<=1" := by
  refine ⟨by decide, Octree_minLvl, ?_⟩
  rw [Octree_minLvl]
  exact fun h => nomatch h

/-- C21 on every other level: for every Cube c with 2 ≤ Lvl ≤ 62, Octree returns 8
pairwise-distinct cubes, each with Lvl = c.Lvl - 1 and origin c.Vec + s·(dx, dy, dz) taken
with the wrapping addition of `int`, where s = 2^(c.Lvl - 1) and (dx, dy, dz) ranges over
all of {0,1}³; the sum is the exact integer sum when no coordinate overflows. For
every cube with -2^63 < Lvl ≤ 1 Octree panics. -/
theorem C21_octree (c : Cube) :
    (2 ≤ c.Lvl → c.Lvl ≤ 62 →
      c.Octree = Except.ok (octants.map (subCube c (2 ^ (c.Lvl - 1).toNat))) ∧
      (octants.map (subCube c (2 ^ (c.Lvl - 1).toNat))).Nodup ∧
      (octants.map (subCube c (2 ^ (c.Lvl - 1).toNat))).length = 8 ∧
      (∀ k ∈ octants.map (subCube c (2 ^ (c.Lvl - 1).toNat)), k.Lvl = c.Lvl - 1) ∧
      ((-9223372036854775808 ≤ c.Vec.X ∧
          c.Vec.X + 2 ^ (c.Lvl - 1).toNat < 9223372036854775808) →
        (-9223372036854775808 ≤ c.Vec.Y ∧
          c.Vec.Y + 2 ^ (c.Lvl - 1).toNat < 9223372036854775808) →
        (-9223372036854775808 ≤ c.Vec.Z ∧
          c.Vec.Z + 2 ^ (c.Lvl - 1).toNat < 9223372036854775808) →
        ∀ d ∈ octants, (subCube c (2 ^ (c.Lvl - 1).toNat) d).Vec
          = { X := c.Vec.X + 2 ^ (c.Lvl - 1).toNat * d.X,
              Y := c.Vec.Y + 2 ^ (c.Lvl - 1).toNat * d.Y,
              Z := c.Vec.Z + 2 ^ (c.Lvl - 1).toNat * d.Z })) ∧
    (octants.Nodup ∧ octants.length = 8 ∧
      ∀ d ∈ octants, (d.X = 0 ∨ d.X = 1) ∧ (d.Y = 0 ∨ d.Y = 1) ∧ (d.Z = 0 ∨ d.Z = 1)) ∧
    (-9223372036854775808 < c.Lvl → c.Lvl ≤ 1 →
      c.Octree = Except.error "invalid operation: octree for level<=1") := by
  refine ⟨fun h0 h1 => ?_, octants_all, Octree_panic c⟩
  obtain ⟨hs, hpos, hlt⟩ := shiftLeftOne_eq (n := c.Lvl - 1) (by omega) (by omega)
  rw [hs] at hpos hlt
  refine ⟨Octree_ok c h0 h1, subCube_nodup c _ hpos hlt, by simp [octants], ?_,
    subCube_exact c _ hpos.le⟩
  intro k hk
  simp only [List.mem_map] at hk
  obtain ⟨d, -, rfl⟩ := hk
  rfl

/-- C21 at the cube of level 2 at the origin, which decomposes, and at the cube of level 1
at the origin, which panics. -/
theorem C21_octree_witness :
    ((2 : Int) ≤ cube2.Lvl ∧ cube2.Lvl ≤ 62 ∧
      cube2.Octree = Except.ok (octants.map (subCube cube2 (2 ^ (cube2.Lvl - 1).toNat)))) ∧
    ((-9223372036854775808 : Int) < 1 ∧ (1 : Int) ≤ 1 ∧
      Cube.Octree { Vec := { X := 0, Y := 0, Z := 0 }, Lvl := 1 }
        = Except.error "invalid operation: octree for level<=1") := by
  have h0 : (2 : Int) ≤ cube2.Lvl := by decide
  have h1 : cube2.Lvl ≤ 62 := by decide
  have h2 : (-9223372036854775808 : Int) < 1 := by decide
  have h3 : (1 : Int) ≤ 1 := le_refl 1
  exact ⟨⟨h0, h1, ((C21_octree cube2).1 h0 h1).1⟩, h2, h3,
    (C21_octree { Vec := { X := 0, Y := 0, Z := 0 }, Lvl := 1 }).2.2 h2 h3⟩

theorem Pow8_table (y : Int) (h0 : 0 ≤ y) (h1 : y ≤ 21) : Pow8 y = Except.ok (8 ^ y.toNat) := by
  interval_cases y <;> rfl

theorem Pow4_table (y : Int) (h0 : 0 ≤ y) (h1 : y ≤ 29) : Pow4 y = Except.ok (4 ^ y.toNat) := by
  interval_cases y <;> rfl

theorem Pow8_overflow (y : Int) (h : 22 ≤ y) : Pow8 y = Except.error "overflow Pow8" := by
  unfold Pow8
  rw [if_neg]
  simp [_pow8]
  omega

theorem Pow4_overflow (y : Int) (h : 31 ≤ y) : Pow4 y = Except.error "overflow Pow4" := by
  unfold Pow4
  rw [if_neg]
  simp [_pow4]
  omega

/-- C22 fails in the code: the entry of `_pow4` at index 30 is written with 31 factors, so
Pow4(30) returns 4^31 = 4611686018427387904 and not 4^30 = 1152921504606846976, and
Pow4(31) panics although 4^31 fits in a uint64. Pow8(y) = 8^y for 0 ≤ y ≤ 21 and
Pow4(y) = 4^y for 0 ≤ y ≤ 29; Pow8 panics from 22 on, where 8^22 exceeds 2^64 - 1; every
table entry fits in a uint64. -/
theorem C22_pow_tables :
    (∀ y : Int, 0 ≤ y → y ≤ 21 → Pow8 y = Except.ok (8 ^ y.toNat)) ∧
    (∀ y : Int, 22 ≤ y → Pow8 y = Except.error "overflow Pow8") ∧
    2 ^ 64 ≤ 8 ^ 22 ∧
    (∀ y : Int, 0 ≤ y → y ≤ 29 → Pow4 y = Except.ok (4 ^ y.toNat)) ∧
    Pow4 30 = Except.ok (4 ^ 31) ∧
    Pow4 30 ≠ Except.ok (4 ^ 30) ∧
    (∀ y : Int, 31 ≤ y → Pow4 y = Except.error "overflow Pow4") ∧
    4 ^ 31 < 2 ^ 64 ∧
    (∀ v ∈ _pow8 ++ _pow4, v < 2 ^ 64) := by
  refine ⟨Pow8_table, Pow8_overflow, by norm_num, Pow4_table, rfl, ?_, Pow4_overflow,
    by norm_num, by decide⟩
  have h : Pow4 30 = Except.ok (4 ^ 31) := rfl
  rw [h]
  intro e
  have := Except.ok.inj e
  norm_num at this

end i3
